import Mathlib

/-!
# keysjs: the packed key code and the key-binding parser of `key.js`

A shallow embedding of `src/key.js`.

* JavaScript numbers that occur in the program are integers; they are modelled by `Int`.
  The bitwise operators convert their operands with `ToInt32`, work on the 32-bit
  pattern and return a signed 32-bit value; this is `toUint32` / `toInt32` below.
* JavaScript strings are sequences of UTF-16 code units; they are modelled by
  `List Nat` (`JSString`), one entry per code unit.
* A `Key` object holds the private field `#code`; setters mutate it in place and
  are modelled as functions returning the updated key.
* `String.prototype.toLowerCase` belongs to the host; `parseKeys` takes it as the
  parameter `lc`. `asciiToLowerCase` is its restriction to ASCII strings.
* Indices into a string are natural numbers. In `parseKeys`, `right = i - 1` comes
  after at least one step of the scan for `>`, and `j -= 2` comes after
  `j = left + 1` with `left` at least 1, so no subtraction is cut off at zero.
* A call yields an `Outcome`: a value, `failure` for `return false`, or `stuck` when
  the fuel of the model is used up or the code would throw.
* The handlers `window.onkeydown` and `window.onkeyup` are steps on a state that
  holds the table `waiting`, the timeouts of the host and the calls made to the
  handlers of the consumer. The firing of a timeout is a step of its own; the
  delay of 4 ms is not modelled, a timeout that is set may fire at any later step.
-/

namespace KeysJS

/-! ## Numbers and bitwise operators -/

/-- The 32-bit pattern of an integer (ECMAScript `ToUint32`): the value modulo `2^32`. -/
def toUint32 (x : Int) : Nat := (x % 4294967296).toNat

/-- The signed reading of a 32-bit pattern (ECMAScript `ToInt32`). -/
def toInt32 (x : Int) : Int :=
  let u := x % 4294967296
  if 2147483648 ≤ u then u - 4294967296 else u

/-- JavaScript `a & b`. -/
def jsAnd (a b : Int) : Int := toInt32 (((toUint32 a) &&& (toUint32 b) : Nat) : Int)

/-- JavaScript `a | b`. -/
def jsOr (a b : Int) : Int := toInt32 (((toUint32 a) ||| (toUint32 b) : Nat) : Int)

/-- JavaScript `a ^ b`. -/
def jsXor (a b : Int) : Int := toInt32 (((toUint32 a) ^^^ (toUint32 b) : Nat) : Int)

/-- JavaScript `a << n`: the shift count is taken modulo 32. -/
def jsShl (a n : Int) : Int := toInt32 (((toUint32 a) <<< (toUint32 n % 32) : Nat) : Int)

/-- JavaScript `Boolean(v)` for a number `v`: every number but zero is truthy. -/
def toBoolean (v : Int) : Bool := v != 0

/-- The number a boolean converts to when it is an operand of a bitwise operator. -/
def boolToInt (b : Bool) : Int := if b then 1 else 0

/-! ## The `Key` class (key.js, lines 1-63) -/

/-- Source: `const nbits = 8;` -/
def nbits : Int := 8

/-- Source: `const nmods = 5;` -/
def nmods : Int := 5

/-- Source: `const cmask = (1 << nbits) - 1;` -/
def cmask : Int := jsShl 1 nbits - 1

/-- Source: `const mmask = ((1 << nmods) - 1) << nbits;` -/
def mmask : Int := jsShl (jsShl 1 nmods - 1) nbits

/-- Source: `const mask = cmask | mmask;` -/
def mask : Int := jsOr cmask mmask

/-- A `Key` object: its only state is the private field `#code`. -/
structure Key where
  code : Int
  deriving DecidableEq, Repr

namespace Key

/-- Source: `constructor (code = 0) { this.#code = code & mask; }` -/
def new (code : Int := 0) : Key := ⟨jsAnd code mask⟩

/-- Source: `set code (v) { return this.#code = v; }` -/
def setCode (_k : Key) (v : Int) : Key := ⟨v⟩

/-- Source: `get key ( ) { return this.#code & cmask; }` -/
def key (k : Key) : Int := jsAnd k.code cmask

/-- Source: `get mods ( ) { return this.#code & mmask; }` -/
def mods (k : Key) : Int := jsAnd k.code mmask

/-- The class declares no member `char`: reading `this.char` yields `undefined`,
modelled by `none`. -/
def char (_k : Key) : Option Int := none

/-- The number an operand of a bitwise operator converts to; `undefined` converts
to `NaN` and `ToInt32 NaN` is `0`. -/
def operand : Option Int → Int
  | some v => v
  | none => 0

/-- Source: `set key (v) { return this.#code = this.mods | v; }` -/
def setKey (k : Key) (v : Int) : Key := ⟨jsOr k.mods v⟩

/-- Source: `set mods (v) { return this.#code = this.char | v; }` -/
def setMods (k : Key) (v : Int) : Key := ⟨jsOr (operand k.char) v⟩

/-- Source: `getBit (i) { return this.#code & (1 << i); }` -/
def getBit (k : Key) (i : Int) : Int := jsAnd k.code (jsShl 1 i)

/-- Source: `setBit (i, v)`: `this.#code &= mask ^ (1 << i); this.#code |= (Boolean(v) & 1) << i;`
The argument `v` is passed here already converted by `Boolean`. -/
def setBit (k : Key) (i : Int) (v : Bool) : Key :=
  let c1 := jsAnd k.code (jsXor mask (jsShl 1 i))
  ⟨jsOr c1 (jsShl (jsAnd (boolToInt v) 1) i)⟩

/-- Source: `get shift ( ) { return this.getBit (nbits + 0); }` -/
def shift (k : Key) : Int := k.getBit (nbits + 0)

/-- Source: `get ctrl ( ) { return this.getBit (nbits + 1); }` -/
def ctrl (k : Key) : Int := k.getBit (nbits + 1)

/-- Source: `get alt ( ) { return this.getBit (nbits + 2); }` -/
def alt (k : Key) : Int := k.getBit (nbits + 2)

/-- Source: `get meta ( ) { return this.getBit (nbits + 3); }` -/
def meta (k : Key) : Int := k.getBit (nbits + 3)

/-- Source: `get lower ( ) { return this.getBit (nbits + 4); }` -/
def lower (k : Key) : Int := k.getBit (nbits + 4)

/-- Source: `set shift (v) { return this.setBit (nbits + 0, v); }` -/
def setShift (k : Key) (v : Bool) : Key := k.setBit (nbits + 0) v

/-- Source: `set ctrl (v) { return this.setBit (nbits + 1, v); }` -/
def setCtrl (k : Key) (v : Bool) : Key := k.setBit (nbits + 1) v

/-- Source: `set alt (v) { return this.setBit (nbits + 2, v); }` -/
def setAlt (k : Key) (v : Bool) : Key := k.setBit (nbits + 2) v

/-- Source: `set meta (v) { return this.setBit (nbits + 3, v); }` -/
def setMeta (k : Key) (v : Bool) : Key := k.setBit (nbits + 3) v

/-- Source: `set lower (v) { return this.setBit (nbits + 4, v); }` -/
def setLower (k : Key) (v : Bool) : Key := k.setBit (nbits + 4) v

/-- Source: `isLetter () { return this.key >= 65 && this.key <= 90; }` -/
def isLetter (k : Key) : Bool := decide (65 ≤ k.key) && decide (k.key ≤ 90)

end Key

/-- The five named modifiers, in the order of their bits. -/
inductive Modifier where
  | shift | ctrl | alt | meta | lower
  deriving DecidableEq, Repr

namespace Modifier

/-- Position of a modifier among the modifier bits. -/
def index : Modifier → Nat
  | shift => 0
  | ctrl => 1
  | alt => 2
  | meta => 3
  | lower => 4

/-- The named getter of a modifier. -/
def get (m : Modifier) (k : Key) : Int :=
  match m with
  | shift => k.shift
  | ctrl => k.ctrl
  | alt => k.alt
  | meta => k.meta
  | lower => k.lower

/-- The named setter of a modifier. -/
def set (m : Modifier) (k : Key) (v : Bool) : Key :=
  match m with
  | shift => k.setShift v
  | ctrl => k.setCtrl v
  | alt => k.setAlt v
  | meta => k.setMeta v
  | lower => k.setLower v

end Modifier

/-! ## Strings -/

/-- A JavaScript string: its UTF-16 code units. -/
abbrev JSString := List Nat

/-- The code units of one Unicode scalar value. -/
def utf16Char (c : Char) : List Nat :=
  if c.toNat < 65536 then [c.toNat]
  else [55296 + (c.toNat - 65536) / 1024, 56320 + (c.toNat - 65536) % 1024]

/-- The JavaScript string written by a literal. -/
def utf16 (s : String) : JSString := s.toList.flatMap utf16Char

/-- What the ECMAScript case mapping does to a code unit of the ASCII range:
`A`..`Z` go to `a`..`z`, every other one is unchanged. -/
def asciiLowerUnit (c : Nat) : Nat := if 65 ≤ c ∧ c ≤ 90 then c + 32 else c

/-- The restriction of `String.prototype.toLowerCase` to ASCII strings. The parser
takes the host's `toLowerCase` as a parameter `lc`; this is the instance used to
evaluate it on ASCII descriptors. -/
def asciiToLowerCase (s : JSString) : JSString := s.map asciiLowerUnit

/-- The host's `toLowerCase` agrees with the ASCII mapping on ASCII strings. -/
def LowersAscii (lc : JSString → JSString) : Prop :=
  ∀ w : JSString, (∀ c ∈ w, c < 128) → lc w = asciiToLowerCase w

/-! ## The outcome of a call -/

/-- What a call of `parseKeys` (or of one of its loops) produces: a value, the
value `false` after `console.error`, or no value at all (`stuck`: the model ran
out of fuel, or the code would have thrown). -/
inductive Outcome (α : Type) where
  | ok (a : α)
  | failure
  | stuck
  deriving DecidableEq, Repr

/-! ## The name table (key.js, lines 246-276) -/

/-- The own properties of the object literal `names`. -/
def names : List (JSString × Int) :=
  [ (utf16 "bs", 8), (utf16 "backspace", 8), (utf16 "tab", 9), (utf16 "cr", 13),
    (utf16 "return", 13), (utf16 "enter", 13), (utf16 "caps", 20), (utf16 "esc", 27),
    (utf16 "escape", 27), (utf16 "pgup", 33), (utf16 "pgdown", 34), (utf16 "end", 35),
    (utf16 "home", 36), (utf16 "left", 37), (utf16 "up", 38), (utf16 "right", 39),
    (utf16 "down", 40), (utf16 "f1", 112), (utf16 "f2", 113), (utf16 "f3", 114),
    (utf16 "f4", 115), (utf16 "f5", 116), (utf16 "f6", 117), (utf16 "f7", 118),
    (utf16 "f8", 119), (utf16 "f9", 120), (utf16 "f10", 121), (utf16 "f11", 122),
    (utf16 "f12", 123) ]

/-- The keys of the name table. -/
def nameKeys : List JSString := names.map Prod.fst

/-- The properties an object literal inherits from `Object.prototype`. -/
def objectPrototypeKeys : List JSString :=
  [ utf16 "constructor", utf16 "__defineGetter__", utf16 "__defineSetter__",
    utf16 "hasOwnProperty", utf16 "__lookupGetter__", utf16 "__lookupSetter__",
    utf16 "isPrototypeOf", utf16 "propertyIsEnumerable", utf16 "toString",
    utf16 "valueOf", utf16 "__proto__", utf16 "toLocaleString" ]

/-- Source: `word in names`: the operator `in` also finds inherited properties. -/
def inNames (word : JSString) : Bool :=
  (names.lookup word).isSome || objectPrototypeKeys.contains word

/-- Source: `names[word]` as the argument of `new Key`: the number of an own property;
an inherited property is an object or a function, which `code & mask` converts
to `NaN` and then to `0`. -/
def namesValue (word : JSString) : Int :=
  match names.lookup word with
  | some v => v
  | none => 0

/-! ## `parseKeys` (key.js, lines 283-373) -/

/-- The loop `for (; i < str.length && str[i] != '>'; i++);` run on the part of
the string that starts at index `i`. -/
def scanFrom : List Nat → Nat → Nat
  | [], i => i
  | c :: cs, i => if c ≠ 62 then scanFrom cs (i + 1) else i

/-- The index the scan for the closing `>` stops at, started at `i`. -/
def scanClose (str : JSString) (i : Nat) : Nat := scanFrom (str.drop i) i

/-- The loop `for (; j < right && str[j] == '-'; j+=2);` run on the part of the
string that starts at index `j`. -/
def skipFrom (right : Nat) : List Nat → Nat → Nat
  | [], j => j
  | [c], j => if j < right ∧ c = 45 then j + 2 else j
  | c :: _ :: cs, j => if j < right ∧ c = 45 then skipFrom right cs (j + 2) else j

/-- The index the scan over the dashes stops at, started at `j`. -/
def skipDashes (str : JSString) (right j : Nat) : Nat := skipFrom right (str.drop j) j

/-- The body of the `switch` on `str[u].toLowerCase()`. -/
def applyModifier (lc : JSString → JSString) (c : Nat) (k : Key) : Option Key :=
  let s := lc [c]
  if s = [99] then some (k.setCtrl true)
  else if s = [97] then some (k.setAlt true)
  else if s = [109] then some (k.setMeta true)
  else if s = [115] then some (k.setShift true)
  else none

/-- The loop `for (let u = left; u < j; u+=2) switch ...` run on the part of the
string that starts at index `u`; `failure` is its `return false`. -/
def modsFrom (lc : JSString → JSString) (j : Nat) : List Nat → Nat → Key → Outcome Key
  | [], u, k => if u < j then .stuck else .ok k
  | [c], u, k =>
    if u < j then
      match applyModifier lc c k with
      | none => .failure
      | some k1 => if u + 2 < j then .stuck else .ok k1
    else .ok k
  | c :: _ :: cs, u, k =>
    if u < j then
      match applyModifier lc c k with
      | none => .failure
      | some k1 => modsFrom lc j cs (u + 2) k1
    else .ok k

/-- The modifier loop started at `left`. -/
def applyModifiers (lc : JSString → JSString) (str : JSString) (left j : Nat) (k : Key) :
    Outcome Key :=
  modsFrom lc j (str.drop left) left k

/-- The key pushed for a letter: `new Key (code & 0xdf)` followed by
`k.lower = code & 0x20`. -/
def letterKey (code : Nat) : Key :=
  (Key.new (jsAnd code 223)).setLower (toBoolean (jsAnd code 32))

/-- The main loop of `parseKeys`, started at index `i` with the array `res`;
`self` is `parseKeys` itself, for the call on a one-character word. One unit of
fuel is spent per iteration. -/
def parseLoop (self : JSString → Outcome (List Key)) (lc : JSString → JSString)
    (str : JSString) : Nat → Nat → List Key → Outcome (List Key)
  | 0, i, res => if i < str.length then .stuck else .ok res
  | fuel + 1, i, res =>
    -- `for (let i = 0; i < str.length; i++)`
    if ¬ i < str.length then .ok res
    else
      -- `const chr = str[i]; const code = str.charCodeAt(i);`
      match str[i]? with
      | none => .stuck
      | some code =>
        if (65 ≤ code ∧ code ≤ 90) ∨ (97 ≤ code ∧ code ≤ 122) then
          -- `res.push (k); continue;`
          parseLoop self lc str fuel (i + 1) (res ++ [letterKey code])
        else if code ≠ 60 then
          -- `if (chr != '<') { res.push (new Key(code)); continue; }`
          parseLoop self lc str fuel (i + 1) (res ++ [Key.new code])
        else
          -- `let left = i; for (...; i++); let right = i - 1;`
          let left := i
          let i := scanClose str i
          let right := i - 1
          -- `if (str[i] != '>' || left == right)`: push a literal `<`, `i = left`
          if str[i]? ≠ some 62 ∨ left = right then
            parseLoop self lc str fuel (left + 1) (res ++ [Key.new 60])
          else
            -- `left++; let j = left + 1; for (...; j+=2); j -= 2;`
            let left := left + 1
            let j := skipDashes str right (left + 1) - 2
            -- `let word = str.substr(j+1,right-j);`
            let word := (str.drop (j + 1)).take (right - j)
            if word.length = 1 then
              -- `k = parseKeys(word)[0];`
              match self word with
              | .ok (k :: _) =>
                match applyModifiers lc str left j k with
                | .ok k1 => parseLoop self lc str fuel (i + 1) (res ++ [k1])
                | .failure => .failure
                | .stuck => .stuck
              | _ => .stuck
            else if word.length = 2 ∧ j = left - 1 then
              -- `res.push (new Key (60)); i = j; continue;`
              parseLoop self lc str fuel (j + 1) (res ++ [Key.new 60])
            else
              -- `word = word.toLowerCase(); if (!(word in names)) return false;`
              let word := lc word
              if ¬ inNames word then .failure
              else
                -- `k = new Key (names[word]);`, the modifiers, `res.push (k);`
                match applyModifiers lc str left j (Key.new (namesValue word)) with
                | .ok k1 => parseLoop self lc str fuel (i + 1) (res ++ [k1])
                | .failure => .failure
                | .stuck => .stuck

/-- The function `parseKeys` with a bound on the depth of its calls of itself. -/
def parseKeysDepth (lc : JSString → JSString) : Nat → JSString → Outcome (List Key)
  | 0, _ => .stuck
  | depth + 1, str => parseLoop (parseKeysDepth lc depth) lc str str.length 0 []

/-- The function `window.parseKeys`: the loop runs at most `str.length` times, and
the call of itself is made on a word of one character, which makes no further call. -/
def parseKeys (lc : JSString → JSString) (str : JSString) : Outcome (List Key) :=
  parseKeysDepth lc 2 str

/-! ## Notions used to state the properties of `parseKeys` -/

/-- The key the main loop pushes for a character it takes literally. -/
def charKey (c : Nat) : Key :=
  if (65 ≤ c ∧ c ≤ 90) ∨ (97 ≤ c ∧ c ≤ 122) then letterKey c else Key.new c

/-- The text of a modifier prefix: every listed character followed by a dash. -/
def modPrefix : List Nat → JSString
  | [] => []
  | m :: ms => m :: 45 :: modPrefix ms

/-- The `switch` run over the listed modifier characters in order; `none` as soon
as one of them is unknown. -/
def foldMods (lc : JSString → JSString) : List Nat → Key → Option Key
  | [], k => some k
  | m :: ms, k =>
    match applyModifier lc m k with
    | none => none
    | some k1 => foldMods lc ms k1

/-- The outcome of the modifier loop, from the fold over the modifiers. -/
def modsOutcome : Option Key → Outcome Key
  | some k => .ok k
  | none => .failure

/-- The key a bracket with the modifier characters `ms` and the name `N` resolves
to: the name is a single character (parsed by `self`) or is looked up in the
table, and the modifiers are applied to the key found. -/
def bracketKey (self : JSString → Outcome (List Key)) (lc : JSString → JSString)
    (ms : List Nat) (N : JSString) : Outcome Key :=
  if N.length = 1 then
    match self N with
    | .ok (k :: _) => modsOutcome (foldMods lc ms k)
    | _ => .stuck
  else if inNames (lc N) then modsOutcome (foldMods lc ms (Key.new (namesValue (lc N))))
  else .failure

/-- The modifier a prefix letter stands for: `c` is ctrl, `a` is alt, `m` is meta
and `s` is shift, in either letter case. -/
def modifierOfLetter (m : Nat) : Option Modifier :=
  if asciiLowerUnit m = 99 then some .ctrl
  else if asciiLowerUnit m = 97 then some .alt
  else if asciiLowerUnit m = 109 then some .meta
  else if asciiLowerUnit m = 115 then some .shift
  else none

/-- What the key of a character of code at most 255 holds. -/
def CharKeySpec (c : Nat) (k : Key) : Prop :=
  ((65 ≤ c ∧ c ≤ 90) ∨ (97 ≤ c ∧ c ≤ 122) →
      k.key = ((c &&& 223 : Nat) : Int) ∧ k.key = ((if 97 ≤ c then c - 32 else c : Nat) : Int)
        ∧ (k.lower ≠ 0 ↔ 97 ≤ c)
        ∧ k.shift = 0 ∧ k.ctrl = 0 ∧ k.alt = 0 ∧ k.meta = 0)
  ∧ (¬ ((65 ≤ c ∧ c ≤ 90) ∨ (97 ≤ c ∧ c ≤ 122)) →
      k.key = (c : Int)
        ∧ k.shift = 0 ∧ k.ctrl = 0 ∧ k.alt = 0 ∧ k.meta = 0 ∧ k.lower = 0)

instance (c : Nat) (k : Key) : Decidable (CharKeySpec c k) := by
  unfold CharKeySpec
  infer_instance

/-! ## `getChar` (key.js, lines 55-60) and `keyEventToKey` (lines 110-134) -/

/-- The string `String.fromCharCode (c)`: one code unit, the number modulo `2^16`. -/
def fromCharCode (c : Int) : JSString := [(c % 65536).toNat]

/-- Source: `getChar ()`: `let c = this.key; if (this.lower && !this.shift) c ^= 0x20;
return String.fromCharCode (c);` -/
def Key.getChar (k : Key) : JSString :=
  let c := k.key
  let c := if toBoolean k.lower && !toBoolean k.shift then jsXor c 32 else c
  fromCharCode c

/-- The number `s.charCodeAt(i)`; outside the string it is `NaN`, modelled by `none`. -/
def charCodeAt (s : JSString) (i : Nat) : Option Int := (s[i]?).map Int.ofNat

/-- A time stamp of the host. The program stores it and passes it on, and never
computes with it. -/
abbrev TimeStamp := Int

/-- The fields of a keyboard event that the program reads. -/
structure KeyEvent where
  keyCode : Int
  key : JSString
  shiftKey : Bool
  ctrlKey : Bool
  altKey : Bool
  metaKey : Bool
  timeStamp : TimeStamp
  deriving DecidableEq, Repr

/-- The function `keyEventToKey (ev)`. -/
def keyEventToKey (ev : KeyEvent) : Key :=
  -- `const k = new Key (ev.keyCode);`
  let k := Key.new ev.keyCode
  -- `k.shift = ev.shiftKey; k.ctrl = ev.ctrlKey; k.alt = ev.altKey; k.meta = ev.metaKey;`
  let k := k.setShift ev.shiftKey
  let k := k.setCtrl ev.ctrlKey
  let k := k.setAlt ev.altKey
  let k := k.setMeta ev.metaKey
  if k.isLetter then
    -- `const chr = ev.key.charCodeAt(0); const upper = Boolean (chr & 0x20);`
    let chr := Key.operand (charCodeAt ev.key 0)
    let upper := toBoolean (jsAnd chr 32)
    -- `if (upper != ev.shiftKey) k.lower = true;`
    if upper != ev.shiftKey then k.setLower true else k
  else k

/-! ## Sequences of the mutating operations of `Key` -/

/-- One mutating operation of a key: `k.code = v`, `k.key = v`, `k.mods = v`, or one
of the five named modifier setters `k.m = b`. -/
inductive KeyOp where
  | setCode (v : Int)
  | setKey (v : Int)
  | setMods (v : Int)
  | setModifier (m : Modifier) (b : Bool)
  deriving DecidableEq, Repr

/-- The key after one mutating operation. -/
def KeyOp.apply (k : Key) : KeyOp → Key
  | .setCode v => k.setCode v
  | .setKey v => k.setKey v
  | .setMods v => k.setMods v
  | .setModifier m b => m.set k b

/-- The code of the key is within the 13 defined bits: `code == (code & 0x1FFF)`. -/
def Key.CodeMasked (k : Key) : Prop := k.code = jsAnd k.code 8191

instance (k : Key) : Decidable k.CodeMasked := by
  unfold Key.CodeMasked
  infer_instance

/-- The argument of the operation has no bit outside the 13 defined bits:
`(v & 0x1FFF) == v` for `k.code = v`, which stores `v` itself, and
`(v & 0x1FFF) == (v | 0)` for `k.key = v` and `k.mods = v`, which store `v` as an
operand of `|`, that is converted to a 32-bit integer; a modifier setter takes any
argument. -/
def KeyOp.InMask : KeyOp → Prop
  | .setCode v => jsAnd v 8191 = v
  | .setKey v => jsAnd v 8191 = jsOr v 0
  | .setMods v => jsAnd v 8191 = jsOr v 0
  | .setModifier _ _ => True

instance (op : KeyOp) : Decidable op.InMask := by
  cases op <;> unfold KeyOp.InMask <;> infer_instance

/-! ## The repeat classifier (key.js, lines 195-242)

The host delivers key events and runs the callbacks of the timeouts it holds. The
delay of 4 ms is not modelled: a timeout that is set may fire at any later step,
which covers every order in which the host can deliver events and timeouts. -/

/-- A call of a handler of the consumer: `window.keydown (k, t, r)` or
`window.keyup (k, t)`. -/
inductive Call where
  | down (k : Key) (t : TimeStamp) (r : Bool)
  | up (k : Key) (t : TimeStamp)
  deriving DecidableEq, Repr

/-- A timeout that `setTimeout` has set and that has neither fired nor been cleared:
its id, and the variables `c`, `k`, `t` that its callback
`_ => { delete waiting[c]; myKeyUp (k, t); }` closes over. -/
structure Timer where
  id : Nat
  c : Int
  k : Key
  t : TimeStamp
  deriving DecidableEq, Repr

/-- The state of the classifier and of the host around it: the own properties of
the object `waiting` (code and timeout id), the timeouts the host holds, the id
that the next `setTimeout` returns, whether `window.keydown` and `window.keyup`
are set, and the calls of these handlers made so far. -/
structure Classifier where
  waiting : List (Int × Nat)
  timers : List Timer
  nextId : Nat
  keydown : Bool
  keyup : Bool
  calls : List Call
  deriving DecidableEq, Repr

/-- Source: `function myKeyDown (k, t, r) { if (window.keydown) return window.keydown(k,t,r); }` -/
def myKeyDown (s : Classifier) (k : Key) (t : TimeStamp) (r : Bool) : Classifier :=
  if s.keydown then { s with calls := s.calls ++ [Call.down k t r] } else s

/-- Source: `function myKeyUp (k, t) { if (window.keyup) return window.keyup(k,t); }` -/
def myKeyUp (s : Classifier) (k : Key) (t : TimeStamp) : Classifier :=
  if s.keyup then { s with calls := s.calls ++ [Call.up k t] } else s

/-- The handler `window.onkeydown`. -/
def onkeydown (s : Classifier) (ev : KeyEvent) : Classifier :=
  -- `const k = keyEventToKey (ev); const c = k.code; const t = ev.timeStamp;`
  let k := keyEventToKey ev
  let c := k.code
  let t := ev.timeStamp
  -- `if (c in waiting)`
  match s.waiting.lookup c with
  | some id =>
    -- `clearTimeout(waiting[c]); delete waiting[c]; return myKeyDown (k, t, true);`
    myKeyDown
      { s with
        timers := s.timers.filter (fun τ => τ.id ≠ id)
        waiting := s.waiting.filter (fun e => e.1 ≠ c) }
      k t true
  | none =>
    -- `return myKeyDown (k, t, false);`
    myKeyDown s k t false

/-- The handler `window.onkeyup`:
`waiting[c] = setTimeout (_ => { delete waiting[c]; myKeyUp (k, t); }, 4);` -/
def onkeyup (s : Classifier) (ev : KeyEvent) : Classifier :=
  let k := keyEventToKey ev
  let c := k.code
  let t := ev.timeStamp
  { s with
    timers := s.timers ++ [⟨s.nextId, c, k, t⟩]
    nextId := s.nextId + 1
    waiting := (c, s.nextId) :: s.waiting.filter (fun e => e.1 ≠ c) }

/-- The host fires the timeout `id`: when it holds such a timeout, it drops it and
runs its callback `delete waiting[c]; myKeyUp (k, t);`. -/
def timeout (s : Classifier) (id : Nat) : Classifier :=
  match s.timers.find? (fun τ => τ.id = id) with
  | some τ =>
    myKeyUp
      { s with
        timers := s.timers.filter (fun τ1 => τ1.id ≠ id)
        waiting := s.waiting.filter (fun e => e.1 ≠ τ.c) }
      τ.k τ.t
  | none => s

/-- What the host can do next: deliver a key-down, deliver a key-up, fire a timeout. -/
inductive Input where
  | keydown (ev : KeyEvent)
  | keyup (ev : KeyEvent)
  | timeout (id : Nat)
  deriving DecidableEq, Repr

/-- One step of the classifier. -/
def step (s : Classifier) : Input → Classifier
  | .keydown ev => onkeydown s ev
  | .keyup ev => onkeyup s ev
  | .timeout id => timeout s id

/-- A sequence of steps. -/
def run (s : Classifier) (ins : List Input) : Classifier := ins.foldl step s

/-- The state at load time: `const waiting = {};`, no timeout set. -/
def Classifier.empty (nextId : Nat) (keydown keyup : Bool) : Classifier :=
  ⟨[], [], nextId, keydown, keyup, []⟩

/-! ## Notions used to state the properties of the classifier -/

/-- The input is no key-down of code `c` and not the firing of timeout `n`. -/
def Input.Keeps (c : Int) (n : Nat) : Input → Prop
  | .keydown ev => (keyEventToKey ev).code ≠ c
  | .keyup _ => True
  | .timeout id => id ≠ n

/-- The input is no key event of code `c` and not the firing of timeout `n`. -/
def Input.Avoids (c : Int) (n : Nat) : Input → Prop
  | .keydown ev => (keyEventToKey ev).code ≠ c
  | .keyup ev => (keyEventToKey ev).code ≠ c
  | .timeout id => id ≠ n

/-- The number of calls of the up-handler with a key that satisfies `p`. -/
def upCallsWhere (p : Key → Bool) (calls : List Call) : Nat :=
  calls.countP (fun call => match call with
    | .up k _ => p k
    | .down _ _ _ => false)

/-- The number of timeouts held whose callback calls the up-handler with a key
that satisfies `p`. -/
def pendingWhere (p : Key → Bool) (timers : List Timer) : Nat :=
  timers.countP (fun τ => p τ.k)

/-- The number of key-ups among the inputs whose key satisfies `p`. -/
def keyUpsWhere (p : Key → Bool) (ins : List Input) : Nat :=
  ins.countP (fun i => match i with
    | .keyup ev => p (keyEventToKey ev)
    | _ => false)

/-- The number of calls of the up-handler with a key of code `c`. -/
def upCalls (c : Int) (calls : List Call) : Nat :=
  upCallsWhere (fun k => decide (k.code = c)) calls

/-- The number of timeouts held whose callback calls the up-handler with a key of
code `c`. -/
def pendingFor (c : Int) (timers : List Timer) : Nat :=
  pendingWhere (fun k => decide (k.code = c)) timers

/-- The number of key-ups of code `c` among the inputs. -/
def keyUpsFor (c : Int) (ins : List Input) : Nat :=
  keyUpsWhere (fun k => decide (k.code = c)) ins

/-- The number of all calls of the up-handler. -/
def upCallsAll (calls : List Call) : Nat := upCallsWhere (fun _ => true) calls

/-- The number of calls of the down-handler that report a repeat. -/
def repeatCalls (calls : List Call) : Nat :=
  calls.countP (fun call => match call with
    | .up _ _ => false
    | .down _ _ r => r)

/-- The number of key-ups among the inputs. -/
def keyUps (ins : List Input) : Nat := keyUpsWhere (fun _ => true) ins

/-- The timeout `n` set by a key-up of code `c`, key `k0` and time stamp `t0` is
held, it is the only timeout with the id `n`, every id held lies below the next
id, and no entry of `waiting` for another code records `n`. -/
def Held (c : Int) (n : Nat) (k0 : Key) (t0 : TimeStamp) (s : Classifier) : Prop :=
  (⟨n, c, k0, t0⟩ : Timer) ∈ s.timers
    ∧ (∀ τ ∈ s.timers, τ.id = n → τ = ⟨n, c, k0, t0⟩)
    ∧ (∀ τ ∈ s.timers, τ.id < s.nextId)
    ∧ (∀ e ∈ s.waiting, e.2 = n → e.1 = c)

/-- The timeout `n` is held as in `Held`, it is the one that `waiting` records for
`c`, no other timeout held is for the code `c`, and the up-handler was called `u`
times with a key of code `c`. -/
def HeldAlone (c : Int) (n : Nat) (k0 : Key) (t0 : TimeStamp) (u : Nat) (s : Classifier) :
    Prop :=
  Held c n k0 t0 s
    ∧ s.waiting.lookup c = some n
    ∧ (∀ τ ∈ s.timers, τ.id ≠ n → τ.c ≠ c ∧ τ.k.code ≠ c)
    ∧ upCalls c s.calls = u

/-- The table and the timeouts agree: every timeout held is recorded for its
code, every entry of the table records a timeout held for its code, the ids held
are pairwise different and lie below the next id. -/
def Consistent (s : Classifier) : Prop :=
  (∀ τ ∈ s.timers, s.waiting.lookup τ.c = some τ.id)
    ∧ (∀ c id, s.waiting.lookup c = some id → ∃ τ ∈ s.timers, τ.id = id ∧ τ.c = c)
    ∧ (s.timers.map (fun τ => τ.id)).Nodup
    ∧ (∀ τ ∈ s.timers, τ.id < s.nextId)

/-- At most one timeout is held per code. -/
def OnePerCode (s : Classifier) : Prop :=
  ∀ τ1 ∈ s.timers, ∀ τ2 ∈ s.timers, τ1.c = τ2.c → τ1 = τ2

/-- Every timeout held is the one that the table `waiting` records for its code. -/
def Recorded (s : Classifier) : Prop :=
  ∀ τ ∈ s.timers, s.waiting.lookup τ.c = some τ.id

/-- No key-up of the sequence arrives for a code that has an entry in `waiting`. -/
def Disciplined : Classifier → List Input → Prop
  | _, [] => True
  | s, .keyup ev :: rest =>
    s.waiting.lookup (keyEventToKey ev).code = none ∧ Disciplined (onkeyup s ev) rest
  | s, i :: rest => Disciplined (step s i) rest

/-! ## Notions used to state the properties of the main loop -/

/-- The outcome with a function applied to its value. -/
def Outcome.map {α β : Type} (f : α → β) : Outcome α → Outcome β
  | .ok a => .ok (f a)
  | .failure => .failure
  | .stuck => .stuck

/-- One iteration of the main loop of `parseKeys` at the index `i`: the key that it
pushes and the index at which the next iteration starts, or the `return false`.
It is the body of `parseLoop` with every continuation of the loop replaced by the
pair of the key pushed and the next index. -/
def iteration (self : JSString → Outcome (List Key)) (lc : JSString → JSString)
    (str : JSString) (i : Nat) : Outcome (Key × Nat) :=
  match str[i]? with
  | none => .stuck
  | some code =>
    if (65 ≤ code ∧ code ≤ 90) ∨ (97 ≤ code ∧ code ≤ 122) then .ok (letterKey code, i + 1)
    else if code ≠ 60 then .ok (Key.new code, i + 1)
    else
      let left := i
      let i := scanClose str i
      let right := i - 1
      if str[i]? ≠ some 62 ∨ left = right then .ok (Key.new 60, left + 1)
      else
        let left := left + 1
        let j := skipDashes str right (left + 1) - 2
        let word := (str.drop (j + 1)).take (right - j)
        if word.length = 1 then
          match self word with
          | .ok (k :: _) =>
            match applyModifiers lc str left j k with
            | .ok k1 => .ok (k1, i + 1)
            | .failure => .failure
            | .stuck => .stuck
          | _ => .stuck
        else if word.length = 2 ∧ j = left - 1 then .ok (Key.new 60, j + 1)
        else
          let word := lc word
          if ¬ inNames word then .failure
          else
            match applyModifiers lc str left j (Key.new (namesValue word)) with
            | .ok k1 => .ok (k1, i + 1)
            | .failure => .failure
            | .stuck => .stuck

/-! ## Facts about the bitwise operators -/

theorem toUint32_natCast (n : Nat) (h : n < 4294967296) : toUint32 (n : Int) = n := by
  unfold toUint32
  omega

theorem toInt32_natCast (n : Nat) (h : n < 2147483648) : toInt32 (n : Int) = n := by
  unfold toInt32
  simp only
  split <;> omega

theorem jsAnd_natCast (a b : Nat) (ha : a < 2147483648) (hb : b < 4294967296) :
    jsAnd (a : Int) (b : Int) = ((a &&& b : Nat) : Int) := by
  unfold jsAnd
  rw [toUint32_natCast a (by omega), toUint32_natCast b hb]
  exact toInt32_natCast _ (Nat.lt_of_le_of_lt Nat.and_le_left ha)

theorem jsOr_natCast (a b : Nat) (ha : a < 2147483648) (hb : b < 2147483648) :
    jsOr (a : Int) (b : Int) = ((a ||| b : Nat) : Int) := by
  unfold jsOr
  rw [toUint32_natCast a (by omega), toUint32_natCast b (by omega)]
  exact toInt32_natCast _ (Nat.or_lt_two_pow (n := 31) ha hb)

theorem jsAnd_mask (p : Int) : jsAnd p 8191 = p % 8192 := by
  unfold jsAnd
  have h : toUint32 8191 = 2 ^ 13 - 1 := by decide
  rw [h, Nat.and_pow_two_sub_one_eq_mod]
  rw [toInt32_natCast _ (by omega)]
  unfold toUint32
  omega

theorem and_two_pow_ne_zero (y i : Nat) : y &&& 2 ^ i ≠ 0 ↔ y.testBit i = true := by
  constructor
  · intro h
    by_contra hc
    apply h
    apply Nat.eq_of_testBit_eq
    intro j
    simp only [Nat.testBit_and, Nat.testBit_two_pow, Nat.zero_testBit]
    by_cases hj : i = j
    · subst hj
      simp [hc]
    · simp [hj]
  · intro h h0
    have h1 : (y &&& 2 ^ i).testBit i = true := by
      simp [Nat.testBit_and, Nat.testBit_two_pow, h]
    rw [h0] at h1
    simp at h1

/-- The code of a key built by the constructor is a number below `2^13`. -/
theorem new_code_natCast (p : Int) :
    ∃ x : Nat, x < 8192 ∧ (Key.new p).code = (x : Int) := by
  refine ⟨(p % 8192).toNat, by omega, ?_⟩
  have hm : mask = 8191 := by decide
  show jsAnd p mask = _
  rw [hm, jsAnd_mask]
  omega

/-- What `setBit` does to a code below `2^13`, for the five modifier positions. -/
theorem setBit_code (x : Nat) (hx : x < 8192) (t : Nat) (ht : t < 5) (b : Bool) :
    (Key.setBit ⟨(x : Int)⟩ (nbits + (t : Int)) b).code
      = (((x &&& (8191 ^^^ 2 ^ (8 + t))) ||| (b.toNat * 2 ^ (8 + t)) : Nat) : Int) := by
  have h1 : ∀ c : Nat, c < 8192 → ∀ d : Nat, d < 8192 →
      jsOr (jsAnd (x : Int) (c : Int)) (d : Int) = (((x &&& c) ||| d : Nat) : Int) := by
    intro c hc d hd
    rw [jsAnd_natCast x c (by omega) (by omega)]
    exact jsOr_natCast _ _ (Nat.lt_of_le_of_lt Nat.and_le_left (by omega)) (by omega)
  have e1 : jsXor mask (jsShl 1 (nbits + (t : Int))) = ((8191 ^^^ 2 ^ (8 + t) : Nat) : Int) := by
    interval_cases t <;> decide
  have e2 : jsShl (jsAnd (boolToInt b) 1) (nbits + (t : Int))
      = ((b.toNat * 2 ^ (8 + t) : Nat) : Int) := by
    interval_cases t <;> cases b <;> decide
  have hc : 8191 ^^^ 2 ^ (8 + t) < 8192 := by interval_cases t <;> decide
  have hd : b.toNat * 2 ^ (8 + t) < 8192 := by interval_cases t <;> cases b <;> decide
  simp only [Key.setBit]
  rw [e1, e2, h1 _ hc _ hd]

/-- The bits of a code after `setBit` at a modifier position. -/
theorem setBit_testBit (x : Nat) (hx : x < 8192) (t : Nat) (ht : t < 5) (b : Bool) (n : Nat) :
    Int.testBit (Key.setBit ⟨(x : Int)⟩ (nbits + (t : Int)) b).code n
      = if n = 8 + t then b else Nat.testBit x n := by
  rw [setBit_code x hx t ht b]
  show Nat.testBit _ n = _
  rw [Nat.testBit_or, Nat.testBit_and, Nat.testBit_xor]
  have h13 : (8191 : Nat) = 2 ^ 13 - 1 := by decide
  rw [h13, Nat.testBit_two_pow_sub_one, Nat.testBit_two_pow]
  have hb : (b.toNat * 2 ^ (8 + t)).testBit n = (b && decide (8 + t = n)) := by
    cases b
    · simp
    · simp [Nat.testBit_two_pow]
  rw [hb]
  by_cases hn : n = 8 + t
  · subst hn
    cases b <;> simp
    omega
  · have hn2 : ¬ (8 + t = n) := fun h => hn h.symm
    simp only [hn, hn2, if_false, decide_False, Bool.and_false, Bool.or_false, Bool.xor_false]
    by_cases h : n < 13
    · simp [h]
    · have : x.testBit n = false :=
        Nat.testBit_lt_two_pow (Nat.lt_of_lt_of_le hx (Nat.pow_le_pow_right (n := 2) (by decide) (by omega : 13 ≤ n)))
      simp [h, this]

/-- The getter of a modifier position reads the bit at that position. -/
theorem getBit_ne_zero (y : Nat) (hy : y < 8192) (t : Nat) (ht : t < 5) :
    Key.getBit ⟨(y : Int)⟩ (nbits + (t : Int)) ≠ 0 ↔ y.testBit (8 + t) = true := by
  have e1 : jsShl 1 (nbits + (t : Int)) = ((2 ^ (8 + t) : Nat) : Int) := by
    interval_cases t <;> decide
  have hc : 2 ^ (8 + t) < 8192 := by interval_cases t <;> decide
  simp only [Key.getBit]
  rw [e1, jsAnd_natCast y _ (by omega) (by omega), ← and_two_pow_ne_zero]
  exact Int.natCast_ne_zero


/-! ## Facts about the loops of `parseKeys` -/

theorem parseLoop_end (self : JSString → Outcome (List Key)) (lc : JSString → JSString)
    (str : JSString) (fuel i : Nat) (res : List Key) (h : ¬ i < str.length) :
    parseLoop self lc str fuel i res = .ok res := by
  cases fuel with
  | zero => simp [parseLoop, h]
  | succ f => simp [parseLoop, h]

theorem parseLoop_plain (self : JSString → Outcome (List Key)) (lc : JSString → JSString)
    (str : JSString) (fuel i : Nat) (res : List Key) (c : Nat)
    (hc : str[i]? = some c) (h60 : c ≠ 60) :
    parseLoop self lc str (fuel + 1) i res
      = parseLoop self lc str fuel (i + 1) (res ++ [charKey c]) := by
  have hi : i < str.length := by
    by_contra hcon
    rw [List.getElem?_eq_none (by omega)] at hc
    exact absurd hc (by simp)
  rw [parseLoop]
  simp only [hi, not_true_eq_false, if_false, hc]
  unfold charKey
  by_cases hl : (65 ≤ c ∧ c ≤ 90) ∨ (97 ≤ c ∧ c ≤ 122)
  · simp only [hl, if_true]
  · simp only [hl, if_false, h60, ne_eq, not_false_eq_true, if_true]

theorem scanFrom_of_not_mem (t : List Nat) (i : Nat) (h : 62 ∉ t) :
    scanFrom t i = i + t.length := by
  induction t generalizing i with
  | nil => simp [scanFrom]
  | cons c cs ih =>
    have h1 : c ≠ 62 := fun e => h (by simp [e])
    have h2 : 62 ∉ cs := fun e => h (by simp [e])
    simp only [scanFrom, h1, ne_eq, not_false_eq_true, if_true, ih (i + 1) h2, List.length_cons]
    omega

theorem scanFrom_append (c t : List Nat) (i : Nat) (h : 62 ∉ c) :
    scanFrom (c ++ 62 :: t) i = i + c.length := by
  induction c generalizing i with
  | nil => simp [scanFrom]
  | cons x xs ih =>
    have h1 : x ≠ 62 := fun e => h (by simp [e])
    have h2 : 62 ∉ xs := fun e => h (by simp [e])
    show scanFrom (x :: (xs ++ 62 :: t)) i = _
    simp only [scanFrom, h1, ne_eq, not_false_eq_true, if_true, ih (i + 1) h2, List.length_cons]
    omega

theorem parseLoop_unmatched (self : JSString → Outcome (List Key)) (lc : JSString → JSString)
    (q t : JSString) (fuel : Nat) (res : List Key) (h : 62 ∉ t) :
    parseLoop self lc (q ++ 60 :: t) (fuel + 1) q.length res
      = parseLoop self lc (q ++ 60 :: t) fuel (q.length + 1) (res ++ [Key.new 60]) := by
  have hc : (q ++ 60 :: t)[q.length]? = some 60 := by
    rw [List.getElem?_append_right (Nat.le_refl _)]
    simp
  have hs : scanClose (q ++ 60 :: t) q.length = (q ++ 60 :: t).length := by
    unfold scanClose
    rw [List.drop_left]
    rw [scanFrom_of_not_mem _ _ (by simp [h])]
    simp
  rw [parseLoop]
  have hi : q.length < (q ++ 60 :: t).length := by simp
  simp only [hi, not_true_eq_false, if_false, hc]
  simp only [hs, List.getElem?_eq_none (Nat.le_refl _)]
  simp

theorem parseLoop_plain_run (self : JSString → Outcome (List Key)) (lc : JSString → JSString)
    (p : JSString) (hp : ∀ c ∈ p, c ≠ 60) :
    ∀ (q rest : JSString) (fuel : Nat) (res : List Key),
      parseLoop self lc (q ++ (p ++ rest)) (fuel + p.length) q.length res
        = parseLoop self lc (q ++ (p ++ rest)) fuel (q.length + p.length)
            (res ++ p.map charKey) := by
  induction p with
  | nil => intro q rest fuel res; simp
  | cons c p ih =>
    intro q rest fuel res
    have hc : (q ++ (c :: p ++ rest))[q.length]? = some c := by
      rw [List.getElem?_append_right (Nat.le_refl _)]
      simp
    have h60 : c ≠ 60 := hp c (by simp)
    have hstep := parseLoop_plain self lc (q ++ (c :: p ++ rest)) (fuel + p.length) q.length
      res c hc h60
    have hih := ih (fun x hx => hp x (by simp [hx])) (q ++ [c]) rest fuel (res ++ [charKey c])
    have e1 : q ++ [c] ++ (p ++ rest) = q ++ (c :: p ++ rest) := by simp
    rw [e1] at hih
    simp only [List.length_append, List.length_singleton] at hih
    rw [List.length_cons, ← Nat.add_assoc, hstep, hih]
    simp [Nat.add_assoc, Nat.add_comm 1]

theorem parseLoop_literal_run (self : JSString → Outcome (List Key)) (lc : JSString → JSString)
    (p : JSString) (hp : 62 ∉ p) :
    ∀ (q : JSString) (fuel : Nat) (res : List Key),
      parseLoop self lc (q ++ p) (fuel + p.length) q.length res
        = parseLoop self lc (q ++ p) fuel (q.length + p.length) (res ++ p.map charKey) := by
  induction p with
  | nil => intro q fuel res; simp
  | cons c p ih =>
    intro q fuel res
    have h2 : 62 ∉ p := fun e => hp (by simp [e])
    have hstep : parseLoop self lc (q ++ c :: p) (fuel + p.length + 1) q.length res
        = parseLoop self lc (q ++ c :: p) (fuel + p.length) (q.length + 1)
            (res ++ [charKey c]) := by
      by_cases h60 : c = 60
      · subst h60
        exact parseLoop_unmatched self lc q p (fuel + p.length) res h2
      · refine parseLoop_plain self lc _ _ _ res c ?_ h60
        rw [List.getElem?_append_right (Nat.le_refl _)]
        simp
    have hih := ih h2 (q ++ [c]) fuel (res ++ [charKey c])
    have e1 : q ++ [c] ++ p = q ++ c :: p := by simp
    rw [e1] at hih
    simp only [List.length_append, List.length_singleton] at hih
    rw [List.length_cons, ← Nat.add_assoc, hstep, hih]
    simp [Nat.add_assoc, Nat.add_comm 1]

theorem parseKeysDepth_literal (lc : JSString → JSString) (d : Nat) (s : JSString)
    (h : (∀ c ∈ s, c ≠ 60) ∨ 62 ∉ s) :
    parseKeysDepth lc (d + 1) s = .ok (s.map charKey) := by
  show parseLoop (parseKeysDepth lc d) lc s s.length 0 [] = _
  have e : parseLoop (parseKeysDepth lc d) lc s s.length 0 []
      = parseLoop (parseKeysDepth lc d) lc s 0 s.length (s.map charKey) := by
    rcases h with h | h
    · have := parseLoop_plain_run (parseKeysDepth lc d) lc s h [] [] 0 []
      simpa using this
    · have := parseLoop_literal_run (parseKeysDepth lc d) lc s h [] 0 []
      simpa using this
  rw [e]
  exact parseLoop_end _ _ _ _ _ _ (by simp)

/-! ### A bracket with modifiers -/

theorem modPrefix_length (ms : List Nat) : (modPrefix ms).length = 2 * ms.length := by
  induction ms with
  | nil => rfl
  | cons m ms ih => simp only [modPrefix, List.length_cons, ih]; omega

theorem not_mem_modPrefix (ms : List Nat) (h : 62 ∉ ms) : 62 ∉ modPrefix ms := by
  induction ms with
  | nil => simp [modPrefix]
  | cons m ms ih =>
    have h1 : 62 ≠ m := fun e => h (by simp [e])
    have h2 : 62 ∉ ms := fun e => h (by simp [e])
    simp [modPrefix, h1, ih h2]

theorem skipFrom_stop (right : Nat) (l : List Nat) (j : Nat)
    (h : j < right → l.head? ≠ some 45) : skipFrom right l j = j := by
  match l with
  | [] => simp [skipFrom]
  | [c] =>
    have : ¬ (j < right ∧ c = 45) := fun ⟨a, b⟩ => h a (by simp [b])
    simp [skipFrom, this]
  | c :: _ :: cs =>
    have : ¬ (j < right ∧ c = 45) := fun ⟨a, b⟩ => h a (by simp [b])
    simp [skipFrom, this]

theorem skipFrom_dashes (right : Nat) (ms : List Nat) :
    ∀ (j : Nat) (c : Nat) (tl : List Nat), j + 2 * ms.length < right →
      skipFrom right (45 :: (modPrefix ms ++ c :: tl)) j
        = skipFrom right tl (j + 2 * ms.length + 2) := by
  induction ms with
  | nil =>
    intro j c tl hj
    have : j < right := by simpa using hj
    simp [modPrefix, skipFrom, this]
  | cons m ms ih =>
    intro j c tl hj
    simp only [List.length_cons] at hj
    have h1 : j < right := by omega
    show skipFrom right (45 :: m :: (45 :: (modPrefix ms ++ c :: tl))) j = _
    rw [skipFrom]
    simp only [h1, true_and, if_true]
    rw [ih (j + 2) c tl (by omega)]
    simp only [List.length_cons]
    congr 1
    omega

theorem modsFrom_stop (lc : JSString → JSString) (j : Nat) (l : List Nat) (u : Nat) (k : Key)
    (h : ¬ u < j) : modsFrom lc j l u k = .ok k := by
  match l with
  | [] => simp [modsFrom, h]
  | [c] => simp [modsFrom, h]
  | c :: _ :: cs => simp [modsFrom, h]

theorem modsFrom_prefix (lc : JSString → JSString) (j : Nat) (ms : List Nat) :
    ∀ (u : Nat) (k : Key) (tl : List Nat), u + 2 * ms.length = j + 1 →
      modsFrom lc j (modPrefix ms ++ tl) u k = modsOutcome (foldMods lc ms k) := by
  induction ms with
  | nil =>
    intro u k tl hu
    simp only [modPrefix, List.nil_append, foldMods, modsOutcome]
    exact modsFrom_stop lc j tl u k (by simp at hu; omega)
  | cons m ms ih =>
    intro u k tl hu
    simp only [List.length_cons] at hu
    have h1 : u < j := by omega
    show modsFrom lc j (m :: 45 :: (modPrefix ms ++ tl)) u k = _
    rw [modsFrom]
    simp only [h1, if_true, foldMods]
    cases hm : applyModifier lc m k with
    | none => simp [modsOutcome]
    | some k1 => simpa using ih (u + 2) k1 tl (by omega)

/-- One iteration of the main loop on a bracket `<m-...-N>` that has at least one
modifier position. -/
theorem parseLoop_bracket (self : JSString → Outcome (List Key)) (lc : JSString → JSString)
    (p s : JSString) (m : Nat) (ms : List Nat) (N : JSString) (fuel : Nat) (res : List Key)
    (hm : 62 ∉ m :: ms) (hN : 62 ∉ N) (hne : N ≠ []) (h45 : N[1]? ≠ some 45) :
    parseLoop self lc (p ++ 60 :: (modPrefix (m :: ms) ++ (N ++ 62 :: s))) (fuel + 1)
        p.length res
      = match bracketKey self lc (m :: ms) N with
        | .ok k1 =>
          parseLoop self lc (p ++ 60 :: (modPrefix (m :: ms) ++ (N ++ 62 :: s))) fuel
            (p.length + 2 * ms.length + N.length + 4) (res ++ [k1])
        | .failure => .failure
        | .stuck => .stuck := by
  obtain ⟨c, tl, rfl⟩ : ∃ c tl, N = c :: tl := by
    cases N with
    | nil => exact absurd rfl hne
    | cons c tl => exact ⟨c, tl, rfl⟩
  generalize hstr : p ++ 60 :: (modPrefix (m :: ms) ++ (c :: tl ++ 62 :: s)) = str
  have hlen : str.length = p.length + 2 * ms.length + tl.length + s.length + 5 := by
    rw [← hstr]
    simp only [List.length_append, List.length_cons, modPrefix_length]
    omega
  have hc : str[p.length]? = some 60 := by
    rw [← hstr, List.getElem?_append_right (Nat.le_refl _)]
    simp
  have hscan : scanClose str p.length = p.length + 2 * ms.length + tl.length + 4 := by
    unfold scanClose
    rw [← hstr, List.drop_left]
    have h62 : 62 ∉ modPrefix (m :: ms) ++ (c :: tl) := by
      intro hmem
      rcases List.mem_append.mp hmem with h | h
      · exact not_mem_modPrefix _ hm h
      · exact hN h
    have e : (60 :: (modPrefix (m :: ms) ++ (c :: tl ++ 62 :: s)))
        = 60 :: ((modPrefix (m :: ms) ++ (c :: tl)) ++ 62 :: s) := by simp
    rw [e, scanFrom]
    simp only [ne_eq, Nat.reduceEqDiff, not_false_eq_true, if_true]
    rw [scanFrom_append _ _ _ h62]
    simp only [List.length_append, List.length_cons, modPrefix_length]
    omega
  have hclose : str[p.length + 2 * ms.length + tl.length + 4]? = some 62 := by
    rw [← hstr, List.getElem?_append_right (by omega)]
    have e : p.length + 2 * ms.length + tl.length + 4 - p.length
        = (modPrefix (m :: ms) ++ (c :: tl)).length + 1 := by
      simp only [List.length_append, List.length_cons, modPrefix_length]
      omega
    rw [e, List.getElem?_cons_succ]
    have e2 : modPrefix (m :: ms) ++ (c :: tl ++ 62 :: s)
        = (modPrefix (m :: ms) ++ (c :: tl)) ++ 62 :: s := by simp
    rw [e2, List.getElem?_append_right (Nat.le_refl _)]
    simp
  have hdrop1 : str.drop (p.length + 1) = modPrefix (m :: ms) ++ (c :: tl ++ 62 :: s) := by
    rw [← hstr, List.drop_append]
    rfl
  have hdrop2 : str.drop (p.length + 1 + 1) = 45 :: (modPrefix ms ++ c :: (tl ++ 62 :: s)) := by
    rw [← List.drop_drop, hdrop1]
    rfl
  have hskip : skipDashes str (p.length + 2 * ms.length + tl.length + 4 - 1) (p.length + 1 + 1)
      = p.length + 2 * ms.length + 4 := by
    unfold skipDashes
    rw [hdrop2, skipFrom_dashes _ _ _ _ _ (by omega)]
    rw [skipFrom_stop]
    · omega
    · intro hlt
      have htl : tl ≠ [] := by
        intro h0
        rw [h0] at hlt
        simp at hlt
        omega
      cases tl with
      | nil => exact absurd rfl htl
      | cons d tl2 =>
        intro hh
        apply h45
        simpa using hh
  have hword : (str.drop (p.length + 2 * ms.length + 4 - 2 + 1)).take
      (p.length + 2 * ms.length + tl.length + 4 - 1 - (p.length + 2 * ms.length + 4 - 2))
      = c :: tl := by
    have e1 : p.length + 2 * ms.length + 4 - 2 + 1
        = (p ++ 60 :: modPrefix (m :: ms)).length := by
      simp only [List.length_append, List.length_cons, modPrefix_length]
      omega
    have e2 : p.length + 2 * ms.length + tl.length + 4 - 1 - (p.length + 2 * ms.length + 4 - 2)
        = (c :: tl).length := by
      simp only [List.length_cons]
      omega
    have e3 : str = (p ++ 60 :: modPrefix (m :: ms)) ++ ((c :: tl) ++ 62 :: s) := by
      rw [← hstr]
      simp
    rw [e1, e2, e3, List.drop_left, List.take_left]
  have hmods : ∀ k, applyModifiers lc str (p.length + 1) (p.length + 2 * ms.length + 4 - 2) k
      = modsOutcome (foldMods lc (m :: ms) k) := by
    intro k
    unfold applyModifiers
    rw [hdrop1]
    exact modsFrom_prefix lc _ (m :: ms) _ k _ (by simp only [List.length_cons]; omega)
  have hi : p.length < str.length := by omega
  have hne1 : ¬ (p.length = p.length + 2 * ms.length + tl.length + 4 - 1) := by omega
  have hj : ¬ (p.length + 2 * ms.length + 4 - 2 = p.length + 1 - 1) := by omega
  rw [parseLoop]
  simp only [hi, not_true_eq_false, if_false, hc, hscan, hclose, hskip, hword, hmods, hne1, hj]
  have e : p.length + 2 * ms.length + tl.length + 4 + 1
      = p.length + 2 * ms.length + (c :: tl).length + 4 := by
    simp only [List.length_cons]
    omega
  rw [e]
  simp only [bracketKey]
  by_cases h1 : (c :: tl).length = 1
  · simp only [h1, if_true]
    cases self (c :: tl) with
    | ok ks =>
      cases ks with
      | nil => rfl
      | cons k ks =>
        cases hf : foldMods lc (m :: ms) k with
        | none => simp [modsOutcome]
        | some k1 => simp [modsOutcome]
    | failure => rfl
    | stuck => rfl
  · simp only [h1, if_false]
    by_cases hin : inNames (lc (c :: tl)) = true
    · simp only [hin, if_true]
      cases foldMods lc (m :: ms) (Key.new (namesValue (lc (c :: tl)))) <;> simp [modsOutcome]
    · simp [hin]

/-- One iteration of the main loop on a bracket `<w>` without modifier position,
for a word of at least three characters. -/
theorem parseLoop_bare_bracket (self : JSString → Outcome (List Key))
    (lc : JSString → JSString) (p s w : JSString) (fuel : Nat) (res : List Key)
    (h62 : 62 ∉ w) (hlen : 3 ≤ w.length) (h45 : w[1]? ≠ some 45) :
    parseLoop self lc (p ++ 60 :: (w ++ 62 :: s)) (fuel + 1) p.length res
      = if inNames (lc w) then
          parseLoop self lc (p ++ 60 :: (w ++ 62 :: s)) fuel (p.length + w.length + 2)
            (res ++ [Key.new (namesValue (lc w))])
        else .failure := by
  generalize hstr : p ++ 60 :: (w ++ 62 :: s) = str
  have hl : str.length = p.length + w.length + s.length + 2 := by
    rw [← hstr]
    simp only [List.length_append, List.length_cons]
    omega
  have hc : str[p.length]? = some 60 := by
    rw [← hstr, List.getElem?_append_right (Nat.le_refl _)]
    simp
  have hscan : scanClose str p.length = p.length + w.length + 1 := by
    unfold scanClose
    rw [← hstr, List.drop_left, scanFrom]
    simp only [ne_eq, Nat.reduceEqDiff, not_false_eq_true, if_true]
    rw [scanFrom_append _ _ _ h62]
    omega
  have hclose : str[p.length + w.length + 1]? = some 62 := by
    rw [← hstr, List.getElem?_append_right (by omega)]
    have e : p.length + w.length + 1 - p.length = w.length + 1 := by omega
    rw [e, List.getElem?_cons_succ, List.getElem?_append_right (Nat.le_refl _)]
    simp
  have hdrop1 : str.drop (p.length + 1) = w ++ 62 :: s := by
    rw [← hstr, List.drop_append]
    rfl
  have hskip : skipDashes str (p.length + w.length + 1 - 1) (p.length + 1 + 1)
      = p.length + 1 + 1 := by
    unfold skipDashes
    apply skipFrom_stop
    intro _ hh
    apply h45
    rw [← List.drop_drop, hdrop1] at hh
    rw [List.head?_drop] at hh
    rw [List.getElem?_append_left (by omega)] at hh
    exact hh
  have hword : (str.drop (p.length + 1 + 1 - 2 + 1)).take
      (p.length + w.length + 1 - 1 - (p.length + 1 + 1 - 2)) = w := by
    have e1 : p.length + 1 + 1 - 2 + 1 = p.length + 1 := by omega
    have e2 : p.length + w.length + 1 - 1 - (p.length + 1 + 1 - 2) = w.length := by omega
    rw [e1, e2, hdrop1, List.take_left]
  have hmods : ∀ k, applyModifiers lc str (p.length + 1) (p.length + 1 + 1 - 2) k = .ok k := by
    intro k
    unfold applyModifiers
    exact modsFrom_stop lc _ _ _ k (by omega)
  have hi : p.length < str.length := by omega
  have hne1 : ¬ (p.length = p.length + w.length + 1 - 1) := by omega
  have hw1 : ¬ (w.length = 1) := by omega
  have hw2 : ¬ (w.length = 2) := by omega
  have e : p.length + w.length + 1 + 1 = p.length + w.length + 2 := by omega
  rw [parseLoop]
  simp only [hi, not_true_eq_false, if_false, hc, hscan, hclose, hskip, hword, hmods, hne1,
    hw1, hw2, e]
  by_cases hin : inNames (lc w) = true
  · simp [hin]
  · simp [hin]

/-! ### Modifier letters -/

theorem Modifier.set_eq_setBit (md : Modifier) (k : Key) (b : Bool) :
    md.set k b = k.setBit (nbits + (md.index : Int)) b := by
  cases md <;> rfl

theorem Modifier.get_eq_getBit (md : Modifier) (k : Key) :
    md.get k = k.getBit (nbits + (md.index : Int)) := by
  cases md <;> rfl

theorem Modifier.index_lt (md : Modifier) : md.index < 5 := by
  cases md <;> decide

/-- The named setter of a modifier on a code below `2^13`: the result is again
below `2^13` and differs from the old code in the bit of the modifier only. -/
theorem Modifier.set_code (md : Modifier) (k : Key) (b : Bool) (x : Nat) (hx : x < 8192)
    (hk : k.code = (x : Int)) :
    ∃ y : Nat, y < 8192 ∧ (md.set k b).code = (y : Int)
      ∧ ∀ n : Nat, y.testBit n = if n = 8 + md.index then b else x.testBit n := by
  have hk2 : k = ⟨(x : Int)⟩ := by
    cases k
    simp_all
  subst hk2
  have hcode := setBit_code x hx md.index md.index_lt b
  have hbits := setBit_testBit x hx md.index md.index_lt b
  rw [← Modifier.set_eq_setBit] at hcode hbits
  refine ⟨_, ?_, hcode, ?_⟩
  · have hc : 8191 ^^^ 2 ^ (8 + md.index) < 2 ^ 13 := by cases md <;> decide
    have hd : b.toNat * 2 ^ (8 + md.index) < 2 ^ 13 := by cases md <;> cases b <;> decide
    exact Nat.or_lt_two_pow (Nat.and_lt_two_pow _ hc) hd
  · intro n
    have := hbits n
    rw [hcode] at this
    exact this

theorem applyModifier_of_letter (lc : JSString → JSString) (hlc : LowersAscii lc)
    (m : Nat) (md : Modifier) (h : modifierOfLetter m = some md) (k : Key) :
    applyModifier lc m k = some (md.set k true) ∧ md ≠ .lower := by
  have hlow : asciiLowerUnit m < 128 → m < 128 := by
    unfold asciiLowerUnit
    split <;> omega
  unfold modifierOfLetter at h
  have hlcm : asciiLowerUnit m < 128 → lc [m] = [asciiLowerUnit m] := by
    intro hh
    rw [hlc [m] (by simpa using hlow hh)]
    rfl
  unfold applyModifier
  split at h
  · next h1 =>
    cases h
    simp [hlcm (by omega), h1, Modifier.set]
  · split at h
    · next h1 h2 =>
      cases h
      simp [hlcm (by omega), h2, Modifier.set]
    · split at h
      · next h1 h2 h3 =>
        cases h
        simp [hlcm (by omega), h3, Modifier.set]
      · split at h
        · next h1 h2 h3 h4 =>
          cases h
          simp [hlcm (by omega), h4, Modifier.set]
        · cases h

/-- Applying a list of recognised modifier letters sets exactly their bits. -/
theorem foldMods_of_letters (lc : JSString → JSString) (hlc : LowersAscii lc) (ms : List Nat) :
    ∀ (k0 : Key) (x : Nat), x < 8192 → k0.code = (x : Int) →
      (∀ m ∈ ms, (modifierOfLetter m).isSome = true) →
      ∃ (k : Key) (y : Nat), y < 8192 ∧ k.code = (y : Int) ∧ foldMods lc ms k0 = some k
        ∧ ∀ n : Nat, y.testBit n = true ↔
            (x.testBit n = true
              ∨ ∃ m ∈ ms, ∃ md, modifierOfLetter m = some md ∧ n = 8 + md.index) := by
  induction ms with
  | nil =>
    intro k0 x hx hk _
    exact ⟨k0, x, hx, hk, rfl, by simp⟩
  | cons m ms ih =>
    intro k0 x hx hk hall
    obtain ⟨md, hmd⟩ := Option.isSome_iff_exists.mp (hall m (by simp))
    obtain ⟨happ, _⟩ := applyModifier_of_letter lc hlc m md hmd k0
    obtain ⟨y1, hy1, hc1, hb1⟩ := md.set_code k0 true x hx hk
    obtain ⟨k, y, hy, hc, hf, hb⟩ :=
      ih (md.set k0 true) y1 hy1 hc1 (fun m' hm' => hall m' (by simp [hm']))
    refine ⟨k, y, hy, hc, ?_, ?_⟩
    · simp only [foldMods, happ, hf]
    · intro n
      rw [hb n, hb1 n]
      constructor
      · rintro (h | ⟨m', hm', md', h1, h2⟩)
        · by_cases hn : n = 8 + md.index
          · exact Or.inr ⟨m, by simp, md, hmd, hn⟩
          · rw [if_neg hn] at h
            exact Or.inl h
        · exact Or.inr ⟨m', by simp [hm'], md', h1, h2⟩
      · rintro (h | ⟨m', hm', md', h1, h2⟩)
        · by_cases hn : n = 8 + md.index
          · left; simp [hn]
          · left; rw [if_neg hn]; exact h
        · rcases List.mem_cons.mp hm' with rfl | hmem
          · rw [hmd] at h1
            cases h1
            left
            simp [h2]
          · exact Or.inr ⟨m', hmem, md', h1, h2⟩

/-- The modifier loop fails as soon as one listed character is not a modifier letter. -/
theorem foldMods_of_unknown (lc : JSString → JSString) (ms : List Nat)
    (h : ∃ m ∈ ms, lc [m] ∉ [[99], [97], [109], [115]]) :
    ∀ k : Key, foldMods lc ms k = none := by
  induction ms with
  | nil =>
    obtain ⟨m, hm, _⟩ := h
    simp at hm
  | cons m ms ih =>
    intro k
    simp only [foldMods]
    cases happ : applyModifier lc m k with
    | none => rfl
    | some k1 =>
      obtain ⟨m', hm', hbad⟩ := h
      rcases List.mem_cons.mp hm' with rfl | hmem
      · exfalso
        unfold applyModifier at happ
        simp only [List.mem_cons, List.mem_singleton, List.not_mem_nil, or_false, not_or] at hbad
        simp [hbad.1, hbad.2.1, hbad.2.2.1, hbad.2.2.2] at happ
      · exact ih ⟨m', hmem, hbad⟩ k1

/-! ### Names in any letter case -/

theorem nameKeys_chars :
    ∀ n ∈ nameKeys, (∀ c ∈ n, c ≠ 62 ∧ c ≠ 45 ∧ c < 128) ∧ 2 ≤ n.length := by
  decide

theorem nameKeys_lookup_aux :
    ∀ n ∈ nameKeys, inNames n = true
      ∧ (names.lookup n).map (fun v => decide (0 ≤ v ∧ v < 256)) = some true := by
  decide

theorem nameKeys_lookup (n : JSString) (h : n ∈ nameKeys) :
    inNames n = true ∧ ∃ v : Nat, v < 256 ∧ names.lookup n = some (v : Int) := by
  obtain ⟨h1, h2⟩ := nameKeys_lookup_aux n h
  refine ⟨h1, ?_⟩
  cases hl : names.lookup n with
  | none => simp [hl] at h2
  | some v =>
    simp only [hl, Option.map_some', Option.some.injEq, decide_eq_true_eq] at h2
    exact ⟨v.toNat, by omega, by congr 1; omega⟩

/-- A name of the table written in any letter case: it has at least two
characters, all of them ASCII, none of them `>` or `-`. -/
theorem nameVariant_chars (N : JSString) (h : asciiToLowerCase N ∈ nameKeys) :
    62 ∉ N ∧ N[1]? ≠ some 45 ∧ 2 ≤ N.length ∧ ∀ c ∈ N, c < 128 := by
  obtain ⟨hch, hlen⟩ := nameKeys_chars _ h
  have hc : ∀ c ∈ N, c ≠ 62 ∧ c ≠ 45 ∧ c < 128 := by
    intro c hcN
    have := hch (asciiLowerUnit c) (List.mem_map.mpr ⟨c, hcN, rfl⟩)
    unfold asciiLowerUnit at this
    split at this <;> omega
  refine ⟨fun h62 => (hc 62 h62).1 rfl, ?_, ?_, fun c hcN => (hc c hcN).2.2⟩
  · intro h45
    have hmem : 45 ∈ N := List.getElem?_mem h45
    exact (hc 45 hmem).2.1 rfl
  · simpa [asciiToLowerCase] using hlen

/-! ### Single characters -/

set_option maxRecDepth 100000 in
theorem charKey_spec : ∀ c : Nat, c < 256 → CharKeySpec c (charKey c) := by
  decide

theorem parseKeysDepth_single (lc : JSString → JSString) (d c : Nat) :
    parseKeysDepth lc (d + 1) [c] = .ok [charKey c] := by
  refine parseKeysDepth_literal lc d [c] ?_
  by_cases h : c = 60
  · right
    simp [h]
  · left
    simpa using h

theorem charKey_code (c : Nat) : ∃ x : Nat, x < 8192 ∧ (charKey c).code = (x : Int) := by
  unfold charKey
  split
  · obtain ⟨x, hx, hc⟩ := new_code_natCast (jsAnd c 223)
    obtain ⟨y, hy, hcy, _⟩ := Modifier.lower.set_code _ (toBoolean (jsAnd c 32)) x hx hc
    exact ⟨y, hy, hcy⟩
  · exact new_code_natCast c

theorem new_code_mod (p : Int) : (Key.new p).code = p % 8192 := by
  have hm : mask = 8191 := by decide
  show jsAnd p mask = _
  rw [hm, jsAnd_mask]

theorem parseKeys_eq (lc : JSString → JSString) (str : JSString) :
    parseKeys lc str = parseLoop (parseKeysDepth lc 1) lc str str.length 0 [] :=
  rfl

theorem modifierOfLetter_ne_close (ms : List Nat)
    (h : ∀ m ∈ ms, (modifierOfLetter m).isSome = true) : 62 ∉ ms := by
  intro h62
  have := h 62 h62
  exact absurd this (by decide)

theorem bracketKey_single (self : JSString → Outcome (List Key)) (lc : JSString → JSString)
    (ms : List Nat) (c : Nat) (k0 : Key) (h : self [c] = .ok [k0]) :
    bracketKey self lc ms [c] = modsOutcome (foldMods lc ms k0) := by
  simp [bracketKey, h]

theorem bracketKey_word (self : JSString → Outcome (List Key)) (lc : JSString → JSString)
    (ms : List Nat) (N : JSString) (h : 2 ≤ N.length) :
    bracketKey self lc ms N
      = if inNames (lc N) then modsOutcome (foldMods lc ms (Key.new (namesValue (lc N))))
        else .failure := by
  have h1 : ¬ N.length = 1 := by omega
  simp [bracketKey, h1]

/-! ### Brackets without modifiers -/

/-- A name of the table of at least three characters, in any letter case, alone in
a bracket: the result is the one key of the table code. -/
theorem parseKeys_long_name (lc : JSString → JSString) (hlc : LowersAscii lc) (N : JSString)
    (hname : asciiToLowerCase N ∈ nameKeys) (h3 : 3 ≤ N.length) :
    ∃ v : Nat, v < 256 ∧ names.lookup (asciiToLowerCase N) = some (v : Int)
      ∧ (Key.new (v : Int)).code = (v : Int)
      ∧ parseKeys lc (60 :: (N ++ [62])) = .ok [Key.new (v : Int)] := by
  obtain ⟨hn62, hn45, _, hascii⟩ := nameVariant_chars N hname
  obtain ⟨hin, v, hv, hlook⟩ := nameKeys_lookup _ hname
  refine ⟨v, hv, hlook, by rw [new_code_mod]; omega, ?_⟩
  have hstep := parseLoop_bare_bracket (parseKeysDepth lc 1) lc [] [] N (N.length + 1) []
    hn62 h3 hn45
  rw [hlc N hascii, hin] at hstep
  simp only [List.nil_append, List.length_nil, if_true, namesValue, hlook] at hstep
  have hlen : (60 :: (N ++ [62])).length = N.length + 1 + 1 := by simp
  rw [parseKeys_eq, hlen, hstep]
  exact parseLoop_end _ _ _ _ _ _ (by rw [hlen]; omega)

/-- A word of at least three characters, without `>` and `-`, whose lower-case form
is no property of `names`, neither own nor inherited, alone in a bracket: the call
returns `false`, whatever precedes (without `<`) and follows the bracket. -/
theorem parseKeys_unknown_word (lc : JSString → JSString) (p s w : JSString)
    (hp : ∀ c ∈ p, c ≠ 60) (h62 : 62 ∉ w) (h45 : 45 ∉ w) (h3 : 3 ≤ w.length)
    (hin : inNames (lc w) = false) :
    parseKeys lc (p ++ 60 :: (w ++ 62 :: s)) = .failure := by
  have h1 : w[1]? ≠ some 45 := fun h => h45 (List.getElem?_mem h)
  generalize hrest : 60 :: (w ++ 62 :: s) = rest
  have hrun := parseLoop_plain_run (parseKeysDepth lc 1) lc p hp [] rest
    (w.length + s.length + 1 + 1) []
  have hstep := parseLoop_bare_bracket (parseKeysDepth lc 1) lc p s w
    (w.length + s.length + 1) (p.map charKey) h62 h3 h1
  rw [hin, hrest] at hstep
  simp only [List.nil_append, List.length_nil, Nat.zero_add] at hrun
  have hlen : (p ++ rest).length = w.length + s.length + 1 + 1 + p.length := by
    rw [← hrest]
    simp only [List.length_cons, List.length_append]
    omega
  rw [parseKeys_eq, hlen, hrun, hstep]
  rfl

/-! ### Keys of events and rendered characters -/

theorem toBoolean_ne_zero (v : Int) : toBoolean v = true ↔ v ≠ 0 := by
  simp [toBoolean]

/-- The value field of a code below `2^13`. -/
theorem key_natCast (y : Nat) (hy : y < 8192) : Key.key ⟨(y : Int)⟩ = ((y % 256 : Nat) : Int) := by
  have hc : cmask = ((2 ^ 8 - 1 : Nat) : Int) := by decide
  show jsAnd (y : Int) cmask = _
  rw [hc, jsAnd_natCast y _ (by omega) (by decide), Nat.and_pow_two_sub_one_eq_mod]

/-- Two numbers that agree on the bits 0..7 have the same value field. -/
theorem mod_256_eq_of_testBit (x y : Nat) (h : ∀ n, n < 8 → y.testBit n = x.testBit n) :
    y % 256 = x % 256 := by
  apply Nat.eq_of_testBit_eq
  intro n
  have e : (256 : Nat) = 2 ^ 8 := by decide
  rw [e, Nat.testBit_mod_two_pow, Nat.testBit_mod_two_pow]
  by_cases hn : n < 8
  · simp [hn, h n hn]
  · simp [hn]

/-- Bit 0x20 of a code unit, as the test `Boolean (chr & 0x20)` sees it. -/
theorem toBoolean_and_32 (c : Nat) : toBoolean (jsAnd (c : Int) 32) = c.testBit 5 := by
  have h1 : jsAnd (c : Int) 32 = (((c % 4294967296) &&& 2 ^ 5 : Nat) : Int) := by
    unfold jsAnd
    have e1 : toUint32 (c : Int) = c % 4294967296 := by
      unfold toUint32
      omega
    have e2 : toUint32 32 = 2 ^ 5 := by decide
    rw [e1, e2]
    exact toInt32_natCast _ (Nat.lt_of_le_of_lt Nat.and_le_right (by decide))
  have h2 : (c % 4294967296).testBit 5 = c.testBit 5 := by
    have e : (4294967296 : Nat) = 2 ^ 32 := by decide
    rw [e, Nat.testBit_mod_two_pow]
    simp
  rw [h1, ← h2]
  cases hb : (c % 4294967296).testBit 5
  · have : ¬ ((c % 4294967296) &&& 2 ^ 5 ≠ 0) := by
      rw [and_two_pow_ne_zero]
      simp [hb]
    have h0 : (c % 4294967296) &&& 2 ^ 5 = 0 := by
      by_contra hne
      exact this hne
    rw [h0]
    rfl
  · have : (c % 4294967296) &&& 2 ^ 5 ≠ 0 := (and_two_pow_ne_zero _ _).mpr hb
    simp only [toBoolean, bne_iff_ne, ne_eq]
    exact_mod_cast this

/-- The getters of a key whose code is below `2^13`. -/
theorem getters_natCast (k : Key) (y : Nat) (hy : y < 8192) (hk : k.code = (y : Int)) :
    k.key = ((y % 256 : Nat) : Int)
      ∧ ∀ md : Modifier, md.get k ≠ 0 ↔ y.testBit (8 + md.index) = true := by
  have hk2 : k = ⟨(y : Int)⟩ := by
    cases k
    simp_all
  subst hk2
  refine ⟨key_natCast y hy, fun md => ?_⟩
  rw [Modifier.get_eq_getBit]
  exact getBit_ne_zero y hy md.index md.index_lt

/-- The bits of the key of an event: the value bits are those of the raw code, the
bits 8..11 are the four flags of the event, and bit 12 is set when the key is a
letter and the case bit of the reported character differs from the shift flag. -/
theorem keyEventToKey_bits (ev : KeyEvent) :
    ∃ y : Nat, y < 8192 ∧ (keyEventToKey ev).code = (y : Int)
      ∧ ∀ n : Nat, y.testBit n =
          if n = 8 then ev.shiftKey
          else if n = 9 then ev.ctrlKey
          else if n = 10 then ev.altKey
          else if n = 11 then ev.metaKey
          else if n = 12 then
            (decide (65 ≤ (ev.keyCode % 8192).toNat % 256 ∧ (ev.keyCode % 8192).toNat % 256 ≤ 90)
                && (toBoolean (jsAnd (Key.operand (charCodeAt ev.key 0)) 32) != ev.shiftKey))
              || (ev.keyCode % 8192).toNat.testBit 12
          else (ev.keyCode % 8192).toNat.testBit n := by
  obtain ⟨x, hx, hc0⟩ : ∃ x : Nat, x < 8192 ∧ (Key.new ev.keyCode).code = (x : Int)
      ∧ x = (ev.keyCode % 8192).toNat :=
    ⟨(ev.keyCode % 8192).toNat, by omega, by rw [new_code_mod]; omega, rfl⟩
  obtain ⟨hc0, hxdef⟩ := hc0
  rw [← hxdef]
  obtain ⟨y1, hy1, hc1, hb1⟩ := Modifier.shift.set_code _ ev.shiftKey x hx hc0
  obtain ⟨y2, hy2, hc2, hb2⟩ := Modifier.ctrl.set_code _ ev.ctrlKey y1 hy1 hc1
  obtain ⟨y3, hy3, hc3, hb3⟩ := Modifier.alt.set_code _ ev.altKey y2 hy2 hc2
  obtain ⟨y4, hy4, hc4, hb4⟩ := Modifier.meta.set_code _ ev.metaKey y3 hy3 hc3
  simp only [Modifier.set, Modifier.index] at hc1 hc2 hc3 hc4 hb1 hb2 hb3 hb4
  have hbits4 : ∀ n, y4.testBit n =
      if n = 8 then ev.shiftKey else if n = 9 then ev.ctrlKey else if n = 10 then ev.altKey
      else if n = 11 then ev.metaKey else x.testBit n := by
    intro n
    rw [hb4, hb3, hb2, hb1]
    by_cases h8 : n = 8 <;> by_cases h9 : n = 9 <;> by_cases h10 : n = 10 <;>
      by_cases h11 : n = 11 <;> simp [h8, h9, h10, h11]
  have hkey4 : (((((Key.new ev.keyCode).setShift ev.shiftKey).setCtrl ev.ctrlKey).setAlt
      ev.altKey).setMeta ev.metaKey).key = ((x % 256 : Nat) : Int) := by
    rw [(getters_natCast _ y4 hy4 hc4).1, mod_256_eq_of_testBit x y4]
    intro n hn
    rw [hbits4]
    have : n ≠ 8 ∧ n ≠ 9 ∧ n ≠ 10 ∧ n ≠ 11 := by omega
    simp [this]
  have hletter : (((((Key.new ev.keyCode).setShift ev.shiftKey).setCtrl ev.ctrlKey).setAlt
      ev.altKey).setMeta ev.metaKey).isLetter = decide (65 ≤ x % 256 ∧ x % 256 ≤ 90) := by
    unfold Key.isLetter
    rw [hkey4]
    by_cases h1 : 65 ≤ x % 256 <;> by_cases h2 : x % 256 ≤ 90 <;> simp [h1, h2] <;> omega
  unfold keyEventToKey
  simp only [hletter]
  by_cases hl : (65 ≤ x % 256 ∧ x % 256 ≤ 90)
    ∧ (toBoolean (jsAnd (Key.operand (charCodeAt ev.key 0)) 32) != ev.shiftKey) = true
  · obtain ⟨y5, hy5, hc5, hb5⟩ := Modifier.lower.set_code _ true y4 hy4 hc4
    simp only [Modifier.set, Modifier.index] at hc5 hb5
    refine ⟨y5, hy5, ?_, ?_⟩
    · simp only [hl.1, hl.2, decide_True, if_true]
      exact hc5
    · intro n
      rw [hb5, hbits4]
      by_cases h12 : n = 12
      · subst h12
        simp [hl.1, hl.2]
      · have e : ¬ (n = 8 + 4) := by omega
        simp [h12, e]
  · refine ⟨y4, hy4, ?_, ?_⟩
    · by_cases h1 : 65 ≤ x % 256 ∧ x % 256 ≤ 90
      · have h2 : ¬ ((toBoolean (jsAnd (Key.operand (charCodeAt ev.key 0)) 32)
            != ev.shiftKey) = true) := fun h => hl ⟨h1, h⟩
        simp only [h1, decide_True, if_true, h2, if_false]
        exact hc4
      · simp only [h1, decide_False, if_false]
        exact hc4
    · intro n
      rw [hbits4]
      by_cases h12 : n = 12
      · subst h12
        have : (decide (65 ≤ x % 256 ∧ x % 256 ≤ 90)
            && (toBoolean (jsAnd (Key.operand (charCodeAt ev.key 0)) 32) != ev.shiftKey))
            = false := by
          by_contra hh
          simp only [Bool.not_eq_false, Bool.and_eq_true, decide_eq_true_eq] at hh
          exact hl hh
        simp only [this, Bool.false_or]
        simp
      · simp [h12]

/-! ### Sequences of mutating operations -/

/-- The operator `&` with a mask below `2^31` on any number. -/
theorem jsAnd_natMask (v : Int) (m : Nat) (hm : m < 2147483648) :
    jsAnd v (m : Int) = ((toUint32 v &&& m : Nat) : Int) := by
  unfold jsAnd
  rw [toUint32_natCast m (by omega)]
  exact toInt32_natCast _ (Nat.lt_of_le_of_lt Nat.and_le_right hm)

theorem toUint32_lt (v : Int) : toUint32 v < 4294967296 := by
  unfold toUint32
  omega

/-- The operator `|` on a number below `2^13` and any number: the result is within
the 13 bits exactly when the 32-bit pattern of the other operand is. -/
theorem jsOr_masked_iff (a : Nat) (ha : a < 8192) (v : Int) :
    jsOr (a : Int) v = jsAnd (jsOr (a : Int) v) 8191 ↔ toUint32 v < 8192 := by
  have hu := toUint32_lt v
  have hor : a ||| toUint32 v < 2 ^ 32 := Nat.or_lt_two_pow (by omega) hu
  have hle : a ||| toUint32 v < 2 ^ 13 → toUint32 v < 2 ^ 13 := by
    intro hlt
    apply Nat.lt_pow_two_of_testBit
    intro i hi
    have hb : (a ||| toUint32 v).testBit i = false :=
      Nat.testBit_lt_two_pow (Nat.lt_of_lt_of_le hlt (Nat.pow_le_pow_right (by decide) hi))
    rw [Nat.testBit_or, Bool.or_eq_false_iff] at hb
    exact hb.2
  have e : jsOr (a : Int) v = toInt32 ((a ||| toUint32 v : Nat) : Int) := by
    unfold jsOr
    rw [toUint32_natCast a (by omega)]
  rw [e, jsAnd_mask]
  constructor
  · intro h
    apply hle
    unfold toInt32 at h
    simp only at h
    split at h <;> omega
  · intro h
    have hlt : a ||| toUint32 v < 2 ^ 13 := Nat.or_lt_two_pow ha h
    rw [toInt32_natCast _ (by omega)]
    omega

/-- The condition `(v & 0x1FFF) == (v | 0)` says that the 32-bit pattern of `v` is
below `2^13`. -/
theorem jsAnd_eq_jsOr_zero_iff (v : Int) : jsAnd v 8191 = jsOr v 0 ↔ toUint32 v < 8192 := by
  have e : jsOr v 0 = toInt32 v := by
    unfold jsOr
    have h0 : toUint32 0 = 0 := by decide
    rw [h0, Nat.or_zero]
    unfold toInt32 toUint32
    simp only
    have : (((v % 4294967296).toNat : Nat) : Int) % 4294967296 = v % 4294967296 := by omega
    rw [this]
  rw [e, jsAnd_mask]
  unfold toInt32 toUint32
  simp only
  split <;> omega

/-- A named modifier setter reads of the old code only what lies in the 13 bits. -/
theorem Modifier.set_masked (md : Modifier) (k : Key) (b : Bool) :
    md.set k b = md.set ⟨jsAnd k.code 8191⟩ b := by
  have h : ∀ m : Nat, m < 8192 → 8191 &&& m = m →
      jsAnd k.code (m : Int) = jsAnd (jsAnd k.code 8191) (m : Int) := by
    intro m hm hsub
    have h8 : (8191 : Int) = ((8191 : Nat) : Int) := rfl
    rw [h8, jsAnd_natMask k.code 8191 (by omega), jsAnd_natMask k.code m (by omega),
      jsAnd_natMask _ m (by omega),
      toUint32_natCast _ (Nat.lt_of_le_of_lt Nat.and_le_right (by omega)),
      Nat.and_assoc, hsub]
  rw [Modifier.set_eq_setBit, Modifier.set_eq_setBit]
  have e1 : jsXor mask (jsShl 1 (nbits + (md.index : Int)))
      = ((8191 ^^^ 2 ^ (8 + md.index) : Nat) : Int) := by
    cases md <;> decide
  simp only [Key.setBit]
  rw [e1, ← h _ (by cases md <;> decide) (by cases md <;> decide)]

/-- After one mutating operation, on any key, the code is within the 13 bits
exactly when the argument of the operation has no bit outside them. -/
theorem KeyOp.apply_masked_iff (k : Key) (op : KeyOp) :
    (KeyOp.apply k op).CodeMasked ↔ op.InMask := by
  cases op with
  | setCode v =>
    show v = jsAnd v 8191 ↔ jsAnd v 8191 = v
    exact eq_comm
  | setKey v =>
    have hmm : mmask = ((7936 : Nat) : Int) := by decide
    show jsOr (jsAnd k.code mmask) v = jsAnd (jsOr (jsAnd k.code mmask) v) 8191
      ↔ jsAnd v 8191 = jsOr v 0
    rw [hmm, jsAnd_natMask k.code 7936 (by omega), jsAnd_eq_jsOr_zero_iff]
    exact jsOr_masked_iff _ (Nat.lt_of_le_of_lt Nat.and_le_right (by omega)) v
  | setMods v =>
    show jsOr (Key.operand none) v = jsAnd (jsOr (Key.operand none) v) 8191
      ↔ jsAnd v 8191 = jsOr v 0
    rw [jsAnd_eq_jsOr_zero_iff]
    exact jsOr_masked_iff 0 (by omega) v
  | setModifier m b =>
    have h8 : jsAnd k.code 8191 = (((k.code % 8192).toNat : Nat) : Int) := by
      rw [jsAnd_mask]
      omega
    obtain ⟨z, hz, hcz, _⟩ := m.set_code ⟨jsAnd k.code 8191⟩ b (k.code % 8192).toNat
      (by omega) h8
    show (m.set k b).code = jsAnd (m.set k b).code 8191 ↔ True
    rw [Modifier.set_masked, hcz, jsAnd_mask]
    simp only [iff_true]
    omega

/-- The key after a sequence of operations and one more. -/
theorem foldl_take_succ (ops : List KeyOp) (k : Key) (n : Nat) (hn : n < ops.length) :
    (ops.take (n + 1)).foldl KeyOp.apply k
      = KeyOp.apply ((ops.take n).foldl KeyOp.apply k) (ops.get ⟨n, hn⟩) := by
  rw [List.take_succ, List.foldl_append]
  simp [List.getElem?_eq_getElem hn]

set_option maxRecDepth 100000 in
/-- The key of a letter in a descriptor is the key of the event that types it. -/
theorem charKey_eq_keyEventToKey :
    ∀ c : Nat, c < 123 → (65 ≤ c ∧ c ≤ 90) ∨ (97 ≤ c ∧ c ≤ 122) →
      charKey c = keyEventToKey ⟨jsAnd (c : Int) 223, [c], false, false, false, false, 0⟩ := by
  decide

/-! ### The table `waiting` and the timeouts -/

theorem lookup_filter_ne (l : List (Int × Nat)) (c c1 : Int) :
    (l.filter (fun e => e.1 ≠ c)).lookup c1 = if c1 = c then none else l.lookup c1 := by
  induction l with
  | nil => simp
  | cons e l ih =>
    obtain ⟨a, b⟩ := e
    by_cases hac : a = c
    · subst hac
      by_cases h1 : c1 = a
      · subst h1
        simpa [List.filter_cons] using ih
      · have : (c1 == a) = false := by simpa using h1
        simp only [List.filter_cons, ne_eq, not_true_eq_false, decide_False, Bool.false_eq_true,
          if_false, ih, h1, List.lookup_cons, this]
    · by_cases h1 : c1 = c
      · subst h1
        have : (c1 == a) = false := by
          simp only [beq_eq_false_iff_ne, ne_eq]
          exact fun h => hac h.symm
        simp only [List.filter_cons, ne_eq, hac, not_false_eq_true, decide_True, if_true,
          List.lookup_cons, this, ih]
      · simp only [List.filter_cons, ne_eq, hac, not_false_eq_true, decide_True, if_true,
          List.lookup_cons, ih, h1, if_false]

theorem lookup_mem (l : List (Int × Nat)) (c : Int) (n : Nat) (h : l.lookup c = some n) :
    (c, n) ∈ l := by
  induction l with
  | nil => simp at h
  | cons e l ih =>
    obtain ⟨a, b⟩ := e
    by_cases h1 : c = a
    · subst h1
      simp only [List.lookup_cons, beq_self_eq_true] at h
      cases h
      simp
    · have : (c == a) = false := by simpa using h1
      simp only [List.lookup_cons, this] at h
      exact List.mem_cons_of_mem _ (ih h)

theorem find_timer (timers : List Timer) (id : Nat) (τ : Timer)
    (h : timers.find? (fun τ1 => τ1.id = id) = some τ) : τ ∈ timers ∧ τ.id = id := by
  refine ⟨List.mem_of_find?_eq_some h, ?_⟩
  have := List.find?_some h
  simpa using this

theorem find_timer_none (timers : List Timer) (id : Nat)
    (h : timers.find? (fun τ1 => τ1.id = id) = none) : ∀ τ ∈ timers, τ.id ≠ id := by
  intro τ hτ
  have := List.find?_eq_none.mp h τ hτ
  simpa using this

theorem myKeyDown_fields (s : Classifier) (k : Key) (t : TimeStamp) (r : Bool) :
    (myKeyDown s k t r).waiting = s.waiting ∧ (myKeyDown s k t r).timers = s.timers
      ∧ (myKeyDown s k t r).nextId = s.nextId ∧ (myKeyDown s k t r).keydown = s.keydown
      ∧ (myKeyDown s k t r).keyup = s.keyup
      ∧ (myKeyDown s k t r).calls = if s.keydown then s.calls ++ [Call.down k t r] else s.calls := by
  unfold myKeyDown
  split <;> simp

theorem myKeyUp_fields (s : Classifier) (k : Key) (t : TimeStamp) :
    (myKeyUp s k t).waiting = s.waiting ∧ (myKeyUp s k t).timers = s.timers
      ∧ (myKeyUp s k t).nextId = s.nextId ∧ (myKeyUp s k t).keydown = s.keydown
      ∧ (myKeyUp s k t).keyup = s.keyup
      ∧ (myKeyUp s k t).calls = if s.keyup then s.calls ++ [Call.up k t] else s.calls := by
  unfold myKeyUp
  split <;> simp

/-- The handler flags never change. -/
theorem step_flags (s : Classifier) (i : Input) :
    (step s i).keydown = s.keydown ∧ (step s i).keyup = s.keyup := by
  cases i with
  | keydown ev =>
    simp only [step, onkeydown]
    split <;> simp [(myKeyDown_fields _ _ _ _).2.2.2.1, (myKeyDown_fields _ _ _ _).2.2.2.2.1]
  | keyup ev => simp [step, onkeyup]
  | timeout id =>
    simp only [step, timeout]
    split <;> simp [(myKeyUp_fields _ _ _).2.2.2.1, (myKeyUp_fields _ _ _).2.2.2.2.1]

theorem run_flags (ins : List Input) : ∀ s : Classifier,
    (run s ins).keydown = s.keydown ∧ (run s ins).keyup = s.keyup := by
  induction ins with
  | nil => intro s; exact ⟨rfl, rfl⟩
  | cons i ins ih =>
    intro s
    have h1 := ih (step s i)
    have h2 := step_flags s i
    exact ⟨h1.1.trans h2.1, h1.2.trans h2.2⟩

theorem run_cons (s : Classifier) (i : Input) (ins : List Input) :
    run s (i :: ins) = run (step s i) ins := rfl

theorem run_append (s : Classifier) (xs ys : List Input) :
    run s (xs ++ ys) = run (run s xs) ys := by
  simp [run, List.foldl_append]

/-- A timeout id that is not held and lies below the next id is never held again. -/
theorem step_never_again (n : Nat) (s : Classifier) (i : Input)
    (h : (∀ τ ∈ s.timers, τ.id ≠ n) ∧ n < s.nextId) :
    (∀ τ ∈ (step s i).timers, τ.id ≠ n) ∧ n < (step s i).nextId := by
  obtain ⟨h1, h2⟩ := h
  cases i with
  | keydown ev =>
    simp only [step, onkeydown]
    split
    · rw [(myKeyDown_fields _ _ _ _).2.1, (myKeyDown_fields _ _ _ _).2.2.1]
      exact ⟨fun τ hτ => h1 τ (List.mem_filter.mp hτ).1, h2⟩
    · rw [(myKeyDown_fields _ _ _ _).2.1, (myKeyDown_fields _ _ _ _).2.2.1]
      exact ⟨h1, h2⟩
  | keyup ev =>
    simp only [step, onkeyup]
    refine ⟨?_, by omega⟩
    intro τ hτ
    rcases List.mem_append.mp hτ with h | h
    · exact h1 τ h
    · simp only [List.mem_singleton] at h
      subst h
      show s.nextId ≠ n
      omega
  | timeout id =>
    simp only [step, timeout]
    split
    · rw [(myKeyUp_fields _ _ _).2.1, (myKeyUp_fields _ _ _).2.2.1]
      exact ⟨fun τ hτ => h1 τ (List.mem_filter.mp hτ).1, h2⟩
    · exact ⟨h1, h2⟩

theorem run_never_again (n : Nat) (ins : List Input) : ∀ s : Classifier,
    (∀ τ ∈ s.timers, τ.id ≠ n) ∧ n < s.nextId →
    (∀ τ ∈ (run s ins).timers, τ.id ≠ n) ∧ n < (run s ins).nextId := by
  induction ins with
  | nil => intro s h; exact h
  | cons i ins ih => intro s h; exact ih (step s i) (step_never_again n s i h)

/-- The firing of a timeout that is not held changes nothing. -/
theorem timeout_not_held (s : Classifier) (n : Nat) (h : ∀ τ ∈ s.timers, τ.id ≠ n) :
    timeout s n = s := by
  unfold timeout
  have : s.timers.find? (fun τ => τ.id = n) = none := by
    rw [List.find?_eq_none]
    intro τ hτ
    simpa using h τ hτ
  rw [this]

/-! ### A held timeout while other inputs arrive -/

theorem Held.lt_nextId {c : Int} {n : Nat} {k0 : Key} {t0 : TimeStamp} {s : Classifier}
    (h : Held c n k0 t0 s) : n < s.nextId :=
  h.2.2.1 _ h.1

/-- A step that is no key-down of code `c` and not the firing of `n` keeps the
timeout `n` held. -/
theorem step_held (c : Int) (n : Nat) (k0 : Key) (t0 : TimeStamp) (s : Classifier) (i : Input)
    (h : Held c n k0 t0 s) (hi : i.Keeps c n) : Held c n k0 t0 (step s i) := by
  have hn := h.lt_nextId
  obtain ⟨ha, hb, hc, hd⟩ := h
  cases i with
  | keydown ev =>
    simp only [Input.Keeps] at hi
    simp only [step, onkeydown]
    split
    · next id hlook =>
      have hid : id ≠ n := by
        intro e
        subst e
        exact hi (hd _ (lookup_mem _ _ _ hlook) rfl)
      unfold Held
      rw [(myKeyDown_fields _ _ _ _).1, (myKeyDown_fields _ _ _ _).2.1,
        (myKeyDown_fields _ _ _ _).2.2.1]
      refine ⟨?_, ?_, ?_, ?_⟩
      · exact List.mem_filter.mpr ⟨ha, by simpa using fun e => hid e.symm⟩
      · exact fun τ hτ => hb τ (List.mem_filter.mp hτ).1
      · exact fun τ hτ => hc τ (List.mem_filter.mp hτ).1
      · exact fun e he => hd e (List.mem_filter.mp he).1
    · unfold Held
      rw [(myKeyDown_fields _ _ _ _).1, (myKeyDown_fields _ _ _ _).2.1,
        (myKeyDown_fields _ _ _ _).2.2.1]
      exact ⟨ha, hb, hc, hd⟩
  | keyup ev =>
    simp only [step, onkeyup]
    refine ⟨?_, ?_, ?_, ?_⟩
    · exact List.mem_append.mpr (Or.inl ha)
    · intro τ hτ hid
      rcases List.mem_append.mp hτ with h | h
      · exact hb τ h hid
      · simp only [List.mem_singleton] at h
        subst h
        simp only at hid
        omega
    · intro τ hτ
      rcases List.mem_append.mp hτ with h | h
      · have := hc τ h
        show τ.id < s.nextId + 1
        omega
      · simp only [List.mem_singleton] at h
        subst h
        show s.nextId < s.nextId + 1
        omega
    · intro e he h2
      rcases List.mem_cons.mp he with h | h
      · subst h
        simp only at h2
        omega
      · exact hd e (List.mem_filter.mp h).1 h2
  | timeout id =>
    simp only [Input.Keeps] at hi
    simp only [step, timeout]
    split
    · unfold Held
      rw [(myKeyUp_fields _ _ _).1, (myKeyUp_fields _ _ _).2.1, (myKeyUp_fields _ _ _).2.2.1]
      refine ⟨?_, ?_, ?_, ?_⟩
      · exact List.mem_filter.mpr ⟨ha, by simpa using fun e => hi e.symm⟩
      · exact fun τ hτ => hb τ (List.mem_filter.mp hτ).1
      · exact fun τ hτ => hc τ (List.mem_filter.mp hτ).1
      · exact fun e he => hd e (List.mem_filter.mp he).1
    · exact ⟨ha, hb, hc, hd⟩

theorem run_held (c : Int) (n : Nat) (k0 : Key) (t0 : TimeStamp) (ins : List Input) :
    ∀ s : Classifier, Held c n k0 t0 s → (∀ i ∈ ins, i.Keeps c n) →
      Held c n k0 t0 (run s ins) := by
  induction ins with
  | nil => intro s h _; exact h
  | cons i ins ih =>
    intro s h hi
    exact ih (step s i) (step_held c n k0 t0 s i h (hi i (by simp)))
      (fun j hj => hi j (by simp [hj]))

theorem Input.Avoids.keeps {c : Int} {n : Nat} {i : Input} (h : i.Avoids c n) : i.Keeps c n := by
  cases i <;> simp_all [Input.Avoids, Input.Keeps]

theorem upCallsWhere_append (p : Key → Bool) (xs ys : List Call) :
    upCallsWhere p (xs ++ ys) = upCallsWhere p xs + upCallsWhere p ys := by
  simp [upCallsWhere, List.countP_append]

theorem upCalls_append_down (c : Int) (xs : List Call) (k : Key) (t : TimeStamp) (r : Bool) :
    upCalls c (xs ++ [Call.down k t r]) = upCalls c xs := by
  simp [upCalls, upCallsWhere, List.countP_append, List.countP_cons]

theorem upCalls_append_up (c : Int) (xs : List Call) (k : Key) (t : TimeStamp) :
    upCalls c (xs ++ [Call.up k t]) = upCalls c xs + if k.code = c then 1 else 0 := by
  simp [upCalls, upCallsWhere, List.countP_append, List.countP_cons]

/-- A step that is no key event of code `c` and not the firing of `n` keeps the
timeout `n` held alone for `c`, and makes no up-call for `c`. -/
theorem step_heldAlone (c : Int) (n : Nat) (k0 : Key) (t0 : TimeStamp) (u : Nat)
    (s : Classifier) (i : Input) (h : HeldAlone c n k0 t0 u s) (hi : i.Avoids c n) :
    HeldAlone c n k0 t0 u (step s i) := by
  obtain ⟨hheld, he, hf, hg⟩ := h
  refine ⟨step_held c n k0 t0 s i hheld hi.keeps, ?_⟩
  cases i with
  | keydown ev =>
    simp only [Input.Avoids] at hi
    have hne : ¬ (c = (keyEventToKey ev).code) := fun e => hi e.symm
    simp only [step, onkeydown]
    split
    · rw [(myKeyDown_fields _ _ _ _).1, (myKeyDown_fields _ _ _ _).2.1,
        (myKeyDown_fields _ _ _ _).2.2.2.2.2]
      refine ⟨?_, ?_, ?_⟩
      · simp only [lookup_filter_ne, hne, if_false]
        exact he
      · exact fun τ hτ => hf τ (List.mem_filter.mp hτ).1
      · simp only
        split
        · rw [upCalls_append_down]
          exact hg
        · exact hg
    · rw [(myKeyDown_fields _ _ _ _).1, (myKeyDown_fields _ _ _ _).2.1,
        (myKeyDown_fields _ _ _ _).2.2.2.2.2]
      refine ⟨he, hf, ?_⟩
      split
      · rw [upCalls_append_down]
        exact hg
      · exact hg
  | keyup ev =>
    simp only [Input.Avoids] at hi
    have hne : ¬ (c = (keyEventToKey ev).code) := fun e => hi e.symm
    simp only [step, onkeyup]
    refine ⟨?_, ?_, hg⟩
    · have hb : (c == (keyEventToKey ev).code) = false := by simpa using hne
      simp only [List.lookup_cons, hb, lookup_filter_ne, hne, if_false]
      exact he
    · intro τ hτ hid
      rcases List.mem_append.mp hτ with h | h
      · exact hf τ h hid
      · simp only [List.mem_singleton] at h
        subst h
        exact ⟨hi, hi⟩
  | timeout id =>
    simp only [Input.Avoids] at hi
    simp only [step, timeout]
    split
    · next τ0 hfind =>
      obtain ⟨hmem, hid0⟩ := find_timer _ _ _ hfind
      have hτ0 := hf τ0 hmem (by rw [hid0]; exact hi)
      have hne : ¬ (c = τ0.c) := fun e => hτ0.1 e.symm
      rw [(myKeyUp_fields _ _ _).1, (myKeyUp_fields _ _ _).2.1, (myKeyUp_fields _ _ _).2.2.2.2.2]
      refine ⟨?_, ?_, ?_⟩
      · simp only [lookup_filter_ne, hne, if_false]
        exact he
      · exact fun τ hτ => hf τ (List.mem_filter.mp hτ).1
      · simp only
        split
        · rw [upCalls_append_up, if_neg hτ0.2]
          exact hg
        · exact hg
    · exact ⟨he, hf, hg⟩

theorem run_heldAlone (c : Int) (n : Nat) (k0 : Key) (t0 : TimeStamp) (u : Nat)
    (ins : List Input) : ∀ s : Classifier, HeldAlone c n k0 t0 u s →
      (∀ i ∈ ins, i.Avoids c n) → HeldAlone c n k0 t0 u (run s ins) := by
  induction ins with
  | nil => intro s h _; exact h
  | cons i ins ih =>
    intro s h hi
    exact ih (step s i) (step_heldAlone c n k0 t0 u s i h (hi i (by simp)))
      (fun j hj => hi j (by simp [hj]))

/-- After a key-up in a state without pending release the new timeout is held
alone for its code. -/
theorem onkeyup_heldAlone (s : Classifier) (hw : s.waiting = []) (ht : s.timers = [])
    (ev : KeyEvent) :
    HeldAlone (keyEventToKey ev).code s.nextId (keyEventToKey ev) ev.timeStamp
      (upCalls (keyEventToKey ev).code s.calls) (onkeyup s ev) := by
  simp only [HeldAlone, Held, onkeyup, hw, ht, List.nil_append, List.filter_nil,
    List.mem_singleton, List.lookup_cons, beq_self_eq_true]
  refine ⟨⟨trivial, ?_, ?_, ?_⟩, trivial, ?_, trivial⟩
  · intro τ hτ _
    exact hτ
  · intro τ hτ
    subst hτ
    show s.nextId < s.nextId + 1
    omega
  · intro e he _
    subst he
    rfl
  · intro τ hτ hid
    subst hτ
    exact absurd rfl hid

/-! ### Counting up-calls, timeouts and key-ups -/

theorem countP_filter_le {α : Type} (p q : α → Bool) (l : List α) :
    (l.filter q).countP p ≤ l.countP p := by
  induction l with
  | nil => simp
  | cons a l ih =>
    simp only [List.filter_cons, List.countP_cons]
    split
    · simp only [List.countP_cons]
      omega
    · omega

theorem countP_filter_removed {α : Type} (p q : α → Bool) (l : List α) (a : α) (ha : a ∈ l)
    (hq : q a = false) :
    (l.filter q).countP p + (if p a = true then 1 else 0) ≤ l.countP p := by
  induction l with
  | nil => simp at ha
  | cons b l ih =>
    rcases List.mem_cons.mp ha with h | h
    · subst h
      have := countP_filter_le p q l
      simp only [List.filter_cons, hq, Bool.false_eq_true, if_false, List.countP_cons]
      omega
    · have := ih h
      simp only [List.filter_cons, List.countP_cons]
      split
      · simp only [List.countP_cons]
        omega
      · omega

theorem pendingWhere_true (timers : List Timer) :
    pendingWhere (fun _ => true) timers = timers.length := by
  simp [pendingWhere]

/-- One step adds at most one to the sum of the up-calls made and the timeouts
held, and only when it is a key-up. -/
theorem step_count (p : Key → Bool) (s : Classifier) (i : Input) :
    upCallsWhere p (step s i).calls + pendingWhere p (step s i).timers
      ≤ upCallsWhere p s.calls + pendingWhere p s.timers + keyUpsWhere p [i] := by
  cases i with
  | keydown ev =>
    simp only [step, onkeydown]
    have hk : keyUpsWhere p [Input.keydown ev] = 0 := by simp [keyUpsWhere]
    rw [hk]
    split
    · next id hlook =>
      rw [(myKeyDown_fields _ _ _ _).2.1, (myKeyDown_fields _ _ _ _).2.2.2.2.2]
      have h1 := countP_filter_le (fun τ : Timer => p τ.k) (fun τ => decide (τ.id ≠ id)) s.timers
      simp only [pendingWhere]
      split
      · rw [upCallsWhere_append]
        simp only [upCallsWhere, List.countP_cons, List.countP_nil]
        simpa using h1
      · simpa using h1
    · rw [(myKeyDown_fields _ _ _ _).2.1, (myKeyDown_fields _ _ _ _).2.2.2.2.2]
      split
      · rw [upCallsWhere_append]
        simp [upCallsWhere]
      · omega
  | keyup ev =>
    have h1 : (step s (Input.keyup ev)).calls = s.calls := rfl
    have h2 : (step s (Input.keyup ev)).timers
        = s.timers ++ [⟨s.nextId, (keyEventToKey ev).code, keyEventToKey ev, ev.timeStamp⟩] := rfl
    have h3 : keyUpsWhere p [Input.keyup ev] = if p (keyEventToKey ev) = true then 1 else 0 := by
      simp [keyUpsWhere, List.countP_cons]
    rw [h1, h2, h3]
    simp only [pendingWhere, List.countP_append, List.countP_cons, List.countP_nil]
    generalize keyEventToKey ev = k
    by_cases hp : p k = true
    · rw [if_pos hp]
      omega
    · rw [if_neg hp]
      omega
  | timeout id =>
    simp only [step, timeout]
    have hk : keyUpsWhere p [Input.timeout id] = 0 := by simp [keyUpsWhere]
    rw [hk]
    split
    · next τ0 hfind =>
      obtain ⟨hmem, hid0⟩ := find_timer _ _ _ hfind
      rw [(myKeyUp_fields _ _ _).2.1, (myKeyUp_fields _ _ _).2.2.2.2.2]
      have h1 := countP_filter_removed (fun τ : Timer => p τ.k) (fun τ => decide (τ.id ≠ id))
        s.timers τ0 hmem (by simp [hid0])
      simp only [pendingWhere]
      split
      · rw [upCallsWhere_append]
        simp only [upCallsWhere, List.countP_cons, List.countP_nil]
        simp only at h1
        omega
      · simp only at h1
        omega
    · omega

theorem keyUpsWhere_cons (p : Key → Bool) (i : Input) (ins : List Input) :
    keyUpsWhere p (i :: ins) = keyUpsWhere p [i] + keyUpsWhere p ins := by
  simp only [keyUpsWhere, List.countP_cons, List.countP_nil]
  omega

theorem run_count (p : Key → Bool) (ins : List Input) : ∀ s : Classifier,
    upCallsWhere p (run s ins).calls + pendingWhere p (run s ins).timers
      ≤ upCallsWhere p s.calls + pendingWhere p s.timers + keyUpsWhere p ins := by
  induction ins with
  | nil => intro s; simp [run, keyUpsWhere]
  | cons i ins ih =>
    intro s
    have h1 := ih (step s i)
    have h2 := step_count p s i
    rw [run_cons, keyUpsWhere_cons]
    omega

theorem pendingFor_eq_zero (c : Int) (timers : List Timer) (h : ∀ τ ∈ timers, τ.k.code ≠ c) :
    pendingFor c timers = 0 := by
  simp only [pendingFor, pendingWhere, List.countP_eq_zero, decide_eq_true_eq]
  exact h

/-- The firing of a held timeout runs its callback. -/
theorem timeout_held (c : Int) (n : Nat) (k0 : Key) (t0 : TimeStamp) (s : Classifier)
    (h : Held c n k0 t0 s) :
    timeout s n
      = myKeyUp
          { s with
            timers := s.timers.filter (fun τ => τ.id ≠ n)
            waiting := s.waiting.filter (fun e => e.1 ≠ c) }
          k0 t0 := by
  obtain ⟨ha, hb, _, _⟩ := h
  unfold timeout
  cases hfind : s.timers.find? (fun τ => τ.id = n) with
  | none => exact absurd rfl (find_timer_none _ _ hfind _ ha)
  | some τ =>
    obtain ⟨hmem, hid⟩ := find_timer _ _ _ hfind
    have := hb τ hmem hid
    subst this
    rfl

/-- A key-down of code `c` while the timeout `n` is recorded for `c` clears it. -/
theorem onkeydown_recorded (s : Classifier) (ev : KeyEvent) (n : Nat)
    (h : s.waiting.lookup (keyEventToKey ev).code = some n) :
    onkeydown s ev
      = myKeyDown
          { s with
            timers := s.timers.filter (fun τ => τ.id ≠ n)
            waiting := s.waiting.filter (fun e => e.1 ≠ (keyEventToKey ev).code) }
          (keyEventToKey ev) ev.timeStamp true := by
  unfold onkeydown
  simp only [h]

theorem onkeydown_fresh (s : Classifier) (ev : KeyEvent)
    (h : s.waiting.lookup (keyEventToKey ev).code = none) :
    onkeydown s ev = myKeyDown s (keyEventToKey ev) ev.timeStamp false := by
  unfold onkeydown
  simp only [h]

/-! ### The table and the timeouts agree -/

theorem timer_eq_of_id (l : List Timer) (h : (l.map (fun τ => τ.id)).Nodup) (a b : Timer)
    (ha : a ∈ l) (hb : b ∈ l) (hid : a.id = b.id) : a = b :=
  List.inj_on_of_nodup_map h ha hb hid

theorem nodup_ids_filter (l : List Timer) (q : Timer → Bool)
    (h : (l.map (fun τ => τ.id)).Nodup) : ((l.filter q).map (fun τ => τ.id)).Nodup :=
  List.Nodup.sublist (List.Sublist.map _ (List.filter_sublist l)) h

theorem length_filter_id (l : List Timer) (h : (l.map (fun τ => τ.id)).Nodup) (a : Timer)
    (ha : a ∈ l) : (l.filter (fun τ => τ.id ≠ a.id)).length + 1 = l.length := by
  induction l with
  | nil => simp at ha
  | cons b l ih =>
    simp only [List.map_cons, List.nodup_cons] at h
    obtain ⟨hb, hl⟩ := h
    rcases List.mem_cons.mp ha with e | e
    · subst e
      have hall : l.filter (fun τ => τ.id ≠ a.id) = l := by
        rw [List.filter_eq_self]
        intro τ hτ
        have : τ.id ≠ a.id := by
          intro e
          apply hb
          rw [← e]
          exact List.mem_map.mpr ⟨τ, hτ, rfl⟩
        simpa using this
      have hdrop : (a :: l).filter (fun τ => τ.id ≠ a.id) = l := by
        rw [List.filter_cons]
        simp only [ne_eq, not_true_eq_false, decide_False, Bool.false_eq_true, if_false]
        exact hall
      rw [hdrop]
      simp
    · have hne : b.id ≠ a.id := by
        intro e2
        apply hb
        rw [e2]
        exact List.mem_map.mpr ⟨a, e, rfl⟩
      have := ih hl e
      simp only [List.filter_cons, ne_eq, hne, not_false_eq_true, decide_True, if_true,
        List.length_cons]
      simp only [ne_eq] at this
      omega

theorem disciplined_cons (s : Classifier) (i : Input) (rest : List Input)
    (h : Disciplined s (i :: rest)) :
    (∀ ev, i = Input.keyup ev → s.waiting.lookup (keyEventToKey ev).code = none)
      ∧ Disciplined (step s i) rest := by
  cases i with
  | keydown ev =>
    refine ⟨fun ev2 h2 => (by cases h2), ?_⟩
    simpa [Disciplined] using h
  | keyup ev =>
    simp only [Disciplined] at h
    refine ⟨fun ev2 h2 => ?_, h.2⟩
    cases h2
    exact h.1
  | timeout id =>
    refine ⟨fun ev2 h2 => (by cases h2), ?_⟩
    simpa [Disciplined] using h

/-- A step keeps the table and the timeouts in agreement, provided that a key-up
does not arrive for a code that has an entry in the table. -/
theorem step_consistent (s : Classifier) (i : Input) (h : Consistent s)
    (hi : ∀ ev, i = Input.keyup ev → s.waiting.lookup (keyEventToKey ev).code = none) :
    Consistent (step s i) := by
  obtain ⟨hrec, hstale, hnodup, hlt⟩ := h
  cases i with
  | keydown ev =>
    simp only [step, onkeydown]
    split
    · next id hlook =>
      unfold Consistent
      rw [(myKeyDown_fields _ _ _ _).1, (myKeyDown_fields _ _ _ _).2.1,
        (myKeyDown_fields _ _ _ _).2.2.1]
      refine ⟨?_, ?_, nodup_ids_filter _ _ hnodup, fun τ hτ => hlt τ (List.mem_filter.mp hτ).1⟩
      · intro τ hτ
        obtain ⟨hmem, hq⟩ := List.mem_filter.mp hτ
        have hid : τ.id ≠ id := by simpa using hq
        have hc : ¬ (τ.c = (keyEventToKey ev).code) := by
          intro e
          have := hrec τ hmem
          rw [e, hlook] at this
          exact hid (Option.some.inj this).symm
        simp only [lookup_filter_ne, hc, if_false]
        exact hrec τ hmem
      · intro c1 id1 h1
        rw [lookup_filter_ne] at h1
        by_cases hc : c1 = (keyEventToKey ev).code
        · simp [hc] at h1
        · simp only [hc, if_false] at h1
          obtain ⟨τ, hτ, hid, hcode⟩ := hstale c1 id1 h1
          refine ⟨τ, List.mem_filter.mpr ⟨hτ, ?_⟩, hid, hcode⟩
          have : τ.id ≠ id := by
            intro e
            obtain ⟨τ2, hτ2, hid2, hcode2⟩ := hstale _ _ hlook
            have := timer_eq_of_id _ hnodup τ τ2 hτ hτ2 (by rw [e, hid2])
            subst this
            exact hc (hcode.symm.trans hcode2)
          simpa using this
    · unfold Consistent
      rw [(myKeyDown_fields _ _ _ _).1, (myKeyDown_fields _ _ _ _).2.1,
        (myKeyDown_fields _ _ _ _).2.2.1]
      exact ⟨hrec, hstale, hnodup, hlt⟩
  | keyup ev =>
    have hnone := hi ev rfl
    simp only [step, onkeyup]
    refine ⟨?_, ?_, ?_, ?_⟩
    · intro τ hτ
      rcases List.mem_append.mp hτ with h | h
      · have h1 := hrec τ h
        have hc : ¬ (τ.c = (keyEventToKey ev).code) := by
          intro e
          rw [e, hnone] at h1
          cases h1
        have hb : (τ.c == (keyEventToKey ev).code) = false := by simpa using hc
        simp only [List.lookup_cons, hb, lookup_filter_ne, hc, if_false]
        exact h1
      · simp only [List.mem_singleton] at h
        subst h
        simp [List.lookup_cons]
    · intro c1 id1 h1
      by_cases hc : c1 = (keyEventToKey ev).code
      · subst hc
        simp only [List.lookup_cons, beq_self_eq_true, Option.some.injEq] at h1
        subst h1
        exact ⟨_, List.mem_append.mpr (Or.inr (List.mem_singleton.mpr rfl)), rfl, rfl⟩
      · have hb : (c1 == (keyEventToKey ev).code) = false := by simpa using hc
        simp only [List.lookup_cons, hb, lookup_filter_ne, hc, if_false] at h1
        obtain ⟨τ, hτ, hid, hcode⟩ := hstale c1 id1 h1
        exact ⟨τ, List.mem_append.mpr (Or.inl hτ), hid, hcode⟩
    · simp only [List.map_append, List.map_cons, List.map_nil]
      rw [List.nodup_append]
      refine ⟨hnodup, List.nodup_singleton _, ?_⟩
      intro a ha hb
      simp only [List.mem_singleton] at hb
      obtain ⟨τ, hτ, rfl⟩ := List.mem_map.mp ha
      have := hlt τ hτ
      omega
    · intro τ hτ
      rcases List.mem_append.mp hτ with h | h
      · have := hlt τ h
        show τ.id < s.nextId + 1
        omega
      · simp only [List.mem_singleton] at h
        subst h
        show s.nextId < s.nextId + 1
        omega
  | timeout id =>
    simp only [step, timeout]
    split
    · next τ0 hfind =>
      obtain ⟨hmem0, hid0⟩ := find_timer _ _ _ hfind
      unfold Consistent
      rw [(myKeyUp_fields _ _ _).1, (myKeyUp_fields _ _ _).2.1, (myKeyUp_fields _ _ _).2.2.1]
      refine ⟨?_, ?_, nodup_ids_filter _ _ hnodup, fun τ hτ => hlt τ (List.mem_filter.mp hτ).1⟩
      · intro τ hτ
        obtain ⟨hmem, hq⟩ := List.mem_filter.mp hτ
        have hid : τ.id ≠ id := by simpa using hq
        have hc : ¬ (τ.c = τ0.c) := by
          intro e
          have h1 := hrec τ hmem
          have h2 := hrec τ0 hmem0
          rw [e, h2] at h1
          exact hid ((Option.some.inj h1).symm.trans hid0)
        simp only [lookup_filter_ne, hc, if_false]
        exact hrec τ hmem
      · intro c1 id1 h1
        rw [lookup_filter_ne] at h1
        by_cases hc : c1 = τ0.c
        · simp [hc] at h1
        · simp only [hc, if_false] at h1
          obtain ⟨τ, hτ, hid, hcode⟩ := hstale c1 id1 h1
          refine ⟨τ, List.mem_filter.mpr ⟨hτ, ?_⟩, hid, hcode⟩
          have : τ.id ≠ id := by
            intro e
            have := timer_eq_of_id _ hnodup τ τ0 hτ hmem0 (by rw [e, hid0])
            subst this
            exact hc hcode.symm
          simpa using this
    · exact ⟨hrec, hstale, hnodup, hlt⟩

theorem run_consistent (ins : List Input) : ∀ s : Classifier, Consistent s →
    Disciplined s ins → Consistent (run s ins) := by
  induction ins with
  | nil => intro s h _; exact h
  | cons i ins ih =>
    intro s h hd
    obtain ⟨h1, h2⟩ := disciplined_cons s i ins hd
    exact ih (step s i) (step_consistent s i h h1) h2

theorem upCallsAll_append (xs ys : List Call) :
    upCallsAll (xs ++ ys) = upCallsAll xs + upCallsAll ys :=
  upCallsWhere_append _ xs ys

theorem repeatCalls_append (xs ys : List Call) :
    repeatCalls (xs ++ ys) = repeatCalls xs + repeatCalls ys := by
  simp [repeatCalls, List.countP_append]

/-- With both handlers set and the table in agreement with the timeouts, a step
changes the sum of the up-calls, the repeat-calls and the timeouts held by one
exactly when it is a key-up. -/
theorem step_account (s : Classifier) (i : Input) (h : Consistent s)
    (hkd : s.keydown = true) (hku : s.keyup = true) :
    upCallsAll (step s i).calls + repeatCalls (step s i).calls + (step s i).timers.length
      = upCallsAll s.calls + repeatCalls s.calls + s.timers.length + keyUps [i] := by
  obtain ⟨hrec, hstale, hnodup, hlt⟩ := h
  cases i with
  | keydown ev =>
    have hk : keyUps [Input.keydown ev] = 0 := by simp [keyUps, keyUpsWhere]
    rw [hk]
    simp only [step, onkeydown]
    split
    · next id hlook =>
      obtain ⟨τ, hτ, hid, _⟩ := hstale _ _ hlook
      have hlen := length_filter_id _ hnodup τ hτ
      rw [hid] at hlen
      rw [(myKeyDown_fields _ _ _ _).2.1, (myKeyDown_fields _ _ _ _).2.2.2.2.2]
      simp only [hkd, if_true]
      rw [upCallsAll_append, repeatCalls_append]
      have e1 : upCallsAll [Call.down (keyEventToKey ev) ev.timeStamp true] = 0 := by
        simp [upCallsAll, upCallsWhere]
      have e2 : repeatCalls [Call.down (keyEventToKey ev) ev.timeStamp true] = 1 := by
        simp [repeatCalls]
      rw [e1, e2]
      omega
    · rw [(myKeyDown_fields _ _ _ _).2.1, (myKeyDown_fields _ _ _ _).2.2.2.2.2]
      simp only [hkd, if_true]
      rw [upCallsAll_append, repeatCalls_append]
      have e1 : upCallsAll [Call.down (keyEventToKey ev) ev.timeStamp false] = 0 := by
        simp [upCallsAll, upCallsWhere]
      have e2 : repeatCalls [Call.down (keyEventToKey ev) ev.timeStamp false] = 0 := by
        simp [repeatCalls]
      rw [e1, e2]
      omega
  | keyup ev =>
    have hk : keyUps [Input.keyup ev] = 1 := by simp [keyUps, keyUpsWhere]
    rw [hk]
    have h1 : (step s (Input.keyup ev)).calls = s.calls := rfl
    have h2 : (step s (Input.keyup ev)).timers
        = s.timers ++ [⟨s.nextId, (keyEventToKey ev).code, keyEventToKey ev, ev.timeStamp⟩] := rfl
    rw [h1, h2, List.length_append, List.length_singleton]
    omega
  | timeout id =>
    have hk : keyUps [Input.timeout id] = 0 := by simp [keyUps, keyUpsWhere]
    rw [hk]
    simp only [step, timeout]
    split
    · next τ0 hfind =>
      obtain ⟨hmem0, hid0⟩ := find_timer _ _ _ hfind
      have hlen := length_filter_id _ hnodup τ0 hmem0
      rw [hid0] at hlen
      rw [(myKeyUp_fields _ _ _).2.1, (myKeyUp_fields _ _ _).2.2.2.2.2]
      simp only [hku, if_true]
      rw [upCallsAll_append, repeatCalls_append]
      have e1 : upCallsAll [Call.up τ0.k τ0.t] = 1 := by
        simp [upCallsAll, upCallsWhere]
      have e2 : repeatCalls [Call.up τ0.k τ0.t] = 0 := by
        simp [repeatCalls]
      rw [e1, e2]
      omega
    · omega

theorem keyUps_cons (i : Input) (ins : List Input) : keyUps (i :: ins) = keyUps [i] + keyUps ins :=
  keyUpsWhere_cons _ i ins

theorem run_account (ins : List Input) : ∀ s : Classifier, Consistent s →
    s.keydown = true → s.keyup = true → Disciplined s ins →
    upCallsAll (run s ins).calls + repeatCalls (run s ins).calls + (run s ins).timers.length
      = upCallsAll s.calls + repeatCalls s.calls + s.timers.length + keyUps ins := by
  induction ins with
  | nil => intro s _ _ _ _; simp [run, keyUps, keyUpsWhere]
  | cons i ins ih =>
    intro s h hkd hku hd
    obtain ⟨h1, h2⟩ := disciplined_cons s i ins hd
    have hf := step_flags s i
    have := ih (step s i) (step_consistent s i h h1) (hf.1.trans hkd) (hf.2.trans hku) h2
    have h3 := step_account s i h hkd hku
    rw [run_cons, keyUps_cons]
    omega

theorem consistent_empty (n : Nat) (kd ku : Bool) : Consistent (Classifier.empty n kd ku) := by
  simp [Consistent, Classifier.empty]

/-- When every timeout held is recorded for its code, at most one is held per code. -/
theorem onePerCode_of_consistent (s : Classifier) (h : Consistent s) : OnePerCode s := by
  obtain ⟨hrec, _, hnodup, _⟩ := h
  intro a ha b hb hc
  apply timer_eq_of_id _ hnodup a b ha hb
  have h1 := hrec a ha
  have h2 := hrec b hb
  rw [hc, h2] at h1
  exact (Option.some.inj h1).symm

/-! ### The main loop, one iteration at a time -/

/-- The main loop with fuel left runs one iteration and goes on at the next index. -/
theorem parseLoop_succ (self : JSString → Outcome (List Key)) (lc : JSString → JSString)
    (str : JSString) (fuel i : Nat) (res : List Key) (hi : i < str.length) :
    parseLoop self lc str (fuel + 1) i res
      = match iteration self lc str i with
        | .ok (k, i1) => parseLoop self lc str fuel i1 (res ++ [k])
        | .failure => .failure
        | .stuck => .stuck := by
  rw [parseLoop]
  unfold iteration
  simp only [hi, not_true_eq_false, if_false]
  cases str[i]? with
  | none => rfl
  | some code =>
    simp only
    split
    · rfl
    · split
      · rfl
      · split
        · rfl
        · split
          · generalize self _ = r
            cases r with
            | ok ks =>
              cases ks with
              | nil => rfl
              | cons k ks =>
                simp only
                generalize applyModifiers lc str _ _ k = m
                cases m <;> rfl
            | failure => rfl
            | stuck => rfl
          · split
            · rfl
            · split
              · rfl
              · generalize applyModifiers lc str _ _ _ = m
                cases m <;> rfl

theorem scanFrom_ge (l : List Nat) : ∀ i : Nat, i ≤ scanFrom l i := by
  induction l with
  | nil => intro i; simp [scanFrom]
  | cons c cs ih =>
    intro i
    simp only [scanFrom]
    split
    · have := ih (i + 1)
      omega
    · omega

theorem skipFrom_ge (right : Nat) : ∀ (l : List Nat) (j : Nat), j ≤ skipFrom right l j
  | [], j => by simp [skipFrom]
  | [c], j => by
    simp only [skipFrom]
    split <;> omega
  | c :: _ :: cs, j => by
    simp only [skipFrom]
    split
    · have := skipFrom_ge right cs (j + 2)
      omega
    · omega

theorem skipFrom_le (right B : Nat) (hB : right + 1 ≤ B) :
    ∀ (l : List Nat) (j : Nat), j ≤ B → skipFrom right l j ≤ B
  | [], j, h => by simpa [skipFrom] using h
  | [c], j, h => by
    simp only [skipFrom]
    split <;> omega
  | c :: _ :: cs, j, h => by
    simp only [skipFrom]
    split
    · exact skipFrom_le right B hB cs (j + 2) (by omega)
    · omega

/-- The modifier loop reads no character beyond the string when `j` is an index
of the string or its length. -/
theorem modsFrom_ne_stuck (lc : JSString → JSString) (j N : Nat) (hj : j ≤ N) :
    ∀ (l : List Nat) (u : Nat) (k : Key), l.length + u = N → modsFrom lc j l u k ≠ .stuck
  | [], u, k, h => by
    have : ¬ u < j := by simp at h; omega
    simp [modsFrom, this]
  | [c], u, k, h => by
    have h2 : ¬ u + 2 < j := by simp at h; omega
    simp only [modsFrom]
    split
    · cases applyModifier lc c k with
      | none => simp
      | some k1 => simp [h2]
    · simp
  | c :: _ :: cs, u, k, h => by
    simp only [modsFrom]
    split
    · cases applyModifier lc c k with
      | none => simp
      | some k1 =>
        exact modsFrom_ne_stuck lc j N hj cs (u + 2) k1 (by simp at h ⊢; omega)
    · simp

theorem length_eq_one {α : Type} (l : List α) (h : l.length = 1) : ∃ a, l = [a] := by
  match l, h with
  | [a], _ => exact ⟨a, rfl⟩

/-- An iteration that pushes a key ends at a greater index. -/
theorem iteration_ok_lt (self : JSString → Outcome (List Key)) (lc : JSString → JSString)
    (str : JSString) (i : Nat) (k : Key) (i1 : Nat)
    (h : iteration self lc str i = .ok (k, i1)) : i < i1 := by
  have hsc := scanFrom_ge (str.drop i) i
  unfold iteration at h
  cases hc : str[i]? with
  | none => simp [hc] at h
  | some code =>
    simp only [hc] at h
    split at h
    · cases h
      omega
    · split at h
      · cases h
        omega
      · split at h
        · cases h
          omega
        · split at h
          · generalize self _ = r at h
            cases r with
            | ok ks =>
              cases ks with
              | nil => simp at h
              | cons k0 ks =>
                simp only at h
                generalize applyModifiers lc str _ _ k0 = m at h
                cases m with
                | ok k1 =>
                  cases h
                  show i < scanFrom (str.drop i) i + 1
                  omega
                | failure => simp at h
                | stuck => simp at h
            | failure => simp at h
            | stuck => simp at h
          · split at h
            · next hw =>
              cases h
              omega
            · split at h
              · simp at h
              · generalize applyModifiers lc str _ _ _ = m at h
                cases m with
                | ok k1 =>
                  cases h
                  show i < scanFrom (str.drop i) i + 1
                  omega
                | failure => simp at h
                | stuck => simp at h

/-- An iteration inside the string is never stuck, when the call of `parseKeys` on a
word of one character returns the key of the character. -/
theorem iteration_ne_stuck (self : JSString → Outcome (List Key)) (lc : JSString → JSString)
    (hself : ∀ c, self [c] = .ok [charKey c]) (str : JSString) (i : Nat)
    (hi : i < str.length) : iteration self lc str i ≠ .stuck := by
  have hmods : ∀ k, str[scanClose str i]? = some 62 →
      applyModifiers lc str (i + 1) (skipDashes str (scanClose str i - 1) (i + 1 + 1) - 2) k
        ≠ .stuck := by
    intro k h62
    have hsc : scanClose str i < str.length := by
      by_contra hcon
      rw [List.getElem?_eq_none (by omega)] at h62
      cases h62
    have hle := skipFrom_le (scanClose str i - 1) (str.length + 1) (by omega)
      (str.drop (i + 1 + 1)) (i + 1 + 1) (by omega)
    unfold applyModifiers
    apply modsFrom_ne_stuck lc _ str.length
    · show skipFrom _ (str.drop (i + 1 + 1)) (i + 1 + 1) - 2 ≤ str.length
      omega
    · simp only [List.length_drop]
      omega
  unfold iteration
  obtain ⟨code, hc⟩ : ∃ code, str[i]? = some code := by
    cases h : str[i]? with
    | none =>
      rw [List.getElem?_eq_none_iff] at h
      omega
    | some code => exact ⟨code, rfl⟩
  simp only [hc]
  split
  · simp
  · split
    · simp
    · split
      · simp
      · next hcl =>
        have h62 : str[scanClose str i]? = some 62 := by
          by_contra hne
          exact hcl (Or.inl hne)
        split
        · next hw =>
          obtain ⟨c, hwc⟩ := length_eq_one _ hw
          rw [hwc, hself c]
          simp only
          have := hmods (charKey c) h62
          generalize applyModifiers lc str _ _ (charKey c) = m at this ⊢
          cases m with
          | ok k1 => simp
          | failure => simp
          | stuck => exact absurd rfl this
        · split
          · simp
          · split
            · simp
            · have := hmods (Key.new (namesValue (lc ((str.drop
                  (skipDashes str (scanClose str i - 1) (i + 1 + 1) - 2 + 1)).take
                  (scanClose str i - 1 - (skipDashes str (scanClose str i - 1) (i + 1 + 1) - 2))))))
                h62
              generalize applyModifiers lc str _ _ _ = m at this ⊢
              cases m with
              | ok k1 => simp
              | failure => simp
              | stuck => exact absurd rfl this

/-- With fuel for every index left, the main loop is never stuck, pushes at most
one key per character left and at least one key when a character is left. -/
theorem parseLoop_total (self : JSString → Outcome (List Key)) (lc : JSString → JSString)
    (hself : ∀ c, self [c] = .ok [charKey c]) (str : JSString) :
    ∀ (fuel i : Nat) (res : List Key), str.length ≤ fuel + i →
      parseLoop self lc str fuel i res ≠ .stuck
        ∧ ∀ ks, parseLoop self lc str fuel i res = .ok ks →
            res.length ≤ ks.length ∧ ks.length ≤ res.length + (str.length - i)
              ∧ (i < str.length → res.length + 1 ≤ ks.length) := by
  intro fuel
  induction fuel with
  | zero =>
    intro i res h
    have hi : ¬ i < str.length := by omega
    rw [parseLoop_end _ _ _ _ _ _ hi]
    refine ⟨by simp, ?_⟩
    intro ks hks
    cases hks
    exact ⟨Nat.le_refl _, by omega, fun h2 => absurd h2 hi⟩
  | succ fuel ih =>
    intro i res h
    by_cases hi : i < str.length
    · rw [parseLoop_succ _ _ _ _ _ _ hi]
      have hns := iteration_ne_stuck self lc hself str i hi
      cases hit : iteration self lc str i with
      | ok p =>
        obtain ⟨k, i1⟩ := p
        have hlt := iteration_ok_lt self lc str i k i1 hit
        obtain ⟨h1, h2⟩ := ih i1 (res ++ [k]) (by omega)
        refine ⟨h1, ?_⟩
        intro ks hks
        obtain ⟨h3, h4, _⟩ := h2 ks hks
        simp only [List.length_append, List.length_singleton] at h3 h4
        exact ⟨by omega, by omega, fun _ => by omega⟩
      | failure =>
        refine ⟨by simp, ?_⟩
        intro ks hks
        cases hks
      | stuck => exact absurd hit hns
    · rw [parseLoop_end _ _ _ _ _ _ hi]
      refine ⟨by simp, ?_⟩
      intro ks hks
      cases hks
      exact ⟨Nat.le_refl _, by omega, fun h2 => absurd h2 hi⟩

/-- More fuel than indexes left does not change the result of the main loop. -/
theorem parseLoop_fuel (self : JSString → Outcome (List Key)) (lc : JSString → JSString)
    (str : JSString) : ∀ (fuel i : Nat) (res : List Key), str.length ≤ fuel + i →
      parseLoop self lc str (fuel + 1) i res = parseLoop self lc str fuel i res := by
  intro fuel
  induction fuel with
  | zero =>
    intro i res h
    have hi : ¬ i < str.length := by omega
    rw [parseLoop_end _ _ _ _ _ _ hi, parseLoop_end _ _ _ _ _ _ hi]
  | succ fuel ih =>
    intro i res h
    by_cases hi : i < str.length
    · rw [parseLoop_succ _ _ _ _ _ _ hi, parseLoop_succ _ _ _ _ _ _ hi]
      cases hit : iteration self lc str i with
      | ok p =>
        obtain ⟨k, i1⟩ := p
        have hlt := iteration_ok_lt self lc str i k i1 hit
        exact ih i1 (res ++ [k]) (by omega)
      | failure => rfl
      | stuck => rfl
    · rw [parseLoop_end _ _ _ _ _ _ hi, parseLoop_end _ _ _ _ _ _ hi]

theorem parseLoop_fuel_ge (self : JSString → Outcome (List Key)) (lc : JSString → JSString)
    (str : JSString) (res : List Key) : ∀ extra : Nat,
      parseLoop self lc str (str.length + extra) 0 res = parseLoop self lc str str.length 0 res := by
  intro extra
  induction extra with
  | zero => rfl
  | succ e ih =>
    rw [← ih]
    exact parseLoop_fuel self lc str (str.length + e) 0 res (by omega)

/-- The main loop calls `self` on words of one character only. -/
theorem iteration_congr (self1 self2 : JSString → Outcome (List Key))
    (lc : JSString → JSString) (h : ∀ c, self1 [c] = self2 [c]) (str : JSString) (i : Nat) :
    iteration self1 lc str i = iteration self2 lc str i := by
  unfold iteration
  cases str[i]? with
  | none => rfl
  | some code =>
    simp only
    split
    · rfl
    · split
      · rfl
      · split
        · rfl
        · split
          · next hw =>
            obtain ⟨c, hwc⟩ := length_eq_one _ hw
            rw [hwc, h c]
          · rfl

theorem parseLoop_congr (self1 self2 : JSString → Outcome (List Key))
    (lc : JSString → JSString) (h : ∀ c, self1 [c] = self2 [c]) (str : JSString) :
    ∀ (fuel i : Nat) (res : List Key),
      parseLoop self1 lc str fuel i res = parseLoop self2 lc str fuel i res := by
  intro fuel
  induction fuel with
  | zero => intro i res; simp [parseLoop]
  | succ fuel ih =>
    intro i res
    by_cases hi : i < str.length
    · rw [parseLoop_succ _ _ _ _ _ _ hi, parseLoop_succ _ _ _ _ _ _ hi,
        iteration_congr self1 self2 lc h]
      cases iteration self2 lc str i with
      | ok p => exact ih p.2 (res ++ [p.1])
      | failure => rfl
      | stuck => rfl
    · rw [parseLoop_end _ _ _ _ _ _ hi, parseLoop_end _ _ _ _ _ _ hi]

/-! ### The main loop on a string behind a prefix -/

theorem scanFrom_shift (a : Nat) (l : List Nat) : ∀ i : Nat,
    scanFrom l (a + i) = a + scanFrom l i := by
  induction l with
  | nil => intro i; simp [scanFrom]
  | cons c cs ih =>
    intro i
    simp only [scanFrom]
    split
    · rw [Nat.add_assoc, ih (i + 1)]
    · rfl

theorem scanClose_append (q t : JSString) (i : Nat) :
    scanClose (q ++ t) (q.length + i) = q.length + scanClose t i := by
  unfold scanClose
  rw [List.drop_append, scanFrom_shift]

theorem skipFrom_shift (a right : Nat) : ∀ (l : List Nat) (j : Nat),
    skipFrom (a + right) l (a + j) = a + skipFrom right l j
  | [], j => by simp [skipFrom]
  | [c], j => by
    simp only [skipFrom, Nat.add_lt_add_iff_left]
    split <;> omega
  | c :: _ :: cs, j => by
    simp only [skipFrom, Nat.add_lt_add_iff_left]
    split
    · rw [Nat.add_assoc, skipFrom_shift a right cs (j + 2)]
    · rfl

theorem skipDashes_append (q t : JSString) (right j : Nat) :
    skipDashes (q ++ t) (q.length + right) (q.length + j) = q.length + skipDashes t right j := by
  unfold skipDashes
  rw [List.drop_append, skipFrom_shift]

theorem modsFrom_shift (lc : JSString → JSString) (a j : Nat) :
    ∀ (l : List Nat) (u : Nat) (k : Key),
      modsFrom lc (a + j) l (a + u) k = modsFrom lc j l u k
  | [], u, k => by simp [modsFrom]
  | [c], u, k => by
    have e : a + u + 2 = a + (u + 2) := by omega
    simp only [modsFrom, Nat.add_lt_add_iff_left, e]
  | c :: _ :: cs, u, k => by
    simp only [modsFrom, Nat.add_lt_add_iff_left]
    split
    · cases applyModifier lc c k with
      | none => rfl
      | some k1 =>
        simp only
        rw [Nat.add_assoc, modsFrom_shift lc a j cs (u + 2) k1]
    · rfl

theorem applyModifiers_append (lc : JSString → JSString) (q t : JSString) (left j : Nat)
    (k : Key) :
    applyModifiers lc (q ++ t) (q.length + left) (q.length + j) k
      = applyModifiers lc t left j k := by
  unfold applyModifiers
  rw [List.drop_append, modsFrom_shift]

theorem getElem?_append_add (q t : JSString) (i : Nat) : (q ++ t)[q.length + i]? = t[i]? := by
  rw [List.getElem?_append_right (by omega)]
  congr 1
  omega

/-- An iteration behind a prefix `q` is the iteration on the rest, with the next
index moved by the length of `q`. -/
theorem iteration_shift (self : JSString → Outcome (List Key)) (lc : JSString → JSString)
    (q t : JSString) (i : Nat) :
    iteration self lc (q ++ t) (q.length + i)
      = (iteration self lc t i).map (fun p => (p.1, q.length + p.2)) := by
  unfold iteration
  rw [getElem?_append_add]
  cases hc : t[i]? with
  | none => rfl
  | some code =>
    simp only
    by_cases hl : (65 ≤ code ∧ code ≤ 90) ∨ (97 ≤ code ∧ code ≤ 122)
    · simp only [hl, if_true, Outcome.map]
      rfl
    · by_cases h60 : code ≠ 60
      · simp only [hl, if_false, h60, if_true, Outcome.map, ne_eq, not_false_eq_true]
        rfl
      · have hcode : code = 60 := by
          by_contra hne
          exact h60 hne
        subst hcode
        have hi : i < t.length := by
          by_contra hcon
          rw [List.getElem?_eq_none (by omega)] at hc
          cases hc
        have hsc1 : i + 1 ≤ scanClose t i := by
          unfold scanClose
          rw [List.drop_eq_getElem_cons hi]
          have : t[i] = 60 := by
            have := List.getElem?_eq_getElem hi
            rw [hc] at this
            exact (Option.some.inj this).symm
          rw [this, scanFrom]
          simp only [ne_eq, Nat.reduceEqDiff, not_false_eq_true, if_true]
          exact scanFrom_ge _ _
        have hsd2 : i + 1 + 1 ≤ skipDashes t (scanClose t i - 1) (i + 1 + 1) := by
          unfold skipDashes
          exact skipFrom_ge _ _ _
        have e1 : scanClose (q ++ t) (q.length + i) = q.length + scanClose t i :=
          scanClose_append q t i
        have e2 : q.length + scanClose t i - 1 = q.length + (scanClose t i - 1) := by omega
        have e5 : skipDashes (q ++ t) (q.length + (scanClose t i - 1)) (q.length + i + 1 + 1)
            = q.length + skipDashes t (scanClose t i - 1) (i + 1 + 1) := by
          have : q.length + i + 1 + 1 = q.length + (i + 1 + 1) := by omega
          rw [this, skipDashes_append]
        have e6 : q.length + skipDashes t (scanClose t i - 1) (i + 1 + 1) - 2
            = q.length + (skipDashes t (scanClose t i - 1) (i + 1 + 1) - 2) := by omega
        have e7 : ((q ++ t).drop
              (q.length + (skipDashes t (scanClose t i - 1) (i + 1 + 1) - 2) + 1)).take
              (q.length + (scanClose t i - 1)
                - (q.length + (skipDashes t (scanClose t i - 1) (i + 1 + 1) - 2)))
            = (t.drop (skipDashes t (scanClose t i - 1) (i + 1 + 1) - 2 + 1)).take
                (scanClose t i - 1 - (skipDashes t (scanClose t i - 1) (i + 1 + 1) - 2)) := by
          have a1 : q.length + (skipDashes t (scanClose t i - 1) (i + 1 + 1) - 2) + 1
              = q.length + (skipDashes t (scanClose t i - 1) (i + 1 + 1) - 2 + 1) := by omega
          have a2 : q.length + (scanClose t i - 1)
              - (q.length + (skipDashes t (scanClose t i - 1) (i + 1 + 1) - 2))
              = scanClose t i - 1 - (skipDashes t (scanClose t i - 1) (i + 1 + 1) - 2) := by
            omega
          rw [a1, a2, List.drop_append]
        have e8 : ∀ k, applyModifiers lc (q ++ t) (q.length + i + 1)
              (q.length + (skipDashes t (scanClose t i - 1) (i + 1 + 1) - 2)) k
            = applyModifiers lc t (i + 1) (skipDashes t (scanClose t i - 1) (i + 1 + 1) - 2) k := by
          intro k
          have : q.length + i + 1 = q.length + (i + 1) := by omega
          rw [this, applyModifiers_append]
        have e4 : (q.length + i = q.length + (scanClose t i - 1)) ↔ (i = scanClose t i - 1) := by
          omega
        have e9 : (q.length + (skipDashes t (scanClose t i - 1) (i + 1 + 1) - 2)
              = q.length + i + 1 - 1)
            ↔ (skipDashes t (scanClose t i - 1) (i + 1 + 1) - 2 = i + 1 - 1) := by
          omega
        simp only [hl, if_false, h60, e1, e2, getElem?_append_add, e4, e5, e6, e7, e8, e9]
        split
        · simp only [Outcome.map]
          congr 2
        · split
          · generalize self _ = r
            cases r with
            | ok ks =>
              cases ks with
              | nil => rfl
              | cons k ks =>
                simp only
                generalize applyModifiers lc t _ _ k = m
                cases m with
                | ok k1 =>
                  simp only [Outcome.map]
                  congr 2
                | failure => rfl
                | stuck => rfl
            | failure => rfl
            | stuck => rfl
          · split
            · simp only [Outcome.map]
              congr 2
            · split
              · rfl
              · generalize applyModifiers lc t _ _ _ = m
                cases m with
                | ok k1 =>
                  simp only [Outcome.map]
                  congr 2
                | failure => rfl
                | stuck => rfl

/-- The main loop behind a prefix `q` of the string and with a prefix `pre` of the
array gives what the main loop gives on the rest, with `pre` in front. -/
theorem parseLoop_shift (self : JSString → Outcome (List Key)) (lc : JSString → JSString)
    (q t : JSString) (pre : List Key) : ∀ (fuel i : Nat) (res : List Key),
      parseLoop self lc (q ++ t) fuel (q.length + i) (pre ++ res)
        = (parseLoop self lc t fuel i res).map (fun ks => pre ++ ks) := by
  intro fuel
  induction fuel with
  | zero =>
    intro i res
    simp only [parseLoop, List.length_append, Nat.add_lt_add_iff_left]
    split <;> rfl
  | succ fuel ih =>
    intro i res
    by_cases hi : i < t.length
    · have hi2 : q.length + i < (q ++ t).length := by
        simp only [List.length_append]
        omega
      rw [parseLoop_succ _ _ _ _ _ _ hi, parseLoop_succ _ _ _ _ _ _ hi2, iteration_shift]
      cases iteration self lc t i with
      | ok p =>
        simp only [Outcome.map]
        rw [List.append_assoc]
        exact ih p.2 (res ++ [p.1])
      | failure => rfl
      | stuck => rfl
    · have hi2 : ¬ q.length + i < (q ++ t).length := by
        simp only [List.length_append]
        omega
      rw [parseLoop_end _ _ _ _ _ _ hi, parseLoop_end _ _ _ _ _ _ hi2]
      rfl

/-- The iteration on a bracket whose content has exactly two characters: a literal
`<` is pushed and the next iteration starts right after the `<`. -/
theorem iteration_two_chars (self : JSString → Outcome (List Key)) (lc : JSString → JSString)
    (x y : Nat) (rest : JSString) (hx : x ≠ 62) (hy : y ≠ 62) :
    iteration self lc (60 :: x :: y :: 62 :: rest) 0 = .ok (Key.new 60, 1) := by
  have hsc : scanClose (60 :: x :: y :: 62 :: rest) 0 = 3 := by
    simp [scanClose, scanFrom, hx, hy]
  have hsd : skipDashes (60 :: x :: y :: 62 :: rest) (3 - 1) (0 + 1 + 1) = 2 := by
    unfold skipDashes
    exact skipFrom_stop _ _ _ (fun h => absurd h (by decide))
  unfold iteration
  simp only [List.getElem?_cons_zero, hsc, hsd]
  simp

/-- A first character other than `<` gives its key, and the main loop goes on with
the rest of the string. -/
theorem parseKeys_cons_plain (lc : JSString → JSString) (c : Nat) (t : JSString)
    (h60 : c ≠ 60) :
    parseKeys lc (c :: t) = (parseKeys lc t).map (fun ks => charKey c :: ks) := by
  have hstep := parseLoop_plain (parseKeysDepth lc 1) lc (c :: t) t.length 0 [] c
    (by simp) h60
  have hshift := parseLoop_shift (parseKeysDepth lc 1) lc [c] t [charKey c] t.length 0 []
  rw [parseKeys_eq, parseKeys_eq]
  exact hstep.trans hshift

theorem Outcome.map_map {α β γ : Type} (f : α → β) (g : β → γ) (o : Outcome α) :
    (o.map f).map g = o.map (fun a => g (f a)) := by
  cases o <;> rfl

/-! ## Properties of `Key` and of `parseKeys` -/

/-- C8: for every integer `p`, `new Key(p).code` is `p & 0x1FFF`, that is `p`
modulo `2^13`; the mask has exactly the bits 0..12 (the value mask the bits 0..7,
the modifier mask the bits 8..12); and building a key from the code of a key gives
the same key. -/
theorem key_new_code_masked (p : Int) :
    (Key.new p).code = jsAnd p 8191
      ∧ (Key.new p).code = p % 8192
      ∧ (∀ n : Nat, Int.testBit mask n = decide (n < 13))
      ∧ (∀ n : Nat, Int.testBit cmask n = decide (n < 8))
      ∧ (∀ n : Nat, Int.testBit mmask n = decide (8 ≤ n ∧ n < 13))
      ∧ (Key.new (Key.new p).code).code = (Key.new p).code := by
  have hm : mask = 8191 := by decide
  have h1 : (Key.new p).code = p % 8192 := by
    show jsAnd p mask = _
    rw [hm, jsAnd_mask]
  refine ⟨by show jsAnd p mask = _; rw [hm], h1, ?_, ?_, ?_, ?_⟩
  · intro n
    have e : mask = ((2 ^ 13 - 1 : Nat) : Int) := by decide
    rw [e]
    show Nat.testBit _ n = _
    rw [Nat.testBit_two_pow_sub_one]
  · intro n
    have e : cmask = ((2 ^ 8 - 1 : Nat) : Int) := by decide
    rw [e]
    show Nat.testBit _ n = _
    rw [Nat.testBit_two_pow_sub_one]
  · intro n
    have e : mmask = (((2 ^ 13 - 1) ^^^ (2 ^ 8 - 1) : Nat) : Int) := by decide
    rw [e]
    show Nat.testBit _ n = _
    rw [Nat.testBit_xor, Nat.testBit_two_pow_sub_one, Nat.testBit_two_pow_sub_one]
    by_cases h8 : n < 8 <;> by_cases h13 : n < 13 <;> simp [h8, h13] <;> omega
  · show jsAnd (Key.new p).code mask = _
    rw [hm, jsAnd_mask, h1]
    omega

/-- C9: for a key built by the constructor, a modifier `m` and a boolean `b`, after
`k.m = b` bit `8 + index m` of the code is `b`, every other bit of the code is as
before, and the getter `k.m` is non-zero exactly when `b` is true. -/
theorem modifier_set_frame (p : Int) (m : Modifier) (b : Bool) :
    (∀ n : Nat, Int.testBit (m.set (Key.new p) b).code n
        = if n = 8 + m.index then b else Int.testBit (Key.new p).code n)
      ∧ (m.get (m.set (Key.new p) b) ≠ 0 ↔ b = true) := by
  obtain ⟨x, hx, hc⟩ := new_code_natCast p
  obtain ⟨y, hy, hcy, hbits⟩ := m.set_code (Key.new p) b x hx hc
  constructor
  · intro n
    rw [hcy, hc]
    exact hbits n
  · have hk : m.set (Key.new p) b = ⟨(y : Int)⟩ := by
      cases hh : m.set (Key.new p) b
      simp_all
    rw [hk, Modifier.get_eq_getBit, getBit_ne_zero y hy m.index m.index_lt, hbits]
    simp

/-- C10 (the code at the failing input): after `k.mods = 0x100` on the key built
from 65 the value field is 0, not 65; the setter of the value field does keep the
modifier field. -/
theorem setMods_clears_value :
    (Key.new 65).key = 65
      ∧ ((Key.new 65).setMods 256).key = 0
      ∧ ((Key.new 65).setMods 256).mods = 256
      ∧ (((Key.new 65).setMods 256).setKey 66).mods = 256 := by
  decide

/-- C5: a string without `<` whose characters have code at most 255 parses to as
many keys as it has characters; the key at position `i` holds, for a letter, the
code with bit 0x20 cleared (the uppercase code), `lower` exactly when the letter is
lowercase and no other modifier, and for another character its code and no modifier. -/
theorem parseKeys_plain_string (lc : JSString → JSString) (s : JSString)
    (hs : ∀ c ∈ s, c ≠ 60 ∧ c ≤ 255) :
    ∃ ks : List Key, parseKeys lc s = .ok ks ∧ ks.length = s.length
      ∧ ∀ (i c : Nat) (k : Key), s[i]? = some c → ks[i]? = some k → CharKeySpec c k := by
  refine ⟨s.map charKey, parseKeysDepth_literal lc 1 s (Or.inl fun c hc => (hs c hc).1),
    by simp, ?_⟩
  intro i c k hc hk
  rw [List.getElem?_map, hc] at hk
  simp only [Option.map_some', Option.some.injEq] at hk
  subst hk
  exact charKey_spec c (by have := (hs c (List.getElem?_mem hc)).2; omega)

theorem parseKeys_plain_string_witness :
    (∀ c ∈ utf16 "Foo", c ≠ 60 ∧ c ≤ 255)
      ∧ ∃ ks : List Key, parseKeys asciiToLowerCase (utf16 "Foo") = .ok ks
          ∧ ks.length = (utf16 "Foo").length
          ∧ ∀ (i c : Nat) (k : Key), (utf16 "Foo")[i]? = some c → ks[i]? = some k →
              CharKeySpec c k :=
  ⟨by decide, parseKeys_plain_string asciiToLowerCase (utf16 "Foo") (by decide)⟩

/-- C6 (the claim fails): `parseKeys("<>")` is not the one-element sequence `[Key(60)]`. -/
theorem parseKeys_empty_bracket_not_single :
    parseKeys asciiToLowerCase (utf16 "<>") ≠ .ok [Key.new 60] := by
  decide

/-- C6 (amended): `parseKeys("<>")` is the two-element sequence `[Key(60), Key(62)]`:
the `<` is taken literally, scanning resumes right after it, and the `>` is the
next key. -/
theorem parseKeys_empty_bracket (lc : JSString → JSString) :
    parseKeys lc (utf16 "<>") = .ok [Key.new 60, Key.new 62] := by
  rfl

/-- C7: when `s` has no `>`, `parseKeys('<' + s)` succeeds and is `Key(60)` followed
by the keys of `parseKeys(s)`, which succeeds too. -/
theorem parseKeys_unterminated (lc : JSString → JSString) (s : JSString) (hs : 62 ∉ s) :
    ∃ ks : List Key, parseKeys lc s = .ok ks
      ∧ parseKeys lc (60 :: s) = .ok (Key.new 60 :: ks) := by
  refine ⟨s.map charKey, parseKeysDepth_literal lc 1 s (Or.inr hs), ?_⟩
  have h : (62 : Nat) ∉ 60 :: s := by simpa using hs
  exact parseKeysDepth_literal lc 1 (60 :: s) (Or.inr h)

theorem parseKeys_unterminated_witness :
    62 ∉ utf16 "x"
      ∧ ∃ ks : List Key, parseKeys asciiToLowerCase (utf16 "x") = .ok ks
          ∧ parseKeys asciiToLowerCase (60 :: utf16 "x") = .ok (Key.new 60 :: ks) :=
  ⟨by decide, parseKeys_unterminated asciiToLowerCase (utf16 "x") (by decide)⟩

/-- C1 (the code at the failing input): `up` is a name of the table with code 38,
but `parseKeys("<up>")` is the four keys of `<`, `u`, `p`, `>` and not `[Key(38)]`;
the same name after a modifier, `<c-up>`, does resolve to code 38. Every name of
the table that has two characters is parsed in this way, as four literal keys. -/
theorem parseKeys_two_letter_name :
    names.lookup (utf16 "up") = some 38
      ∧ parseKeys asciiToLowerCase (utf16 "<up>")
          = .ok [Key.new 60, letterKey 117, letterKey 112, Key.new 62]
      ∧ parseKeys asciiToLowerCase (utf16 "<up>") ≠ .ok [Key.new 38]
      ∧ parseKeys asciiToLowerCase (utf16 "<c-up>") = .ok [(Key.new 38).setCtrl true]
      ∧ ∀ n ∈ nameKeys, n.length = 2 →
          parseKeys asciiToLowerCase (60 :: (n ++ [62]))
            = .ok (Key.new 60 :: (n.map charKey ++ [Key.new 62])) := by
  decide

/-- C3 (the code at the failing input): `constructor` has eleven characters, none
of them `>` or `-`, and is not a name of the table, but `parseKeys("<constructor>")`
does not fail: it returns one key of code 0. -/
theorem parseKeys_inherited_name :
    utf16 "constructor" ∉ nameKeys
      ∧ asciiToLowerCase (utf16 "constructor") = utf16 "constructor"
      ∧ 3 ≤ (utf16 "constructor").length
      ∧ 62 ∉ utf16 "constructor" ∧ 45 ∉ utf16 "constructor"
      ∧ parseKeys asciiToLowerCase (utf16 "<constructor>") = .ok [Key.new 0]
      ∧ parseKeys asciiToLowerCase (utf16 "<banana>") = .failure := by
  decide

/-- C2: a bracket with a non-empty list of modifier letters (each one of `c`, `a`,
`m`, `s` in either case) and a name `N` that is a name of the table in any letter
case or a single character other than `>` parses to exactly one key `k`. Its bits
are those of the key `base` that `N` resolves to (the table code, below 256 and so
without modifier, for a name; the key of `parseKeys(N)` for a character) together
with the bits of the listed modifiers, and nothing else. -/
theorem parseKeys_modified_bracket (lc : JSString → JSString) (hlc : LowersAscii lc)
    (ms : List Nat) (hne : ms ≠ []) (hms : ∀ m ∈ ms, (modifierOfLetter m).isSome = true)
    (N : JSString) (hN : asciiToLowerCase N ∈ nameKeys ∨ ∃ c, c ≠ 62 ∧ N = [c]) :
    ∃ base k : Key,
      parseKeys lc (60 :: (modPrefix ms ++ (N ++ [62]))) = .ok [k]
        ∧ (asciiToLowerCase N ∈ nameKeys →
            ∃ v : Nat, v < 256 ∧ names.lookup (asciiToLowerCase N) = some (v : Int)
              ∧ base.code = (v : Int))
        ∧ (∀ c, N = [c] → parseKeys lc N = .ok [base])
        ∧ ∀ n : Nat, Int.testBit k.code n = true ↔
            (Int.testBit base.code n = true
              ∨ ∃ m ∈ ms, ∃ md, modifierOfLetter m = some md ∧ n = 8 + md.index) := by
  obtain ⟨m, ms', rfl⟩ : ∃ m ms', ms = m :: ms' := by
    cases ms with
    | nil => exact absurd rfl hne
    | cons m ms' => exact ⟨m, ms', rfl⟩
  have h62 : 62 ∉ m :: ms' := modifierOfLetter_ne_close _ hms
  -- the facts about the name and the key it resolves to
  have hbase : ∃ base : Key, ∃ x : Nat, x < 8192 ∧ base.code = (x : Int)
      ∧ 62 ∉ N ∧ N ≠ [] ∧ N[1]? ≠ some 45
      ∧ bracketKey (parseKeysDepth lc 1) lc (m :: ms') N
          = modsOutcome (foldMods lc (m :: ms') base)
      ∧ (asciiToLowerCase N ∈ nameKeys →
            ∃ v : Nat, v < 256 ∧ names.lookup (asciiToLowerCase N) = some (v : Int)
              ∧ base.code = (v : Int))
      ∧ (∀ c, N = [c] → parseKeys lc N = .ok [base]) := by
    rcases hN with hname | ⟨c, hc, rfl⟩
    · obtain ⟨hn62, hn45, hlen, hascii⟩ := nameVariant_chars N hname
      obtain ⟨hin, v, hv, hlook⟩ := nameKeys_lookup _ hname
      have hcode : (Key.new (v : Int)).code = (v : Int) := by
        rw [new_code_mod]
        omega
      refine ⟨Key.new (v : Int), v, by omega, hcode, hn62, ?_, hn45, ?_, ?_, ?_⟩
      · intro h0
        rw [h0] at hlen
        simp at hlen
      · rw [bracketKey_word _ _ _ _ hlen, hlc N hascii, hin]
        simp [namesValue, hlook]
      · intro _
        exact ⟨v, hv, hlook, hcode⟩
      · intro c hNc
        rw [hNc] at hlen
        simp at hlen
    · obtain ⟨x, hx, hcx⟩ := charKey_code c
      refine ⟨charKey c, x, hx, hcx, ?_, by simp, by simp, ?_, ?_, ?_⟩
      · simpa using fun h => hc h.symm
      · exact bracketKey_single _ _ _ _ _ (parseKeysDepth_single lc 0 c)
      · intro hname
        have := (nameVariant_chars _ hname).2.2.1
        simp at this
      · intro c' _
        exact parseKeysDepth_single lc 1 c
  obtain ⟨base, x, hx, hcx, hn62, hnne, hn45, hbr, hres1, hres2⟩ := hbase
  obtain ⟨k, y, hy, hcy, hfold, hbits⟩ := foldMods_of_letters lc hlc (m :: ms') base x hx hcx hms
  refine ⟨base, k, ?_, hres1, hres2, ?_⟩
  · have hstep := parseLoop_bracket (parseKeysDepth lc 1) lc [] [] m ms' N
      (2 * ms'.length + N.length + 3) [] h62 hn62 hnne hn45
    rw [hbr, hfold] at hstep
    simp only [modsOutcome, List.nil_append, List.length_nil] at hstep
    have hlen : (60 :: (modPrefix (m :: ms') ++ (N ++ [62]))).length
        = 2 * ms'.length + N.length + 3 + 1 := by
      simp only [List.length_cons, List.length_append, modPrefix_length, List.length_nil]
      omega
    rw [parseKeys_eq, hlen, hstep]
    exact parseLoop_end _ _ _ _ _ _ (by rw [hlen]; omega)
  · intro n
    rw [hcy, hcx]
    exact hbits n

theorem parseKeys_modified_bracket_witness :
    LowersAscii asciiToLowerCase ∧ utf16 "cAm" ≠ []
      ∧ (∀ m ∈ utf16 "cAm", (modifierOfLetter m).isSome = true)
      ∧ ∃ base k : Key,
          parseKeys asciiToLowerCase (60 :: (modPrefix (utf16 "cAm") ++ (utf16 "Esc" ++ [62])))
              = .ok [k]
            ∧ (asciiToLowerCase (utf16 "Esc") ∈ nameKeys →
                ∃ v : Nat, v < 256
                  ∧ names.lookup (asciiToLowerCase (utf16 "Esc")) = some (v : Int)
                  ∧ base.code = (v : Int))
            ∧ (∀ c, utf16 "Esc" = [c] → parseKeys asciiToLowerCase (utf16 "Esc") = .ok [base])
            ∧ ∀ n : Nat, Int.testBit k.code n = true ↔
                (Int.testBit base.code n = true
                  ∨ ∃ m ∈ utf16 "cAm", ∃ md, modifierOfLetter m = some md ∧ n = 8 + md.index) :=
  ⟨fun _ _ => rfl, by decide, by decide,
    parseKeys_modified_bracket asciiToLowerCase (fun _ _ => rfl) (utf16 "cAm") (by decide)
      (by decide) (utf16 "Esc") (Or.inl (by decide))⟩

/-- C4: a bracket with at least one modifier position, each holding a character
other than `>`, and a name `N` that is a name of the table (in any letter case) or
a single character other than `>`, makes `parseKeys` return `false` when one of
the modifier characters does not lower-case to `c`, `a`, `m` or `s`, whatever the
prefix `p` without `<` and the suffix `s` around the bracket are. -/
theorem parseKeys_unknown_modifier (lc : JSString → JSString) (p s : JSString)
    (hp : ∀ c ∈ p, c ≠ 60) (ms : List Nat) (hne : ms ≠ []) (h62 : 62 ∉ ms)
    (N : JSString) (hN : asciiToLowerCase N ∈ nameKeys ∨ ∃ c, c ≠ 62 ∧ N = [c])
    (hbad : ∃ m ∈ ms, lc [m] ∉ [[99], [97], [109], [115]]) :
    parseKeys lc (p ++ 60 :: (modPrefix ms ++ (N ++ 62 :: s))) = .failure := by
  obtain ⟨m, ms', rfl⟩ : ∃ m ms', ms = m :: ms' := by
    cases ms with
    | nil => exact absurd rfl hne
    | cons m ms' => exact ⟨m, ms', rfl⟩
  have hfold := foldMods_of_unknown lc (m :: ms') hbad
  have hfacts : 62 ∉ N ∧ N ≠ [] ∧ N[1]? ≠ some 45
      ∧ bracketKey (parseKeysDepth lc 1) lc (m :: ms') N = .failure := by
    rcases hN with hname | ⟨c, hc, rfl⟩
    · obtain ⟨hn62, hn45, hlen, _⟩ := nameVariant_chars N hname
      refine ⟨hn62, ?_, hn45, ?_⟩
      · intro h0
        rw [h0] at hlen
        simp at hlen
      · rw [bracketKey_word _ _ _ _ hlen, hfold]
        simp [modsOutcome]
    · refine ⟨?_, by simp, by simp, ?_⟩
      · simpa using fun h => hc h.symm
      · rw [bracketKey_single _ _ _ _ _ (parseKeysDepth_single lc 0 c), hfold]
        rfl
  obtain ⟨hn62, hnne, hn45, hbr⟩ := hfacts
  generalize hrest : 60 :: (modPrefix (m :: ms') ++ (N ++ 62 :: s)) = rest
  have hrun := parseLoop_plain_run (parseKeysDepth lc 1) lc p hp [] rest
    (2 * ms'.length + N.length + s.length + 3 + 1) []
  have hstep := parseLoop_bracket (parseKeysDepth lc 1) lc p s m ms' N
    (2 * ms'.length + N.length + s.length + 3) (p.map charKey) h62 hn62 hnne hn45
  rw [hbr, hrest] at hstep
  simp only [List.nil_append, List.length_nil, Nat.zero_add] at hrun
  have hlen : (p ++ rest).length = 2 * ms'.length + N.length + s.length + 3 + 1 + p.length := by
    rw [← hrest]
    simp only [List.length_cons, List.length_append, modPrefix_length]
    omega
  rw [parseKeys_eq, hlen, hrun, hstep]

theorem parseKeys_unknown_modifier_witness :
    (∀ c ∈ utf16 "ab", c ≠ 60) ∧ utf16 "q" ≠ [] ∧ 62 ∉ utf16 "q"
      ∧ (∃ m ∈ utf16 "q", asciiToLowerCase [m] ∉ [[99], [97], [109], [115]])
      ∧ parseKeys asciiToLowerCase
          (utf16 "ab" ++ 60 :: (modPrefix (utf16 "q") ++ (utf16 "z" ++ 62 :: utf16 "cd")))
          = .failure :=
  ⟨by decide, by decide, by decide, by decide,
    parseKeys_unknown_modifier asciiToLowerCase (utf16 "ab") (utf16 "cd") (by decide)
      (utf16 "q") (by decide) (by decide) (utf16 "z") (Or.inr ⟨122, by decide, rfl⟩)
      (by decide)⟩

/-- C11: for a letter key (value 65..90) `getChar()` is the lowercase letter, the
value with bit 0x20 flipped, exactly when `lower` is set and `shift` is not, and the
uppercase letter exactly otherwise; so no `shift` and no `lower` gives uppercase,
`lower` without `shift` gives lowercase, and `lower` with `shift` gives uppercase. -/
theorem getChar_letter (k : Key) (hk : 65 ≤ k.key ∧ k.key ≤ 90) :
    jsXor k.key 32 = k.key + 32
      ∧ (k.getChar = fromCharCode (jsXor k.key 32) ↔ (k.lower ≠ 0 ∧ k.shift = 0))
      ∧ (k.getChar = [(k.key + 32).toNat] ↔ (k.lower ≠ 0 ∧ k.shift = 0))
      ∧ (k.getChar = [k.key.toNat] ↔ ¬ (k.lower ≠ 0 ∧ k.shift = 0))
      ∧ (k.shift = 0 → k.lower = 0 → k.getChar = [k.key.toNat])
      ∧ (k.lower ≠ 0 → k.shift = 0 → k.getChar = [(k.key + 32).toNat])
      ∧ (k.lower ≠ 0 → k.shift ≠ 0 → k.getChar = [k.key.toNat]) := by
  have hx : ∀ v : Int, 65 ≤ v → v ≤ 90 → jsXor v 32 = v + 32 := by
    intro v h1 h2
    interval_cases v <;> decide
  have hxk := hx k.key hk.1 hk.2
  have hlow : (k.lower ≠ 0 ∧ k.shift = 0) → k.getChar = [(k.key + 32).toNat] := by
    intro h
    have e1 : toBoolean k.lower = true := (toBoolean_ne_zero _).mpr h.1
    have e2 : toBoolean k.shift = false := by simp [toBoolean, h.2]
    simp only [Key.getChar, e1, e2, Bool.not_false, Bool.and_self, if_true, hxk, fromCharCode]
    congr 1
    omega
  have hup : ¬ (k.lower ≠ 0 ∧ k.shift = 0) → k.getChar = [k.key.toNat] := by
    intro h
    have e : (toBoolean k.lower && !toBoolean k.shift) = false := by
      by_contra hh
      simp only [Bool.not_eq_false, Bool.and_eq_true, Bool.not_eq_true', toBoolean_ne_zero] at hh
      apply h
      refine ⟨hh.1, ?_⟩
      have := hh.2
      simpa [toBoolean] using this
    simp only [Key.getChar, e, fromCharCode]
    simp only [Bool.false_eq_true, if_false]
    congr 1
    omega
  have hne : [(k.key + 32).toNat] ≠ [k.key.toNat] := by
    intro h
    have := List.cons.inj h
    omega
  have hiff1 : k.getChar = [(k.key + 32).toNat] ↔ (k.lower ≠ 0 ∧ k.shift = 0) := by
    constructor
    · intro h
      by_contra hc
      rw [hup hc] at h
      exact hne h.symm
    · exact hlow
  have hfc : fromCharCode (jsXor k.key 32) = [(k.key + 32).toNat] := by
    rw [hxk]
    simp only [fromCharCode]
    congr 1
    omega
  refine ⟨hxk, by rw [hfc]; exact hiff1, hiff1, ?_, ?_, ?_, ?_⟩
  · constructor
    · intro h hc
      rw [hlow hc] at h
      exact hne h
    · exact hup
  · intro h1 h2
    exact hup (fun h => h.1 h2)
  · intro h1 h2
    exact hlow ⟨h1, h2⟩
  · intro h1 h2
    exact hup (fun h => h2 h.2)

set_option maxRecDepth 10000 in
theorem getChar_letter_witness :
    (65 ≤ (Key.new 4161).key ∧ (Key.new 4161).key ≤ 90)
      ∧ (Key.new 4161).getChar = utf16 "a"
      ∧ ((Key.new 4161).getChar = [((Key.new 4161).key + 32).toNat]
          ↔ ((Key.new 4161).lower ≠ 0 ∧ (Key.new 4161).shift = 0)) :=
  ⟨by decide, by decide, (getChar_letter (Key.new 4161) (by decide)).2.2.1⟩

/-- C12: for an event with a raw code in 0..255 and a reported string with first
code unit `c0`, the key of the event has the raw code as its value, has `shift`,
`ctrl`, `alt` and `meta` equal to the four flags of the event, and has `lower` set
exactly when the raw code is in 65..90 and bit 0x20 of `c0` differs from the
shift flag. -/
theorem keyEventToKey_fields (ev : KeyEvent) (hcode : 0 ≤ ev.keyCode ∧ ev.keyCode ≤ 255)
    (c0 : Nat) (rest : JSString) (hkey : ev.key = c0 :: rest) :
    (keyEventToKey ev).key = ev.keyCode
      ∧ ((keyEventToKey ev).shift ≠ 0 ↔ ev.shiftKey = true)
      ∧ ((keyEventToKey ev).ctrl ≠ 0 ↔ ev.ctrlKey = true)
      ∧ ((keyEventToKey ev).alt ≠ 0 ↔ ev.altKey = true)
      ∧ ((keyEventToKey ev).meta ≠ 0 ↔ ev.metaKey = true)
      ∧ ((keyEventToKey ev).lower ≠ 0 ↔
          ((65 ≤ ev.keyCode ∧ ev.keyCode ≤ 90) ∧ c0.testBit 5 ≠ ev.shiftKey)) := by
  have hx : (ev.keyCode % 8192).toNat = ev.keyCode.toNat := by omega
  have hx256 : ev.keyCode.toNat < 256 := by omega
  have hcast : ((ev.keyCode.toNat % 256 : Nat) : Int) = ev.keyCode := by omega
  have hiff : (65 ≤ ev.keyCode.toNat ∧ ev.keyCode.toNat ≤ 90)
      ↔ (65 ≤ ev.keyCode ∧ ev.keyCode ≤ 90) := by omega
  obtain ⟨y, hy, hc, hbits⟩ := keyEventToKey_bits ev
  obtain ⟨hk, hget⟩ := getters_natCast _ y hy hc
  have hchr : toBoolean (jsAnd (Key.operand (charCodeAt ev.key 0)) 32) = c0.testBit 5 := by
    have e0 : Key.operand (charCodeAt (c0 :: rest) 0) = (c0 : Int) := by
      simp [charCodeAt, Key.operand]
    rw [hkey, e0]
    exact toBoolean_and_32 c0
  have h12 : ev.keyCode.toNat.testBit 12 = false :=
    Nat.testBit_lt_two_pow (Nat.lt_of_lt_of_le hx256 (by decide))
  rw [hx, hchr, h12] at hbits
  have hs := hget .shift
  have hct := hget .ctrl
  have ha := hget .alt
  have hme := hget .meta
  have hlo := hget .lower
  simp only [Modifier.get, Modifier.index] at hs hct ha hme hlo
  rw [hbits] at hs hct ha hme hlo
  refine ⟨?_, by simpa using hs, by simpa using hct, by simpa using ha, by simpa using hme, ?_⟩
  · rw [hk, mod_256_eq_of_testBit ev.keyCode.toNat y]
    · exact hcast
    · intro n hn
      rw [hbits]
      have : n ≠ 8 ∧ n ≠ 9 ∧ n ≠ 10 ∧ n ≠ 11 ∧ n ≠ 12 := by omega
      simp [this]
  · rw [hlo]
    have e : ev.keyCode.toNat % 256 = ev.keyCode.toNat := Nat.mod_eq_of_lt hx256
    have e12 : (if 8 + 4 = 8 then ev.shiftKey
        else if 8 + 4 = 9 then ev.ctrlKey
        else if 8 + 4 = 10 then ev.altKey
        else if 8 + 4 = 11 then ev.metaKey
        else if 8 + 4 = 12 then
          decide (65 ≤ ev.keyCode.toNat % 256 ∧ ev.keyCode.toNat % 256 ≤ 90)
            && (c0.testBit 5 != ev.shiftKey) || false
        else ev.keyCode.toNat.testBit (8 + 4))
        = (decide (65 ≤ ev.keyCode.toNat ∧ ev.keyCode.toNat ≤ 90)
            && (c0.testBit 5 != ev.shiftKey)) := by
      rw [e]
      simp
    rw [e12]
    simp only [Bool.and_eq_true, decide_eq_true_eq, bne_iff_ne, hiff]

set_option maxRecDepth 10000 in
theorem keyEventToKey_fields_witness :
    (0 ≤ (65 : Int) ∧ (65 : Int) ≤ 255)
      ∧ (keyEventToKey ⟨65, utf16 "a", false, true, false, false, 7⟩).key = 65
      ∧ ((keyEventToKey ⟨65, utf16 "a", false, true, false, false, 7⟩).lower ≠ 0 ↔
          ((65 ≤ (65 : Int) ∧ (65 : Int) ≤ 90) ∧ (97 : Nat).testBit 5 ≠ false)) :=
  ⟨by decide,
    (keyEventToKey_fields ⟨65, utf16 "a", false, true, false, false, 7⟩ (by decide) 97 []
      (by decide)).1,
    (keyEventToKey_fields ⟨65, utf16 "a", false, true, false, false, 7⟩ (by decide) 97 []
      (by decide)).2.2.2.2.2⟩

set_option maxRecDepth 10000 in
/-- C13 (the code at the failing input): the event with raw code 65, reported
character `a` and the shift flag set gives a key without `lower`, and `getChar()`
of that key is `A`, not the reported `a`. For the other three combinations of the
reported case and the shift flag `getChar()` gives back the reported character. -/
theorem getChar_of_shifted_lowercase :
    (keyEventToKey ⟨65, utf16 "a", true, false, false, false, 0⟩).lower = 0
      ∧ (keyEventToKey ⟨65, utf16 "a", true, false, false, false, 0⟩).shift ≠ 0
      ∧ (keyEventToKey ⟨65, utf16 "a", true, false, false, false, 0⟩).getChar = utf16 "A"
      ∧ (keyEventToKey ⟨65, utf16 "a", true, false, false, false, 0⟩).getChar ≠ utf16 "a"
      ∧ (keyEventToKey ⟨65, utf16 "a", false, false, false, false, 0⟩).getChar = utf16 "a"
      ∧ (keyEventToKey ⟨65, utf16 "A", false, false, false, false, 0⟩).getChar = utf16 "A"
      ∧ (keyEventToKey ⟨65, utf16 "A", true, false, false, false, 0⟩).getChar = utf16 "A" := by
  decide

/-- C14: for an ASCII letter `c`, `parseKeys(c)` is the one key that `keyEventToKey`
gives for the event with raw code `c & 0xDF`, reported character `c` and no flag. -/
theorem parseKeys_letter_eq_keyEventToKey (lc : JSString → JSString) (c : Nat)
    (hc : (65 ≤ c ∧ c ≤ 90) ∨ (97 ≤ c ∧ c ≤ 122)) (t : TimeStamp) :
    parseKeys lc [c]
      = .ok [keyEventToKey ⟨jsAnd (c : Int) 223, [c], false, false, false, false, t⟩] := by
  have h1 : parseKeys lc [c] = .ok [charKey c] := parseKeysDepth_single lc 1 c
  have h2 : keyEventToKey ⟨jsAnd (c : Int) 223, [c], false, false, false, false, t⟩
      = keyEventToKey ⟨jsAnd (c : Int) 223, [c], false, false, false, false, 0⟩ := rfl
  rw [h1, h2, charKey_eq_keyEventToKey c (by omega) hc]

theorem parseKeys_letter_eq_keyEventToKey_witness :
    ((65 ≤ 102 ∧ 102 ≤ 90) ∨ (97 ≤ 102 ∧ 102 ≤ 122))
      ∧ parseKeys asciiToLowerCase (utf16 "f")
          = .ok [keyEventToKey ⟨70, utf16 "f", false, false, false, false, 3⟩] :=
  ⟨by decide, parseKeys_letter_eq_keyEventToKey asciiToLowerCase 102 (by decide) 3⟩

/-- C18 (the claim fails): after `k.code = 0x2000` on the key built from 0 the code
is `0x2000`, which is not `code & 0x1FFF`; `k.key = 0x2000` does the same. -/
theorem setCode_leaves_mask :
    ((Key.new 0).setCode 8192).code = 8192
      ∧ ((Key.new 0).setCode 8192).code ≠ jsAnd ((Key.new 0).setCode 8192).code 8191
      ∧ ((Key.new 0).setKey 8192).code ≠ jsAnd ((Key.new 0).setKey 8192).code 8191
      ∧ ((Key.new 0).setMods 8192).code ≠ jsAnd ((Key.new 0).setMods 8192).code 8191 := by
  decide

/-- C18 (amended): for a key obtained from the constructor by any sequence of
mutating operations, the code is within the 13 defined bits (`code` equals
`code & 0x1FFF`) after every operation of the sequence if and only if every
argument of the sequence has no bit outside the 13 bits: the argument `v` of
`set code` satisfies `(v & 0x1FFF) == v`, that is `0 <= v < 0x2000`, and the
argument `v` of `set key` and of `set mods` satisfies `(v & 0x1FFF) == (v | 0)`,
that is `v` modulo `2^32` is below `0x2000`; the modifier setters take any
argument. After one operation on any key, whatever its code, the code is within
the 13 bits exactly when the argument of that operation satisfies its condition. -/
theorem code_masked_iff_inMask (p : Int) (ops : List KeyOp) :
    ((∀ n, n ≤ ops.length → ((ops.take n).foldl KeyOp.apply (Key.new p)).CodeMasked)
        ↔ ∀ op ∈ ops, op.InMask)
      ∧ (∀ (k : Key) (op : KeyOp), (KeyOp.apply k op).CodeMasked ↔ op.InMask)
      ∧ (∀ v : Int, (KeyOp.setCode v).InMask ↔ 0 ≤ v ∧ v < 8192)
      ∧ (∀ v : Int, (KeyOp.setKey v).InMask ↔ v % 4294967296 < 8192)
      ∧ (∀ v : Int, (KeyOp.setMods v).InMask ↔ v % 4294967296 < 8192)
      ∧ ∀ (m : Modifier) (b : Bool), (KeyOp.setModifier m b).InMask := by
  have hpat : ∀ v : Int, jsAnd v 8191 = jsOr v 0 ↔ v % 4294967296 < 8192 := by
    intro v
    rw [jsAnd_eq_jsOr_zero_iff]
    unfold toUint32
    omega
  refine ⟨⟨fun h op hop => ?_, fun h n hn => ?_⟩, KeyOp.apply_masked_iff, fun v => ?_,
    hpat, hpat, fun _ _ => trivial⟩
  · obtain ⟨i, hi, rfl⟩ := List.getElem_of_mem hop
    have := h (i + 1) (by omega)
    rw [foldl_take_succ ops (Key.new p) i hi] at this
    exact (KeyOp.apply_masked_iff _ _).mp this
  · cases n with
    | zero =>
      obtain ⟨y, hy, hc⟩ := new_code_natCast p
      show (Key.new p).code = jsAnd (Key.new p).code 8191
      rw [hc, jsAnd_mask]
      omega
    | succ i =>
      rw [foldl_take_succ ops (Key.new p) i (by omega)]
      exact (KeyOp.apply_masked_iff _ _).mpr (h _ (List.get_mem _ _ _))
  · show jsAnd v 8191 = v ↔ _
    rw [jsAnd_mask]
    omega

theorem code_masked_iff_inMask_witness :
    (∀ op ∈ [KeyOp.setKey 256, KeyOp.setModifier .ctrl true, KeyOp.setMods 66,
        KeyOp.setCode 4161, KeyOp.setKey 4294967301], op.InMask)
      ∧ (∀ n, n ≤ 5 →
          (([KeyOp.setKey 256, KeyOp.setModifier .ctrl true, KeyOp.setMods 66,
              KeyOp.setCode 4161, KeyOp.setKey 4294967301].take n).foldl KeyOp.apply
            (Key.new 65)).CodeMasked)
      ∧ ¬ (KeyOp.setKey 8192).InMask
      ∧ ¬ ((Key.new 65).setKey 8192).CodeMasked :=
  ⟨by decide,
    (code_masked_iff_inMask 65 [KeyOp.setKey 256, KeyOp.setModifier .ctrl true,
      KeyOp.setMods 66, KeyOp.setCode 4161, KeyOp.setKey 4294967301]).1.mpr (by decide),
    by decide, by decide⟩

/-- C15: from a state without pending release, a key-up for the key `K` at `t0`
sets the timeout `n`; when, with no event of `K` and no firing of `n` in between,
a key-down for `K` at `t1` follows, the down-handler is called with `(K, t1, true)`,
the entry of `K` is removed from `waiting`, the timeout `n` is cleared and is never
held again, no timeout for `K` is left, and from then on the up-handler is called
for `K` at most as often as later key-ups for `K` arrive: the release at `t0` is
never reported. A key-down whose code has no entry in `waiting` is reported with
`false` and changes neither the table nor the timeouts. -/
theorem keydown_after_keyup_is_repeat (s0 : Classifier) (hw : s0.waiting = [])
    (ht : s0.timers = []) (hkd : s0.keydown = true) (ev0 ev1 : KeyEvent)
    (hsame : (keyEventToKey ev1).code = (keyEventToKey ev0).code) (es : List Input)
    (hes : ∀ i ∈ es, i.Avoids (keyEventToKey ev0).code s0.nextId) :
    (onkeydown (run (onkeyup s0 ev0) es) ev1).calls
        = (run (onkeyup s0 ev0) es).calls ++ [Call.down (keyEventToKey ev1) ev1.timeStamp true]
      ∧ (onkeydown (run (onkeyup s0 ev0) es) ev1).waiting.lookup (keyEventToKey ev0).code = none
      ∧ (∀ τ ∈ (onkeydown (run (onkeyup s0 ev0) es) ev1).timers, τ.id ≠ s0.nextId)
      ∧ pendingFor (keyEventToKey ev0).code (onkeydown (run (onkeyup s0 ev0) es) ev1).timers = 0
      ∧ upCalls (keyEventToKey ev0).code (onkeydown (run (onkeyup s0 ev0) es) ev1).calls
          = upCalls (keyEventToKey ev0).code s0.calls
      ∧ (∀ later : List Input,
          (∀ τ ∈ (run (onkeydown (run (onkeyup s0 ev0) es) ev1) later).timers, τ.id ≠ s0.nextId)
            ∧ upCalls (keyEventToKey ev0).code
                (run (onkeydown (run (onkeyup s0 ev0) es) ev1) later).calls
              ≤ upCalls (keyEventToKey ev0).code s0.calls
                  + keyUpsFor (keyEventToKey ev0).code later)
      ∧ (∀ (s : Classifier) (ev : KeyEvent), s.keydown = true →
          s.waiting.lookup (keyEventToKey ev).code = none →
          (onkeydown s ev).calls = s.calls ++ [Call.down (keyEventToKey ev) ev.timeStamp false]
            ∧ (onkeydown s ev).waiting = s.waiting ∧ (onkeydown s ev).timers = s.timers) := by
  have hinv := run_heldAlone _ _ _ _ _ es _ (onkeyup_heldAlone s0 hw ht ev0) hes
  have hflag : (run (onkeyup s0 ev0) es).keydown = true :=
    ((run_flags es (onkeyup s0 ev0)).1).trans hkd
  generalize run (onkeyup s0 ev0) es = s2 at hinv hflag ⊢
  obtain ⟨⟨ha, hb, hc, hd⟩, he, hf, hg⟩ := hinv
  have hn : s0.nextId < s2.nextId := hc _ ha
  have hlook : s2.waiting.lookup (keyEventToKey ev1).code = some s0.nextId := by
    rw [hsame]
    exact he
  have hdown := onkeydown_recorded s2 ev1 s0.nextId hlook
  have hcalls : (onkeydown s2 ev1).calls
      = s2.calls ++ [Call.down (keyEventToKey ev1) ev1.timeStamp true] := by
    rw [hdown, (myKeyDown_fields _ _ _ _).2.2.2.2.2]
    simp only [hflag, if_true]
  have hwait : (onkeydown s2 ev1).waiting
      = s2.waiting.filter (fun e => e.1 ≠ (keyEventToKey ev1).code) := by
    rw [hdown, (myKeyDown_fields _ _ _ _).1]
  have htim : (onkeydown s2 ev1).timers = s2.timers.filter (fun τ => τ.id ≠ s0.nextId) := by
    rw [hdown, (myKeyDown_fields _ _ _ _).2.1]
  have hnext : (onkeydown s2 ev1).nextId = s2.nextId := by
    rw [hdown, (myKeyDown_fields _ _ _ _).2.2.1]
  have h3 : ∀ τ ∈ (onkeydown s2 ev1).timers, τ.id ≠ s0.nextId := by
    intro τ hτ
    rw [htim] at hτ
    simpa using (List.mem_filter.mp hτ).2
  have h4 : pendingFor (keyEventToKey ev0).code (onkeydown s2 ev1).timers = 0 := by
    apply pendingFor_eq_zero
    intro τ hτ
    have hid := h3 τ hτ
    rw [htim] at hτ
    exact (hf τ (List.mem_filter.mp hτ).1 hid).2
  have h5 : upCalls (keyEventToKey ev0).code (onkeydown s2 ev1).calls
      = upCalls (keyEventToKey ev0).code s0.calls := by
    rw [hcalls, upCalls_append_down]
    exact hg
  refine ⟨hcalls, ?_, h3, h4, h5, ?_, ?_⟩
  · rw [hwait, lookup_filter_ne, if_pos hsame.symm]
  · intro later
    refine ⟨(run_never_again s0.nextId later _ ⟨h3, by rw [hnext]; exact hn⟩).1, ?_⟩
    have hcount := run_count (fun k => decide (k.code = (keyEventToKey ev0).code)) later
      (onkeydown s2 ev1)
    have e4 : pendingWhere (fun k => decide (k.code = (keyEventToKey ev0).code))
        (onkeydown s2 ev1).timers = 0 := h4
    have e5 : upCallsWhere (fun k => decide (k.code = (keyEventToKey ev0).code))
        (onkeydown s2 ev1).calls = upCalls (keyEventToKey ev0).code s0.calls := h5
    rw [e4, e5] at hcount
    show upCallsWhere _ _ ≤ _ + keyUpsWhere _ _
    omega
  · intro s ev hk hl
    rw [onkeydown_fresh s ev hl]
    refine ⟨?_, (myKeyDown_fields _ _ _ _).1, (myKeyDown_fields _ _ _ _).2.1⟩
    rw [(myKeyDown_fields _ _ _ _).2.2.2.2.2]
    simp only [hk, if_true]

set_option maxRecDepth 100000 in
theorem keydown_after_keyup_is_repeat_witness :
    (Classifier.empty 1 true true).waiting = []
      ∧ (Classifier.empty 1 true true).timers = []
      ∧ (∀ i ∈ [Input.keyup ⟨66, utf16 "b", false, false, false, false, 1⟩],
          i.Avoids (keyEventToKey ⟨65, utf16 "a", false, false, false, false, 0⟩).code 1)
      ∧ (onkeydown
            (run (onkeyup (Classifier.empty 1 true true)
                ⟨65, utf16 "a", false, false, false, false, 0⟩)
              [Input.keyup ⟨66, utf16 "b", false, false, false, false, 1⟩])
            ⟨65, utf16 "a", false, false, false, false, 2⟩).calls
          = (run (onkeyup (Classifier.empty 1 true true)
                ⟨65, utf16 "a", false, false, false, false, 0⟩)
              [Input.keyup ⟨66, utf16 "b", false, false, false, false, 1⟩]).calls
            ++ [Call.down (keyEventToKey ⟨65, utf16 "a", false, false, false, false, 2⟩) 2 true] :=
  ⟨rfl, rfl, by
      intro i hi
      simp only [List.mem_singleton] at hi
      subst hi
      show (keyEventToKey ⟨66, utf16 "b", false, false, false, false, 1⟩).code
        ≠ (keyEventToKey ⟨65, utf16 "a", false, false, false, false, 0⟩).code
      decide,
    (keydown_after_keyup_is_repeat (Classifier.empty 1 true true) rfl rfl rfl
      ⟨65, utf16 "a", false, false, false, false, 0⟩
      ⟨65, utf16 "a", false, false, false, false, 2⟩ rfl
      [Input.keyup ⟨66, utf16 "b", false, false, false, false, 1⟩] (by
        intro i hi
        simp only [List.mem_singleton] at hi
        subst hi
        show (keyEventToKey ⟨66, utf16 "b", false, false, false, false, 1⟩).code
          ≠ (keyEventToKey ⟨65, utf16 "a", false, false, false, false, 0⟩).code
        decide)).1⟩

/-- C16: from a state without pending release, a key-up for the key `K` at `t0`
sets the timeout `n`; when no key-down for `K` arrives before `n` fires, the
firing of `n` calls the up-handler with `K` and the time stamp `t0` of the key-up,
leaves no entry for `K` in `waiting`, and the timeout `n` is never held again, so
that a later firing of `n` does nothing: the call is made exactly once. When no
other key-up for `K` arrived in between either, the number of up-calls for `K` has
grown by exactly one, and grows later only with later key-ups for `K`. -/
theorem keyup_alone_is_released (s0 : Classifier) (hw : s0.waiting = [])
    (ht : s0.timers = []) (hku : s0.keyup = true) (ev0 : KeyEvent) (es : List Input)
    (hes : ∀ i ∈ es, i.Keeps (keyEventToKey ev0).code s0.nextId) :
    (timeout (run (onkeyup s0 ev0) es) s0.nextId).calls
        = (run (onkeyup s0 ev0) es).calls ++ [Call.up (keyEventToKey ev0) ev0.timeStamp]
      ∧ (timeout (run (onkeyup s0 ev0) es) s0.nextId).waiting.lookup (keyEventToKey ev0).code
          = none
      ∧ (∀ later : List Input,
          (∀ τ ∈ (run (timeout (run (onkeyup s0 ev0) es) s0.nextId) later).timers,
              τ.id ≠ s0.nextId)
            ∧ timeout (run (timeout (run (onkeyup s0 ev0) es) s0.nextId) later) s0.nextId
                = run (timeout (run (onkeyup s0 ev0) es) s0.nextId) later)
      ∧ ((∀ i ∈ es, i.Avoids (keyEventToKey ev0).code s0.nextId) →
          upCalls (keyEventToKey ev0).code (timeout (run (onkeyup s0 ev0) es) s0.nextId).calls
              = upCalls (keyEventToKey ev0).code s0.calls + 1
            ∧ ∀ later : List Input,
                upCalls (keyEventToKey ev0).code
                    (run (timeout (run (onkeyup s0 ev0) es) s0.nextId) later).calls
                  ≤ upCalls (keyEventToKey ev0).code s0.calls + 1
                      + keyUpsFor (keyEventToKey ev0).code later) := by
  have hheld := run_held _ _ _ _ es _ (onkeyup_heldAlone s0 hw ht ev0).1 hes
  have hflag : (run (onkeyup s0 ev0) es).keyup = true :=
    ((run_flags es (onkeyup s0 ev0)).2).trans hku
  have halone : (∀ i ∈ es, i.Avoids (keyEventToKey ev0).code s0.nextId) →
      HeldAlone (keyEventToKey ev0).code s0.nextId (keyEventToKey ev0) ev0.timeStamp
        (upCalls (keyEventToKey ev0).code s0.calls) (run (onkeyup s0 ev0) es) :=
    fun h => run_heldAlone _ _ _ _ _ es _ (onkeyup_heldAlone s0 hw ht ev0) h
  generalize run (onkeyup s0 ev0) es = s2 at hheld hflag halone ⊢
  have hfire := timeout_held _ _ _ _ s2 hheld
  have hn : s0.nextId < s2.nextId := hheld.lt_nextId
  have hcalls : (timeout s2 s0.nextId).calls
      = s2.calls ++ [Call.up (keyEventToKey ev0) ev0.timeStamp] := by
    rw [hfire, (myKeyUp_fields _ _ _).2.2.2.2.2]
    simp only [hflag, if_true]
  have hwait : (timeout s2 s0.nextId).waiting
      = s2.waiting.filter (fun e => e.1 ≠ (keyEventToKey ev0).code) := by
    rw [hfire, (myKeyUp_fields _ _ _).1]
  have htim : (timeout s2 s0.nextId).timers = s2.timers.filter (fun τ => τ.id ≠ s0.nextId) := by
    rw [hfire, (myKeyUp_fields _ _ _).2.1]
  have hnext : (timeout s2 s0.nextId).nextId = s2.nextId := by
    rw [hfire, (myKeyUp_fields _ _ _).2.2.1]
  have h3 : ∀ τ ∈ (timeout s2 s0.nextId).timers, τ.id ≠ s0.nextId := by
    intro τ hτ
    rw [htim] at hτ
    simpa using (List.mem_filter.mp hτ).2
  refine ⟨hcalls, ?_, ?_, ?_⟩
  · rw [hwait, lookup_filter_ne, if_pos rfl]
  · intro later
    have hnever := (run_never_again s0.nextId later _ ⟨h3, by rw [hnext]; exact hn⟩).1
    exact ⟨hnever, timeout_not_held _ _ hnever⟩
  · intro havoid
    obtain ⟨_, _, hf, hg⟩ := halone havoid
    have h5 : upCalls (keyEventToKey ev0).code (timeout s2 s0.nextId).calls
        = upCalls (keyEventToKey ev0).code s0.calls + 1 := by
      rw [hcalls, upCalls_append_up, if_pos rfl, hg]
    refine ⟨h5, ?_⟩
    intro later
    have h4 : pendingFor (keyEventToKey ev0).code (timeout s2 s0.nextId).timers = 0 := by
      apply pendingFor_eq_zero
      intro τ hτ
      have hid := h3 τ hτ
      rw [htim] at hτ
      exact (hf τ (List.mem_filter.mp hτ).1 hid).2
    have hcount := run_count (fun k => decide (k.code = (keyEventToKey ev0).code)) later
      (timeout s2 s0.nextId)
    have e4 : pendingWhere (fun k => decide (k.code = (keyEventToKey ev0).code))
        (timeout s2 s0.nextId).timers = 0 := h4
    have e5 : upCallsWhere (fun k => decide (k.code = (keyEventToKey ev0).code))
        (timeout s2 s0.nextId).calls = upCalls (keyEventToKey ev0).code s0.calls + 1 := h5
    rw [e4, e5] at hcount
    show upCallsWhere _ _ ≤ _ + keyUpsWhere _ _
    omega

set_option maxRecDepth 100000 in
theorem keyup_alone_is_released_witness :
    (Classifier.empty 1 true true).waiting = []
      ∧ (Classifier.empty 1 true true).timers = []
      ∧ (∀ i ∈ [Input.keydown ⟨66, utf16 "b", false, false, false, false, 1⟩],
          i.Keeps (keyEventToKey ⟨65, utf16 "a", false, false, false, false, 0⟩).code 1)
      ∧ (timeout
            (run (onkeyup (Classifier.empty 1 true true)
                ⟨65, utf16 "a", false, false, false, false, 0⟩)
              [Input.keydown ⟨66, utf16 "b", false, false, false, false, 1⟩]) 1).calls
          = (run (onkeyup (Classifier.empty 1 true true)
                ⟨65, utf16 "a", false, false, false, false, 0⟩)
              [Input.keydown ⟨66, utf16 "b", false, false, false, false, 1⟩]).calls
            ++ [Call.up (keyEventToKey ⟨65, utf16 "a", false, false, false, false, 0⟩) 0] :=
  ⟨rfl, rfl, by
      intro i hi
      simp only [List.mem_singleton] at hi
      subst hi
      show (keyEventToKey ⟨66, utf16 "b", false, false, false, false, 1⟩).code
        ≠ (keyEventToKey ⟨65, utf16 "a", false, false, false, false, 0⟩).code
      decide,
    (keyup_alone_is_released (Classifier.empty 1 true true) rfl rfl rfl
      ⟨65, utf16 "a", false, false, false, false, 0⟩
      [Input.keydown ⟨66, utf16 "b", false, false, false, false, 1⟩] (by
        intro i hi
        simp only [List.mem_singleton] at hi
        subst hi
        show (keyEventToKey ⟨66, utf16 "b", false, false, false, false, 1⟩).code
          ≠ (keyEventToKey ⟨65, utf16 "a", false, false, false, false, 0⟩).code
        decide)).1⟩

set_option maxRecDepth 100000 in
/-- C17 (the claim fails): after two key-ups for the letter `a` with no key-down
and no firing in between, two timeouts are held for the one code, and the first of
them is not the one that `waiting` records. -/
theorem two_keyups_two_timeouts :
    ¬ OnePerCode (run (Classifier.empty 1 true true)
        [Input.keyup ⟨65, utf16 "a", false, false, false, false, 0⟩,
          Input.keyup ⟨65, utf16 "a", false, false, false, false, 2⟩])
      ∧ ¬ Recorded (run (Classifier.empty 1 true true)
          [Input.keyup ⟨65, utf16 "a", false, false, false, false, 0⟩,
            Input.keyup ⟨65, utf16 "a", false, false, false, false, 2⟩])
      ∧ ((run (Classifier.empty 1 true true)
          [Input.keyup ⟨65, utf16 "a", false, false, false, false, 0⟩,
            Input.keyup ⟨65, utf16 "a", false, false, false, false, 2⟩]).timers.map
            (fun τ => (τ.id, τ.c))) = [(1, 4161), (2, 4161)]
      ∧ (run (Classifier.empty 1 true true)
          [Input.keyup ⟨65, utf16 "a", false, false, false, false, 0⟩,
            Input.keyup ⟨65, utf16 "a", false, false, false, false, 2⟩]).waiting
          = [(4161, 2)] := by
  unfold OnePerCode Recorded
  decide

/-- C17 (amended): in every state reached from the empty state by key-downs,
key-ups and firings of timeouts such that no key-up arrives for a code that has an
entry in `waiting`, at most one timeout is held per code and it is the one that
`waiting` records for the code, and every entry of `waiting` records a timeout
held for its code; with both handlers set the key-ups are exactly the up-calls,
the repeat-calls (cleared timeouts) and the timeouts still held. For every
sequence of inputs the up-calls and the timeouts held are together at most the
key-ups: no key-up gives two up-calls. -/
theorem classifier_disciplined (n : Nat) (kd ku : Bool) (ins : List Input)
    (hd : Disciplined (Classifier.empty n kd ku) ins) :
    OnePerCode (run (Classifier.empty n kd ku) ins)
      ∧ Recorded (run (Classifier.empty n kd ku) ins)
      ∧ (∀ c id, (run (Classifier.empty n kd ku) ins).waiting.lookup c = some id →
          ∃ τ ∈ (run (Classifier.empty n kd ku) ins).timers, τ.id = id ∧ τ.c = c)
      ∧ (kd = true → ku = true →
          upCallsAll (run (Classifier.empty n kd ku) ins).calls
            + repeatCalls (run (Classifier.empty n kd ku) ins).calls
            + (run (Classifier.empty n kd ku) ins).timers.length = keyUps ins)
      ∧ (∀ ins2 : List Input,
          upCallsAll (run (Classifier.empty n kd ku) ins2).calls
            + (run (Classifier.empty n kd ku) ins2).timers.length ≤ keyUps ins2) := by
  have hc := run_consistent ins _ (consistent_empty n kd ku) hd
  refine ⟨onePerCode_of_consistent _ hc, hc.1, hc.2.1, ?_, ?_⟩
  · intro hkd hku
    have := run_account ins _ (consistent_empty n kd ku) hkd hku hd
    simpa [Classifier.empty, upCallsAll, upCallsWhere, repeatCalls] using this
  · intro ins2
    have := run_count (fun _ => true) ins2 (Classifier.empty n kd ku)
    rw [pendingWhere_true, pendingWhere_true] at this
    simpa [Classifier.empty, upCallsAll, upCallsWhere, keyUps] using this

set_option maxRecDepth 100000 in
theorem classifier_disciplined_witness :
    Disciplined (Classifier.empty 1 true true)
        [Input.keyup ⟨65, utf16 "a", false, false, false, false, 0⟩,
          Input.keydown ⟨65, utf16 "a", false, false, false, false, 1⟩,
          Input.keyup ⟨65, utf16 "a", false, false, false, false, 2⟩,
          Input.timeout 2]
      ∧ OnePerCode (run (Classifier.empty 1 true true)
          [Input.keyup ⟨65, utf16 "a", false, false, false, false, 0⟩,
            Input.keydown ⟨65, utf16 "a", false, false, false, false, 1⟩,
            Input.keyup ⟨65, utf16 "a", false, false, false, false, 2⟩,
            Input.timeout 2])
      ∧ (run (Classifier.empty 1 true true)
          [Input.keyup ⟨65, utf16 "a", false, false, false, false, 0⟩,
            Input.keydown ⟨65, utf16 "a", false, false, false, false, 1⟩,
            Input.keyup ⟨65, utf16 "a", false, false, false, false, 2⟩,
            Input.timeout 2]).calls
          = [Call.down ⟨4161⟩ 1 true, Call.up ⟨4161⟩ 2] :=
  ⟨⟨by decide, ⟨by decide, trivial⟩⟩,
    (classifier_disciplined 1 true true
      [Input.keyup ⟨65, utf16 "a", false, false, false, false, 0⟩,
        Input.keydown ⟨65, utf16 "a", false, false, false, false, 1⟩,
        Input.keyup ⟨65, utf16 "a", false, false, false, false, 2⟩,
        Input.timeout 2] ⟨by decide, ⟨by decide, trivial⟩⟩).1,
    by decide⟩

/-- C19 (the claim fails): `parseKeys("<x->")` is the four keys of `<`, `x`, `-`
and `>`: after the literal `<` the two characters of the bracket do give keys, and
the result is not `Key(60)` followed by the keys of what comes after the two
characters. -/
theorem parseKeys_two_chars_not_skipped :
    parseKeys asciiToLowerCase (utf16 "<x->")
        = .ok [Key.new 60, letterKey 120, Key.new 45, Key.new 62]
      ∧ parseKeys asciiToLowerCase (utf16 ">") = .ok [Key.new 62]
      ∧ parseKeys asciiToLowerCase (utf16 "<x->") ≠ .ok [Key.new 60, Key.new 62]
      ∧ parseKeys asciiToLowerCase (utf16 "<x->") ≠ .ok [Key.new 60] := by
  decide

/-- C19 (amended): on a bracket of the shape `<x->`, whose content is one character
`x` other than `>` followed by a dash, `parseKeys` does not fail: it pushes
`Key(60)` for the `<` and resumes right after the `<`, at `x`. The result for
`'<' + x + '-' + '>' + rest` is `Key(60)` followed by the keys of
`parseKeys(x + '-' + '>' + rest)`, and is `false` exactly when that call returns
`false`. When `x` is not `<` either, the result is `Key(60)`, the key of `x`,
`Key(45)` and `Key(62)` followed by the keys of `parseKeys(rest)`: the two
characters of the content do give keys. -/
theorem parseKeys_char_dash (lc : JSString → JSString) (x : Nat) (rest : JSString)
    (hx : x ≠ 62) :
    parseKeys lc (60 :: x :: 45 :: 62 :: rest)
        = (parseKeys lc (x :: 45 :: 62 :: rest)).map (fun ks => Key.new 60 :: ks)
      ∧ (x ≠ 60 → parseKeys lc (60 :: x :: 45 :: 62 :: rest)
          = (parseKeys lc rest).map
              (fun ks => Key.new 60 :: charKey x :: Key.new 45 :: Key.new 62 :: ks)) := by
  have hit := iteration_two_chars (parseKeysDepth lc 1) lc x 45 rest hx (by decide)
  have hstep := parseLoop_succ (parseKeysDepth lc 1) lc (60 :: x :: 45 :: 62 :: rest)
    (x :: 45 :: 62 :: rest).length 0 [] (by simp)
  rw [hit] at hstep
  have hshift := parseLoop_shift (parseKeysDepth lc 1) lc [60] (x :: 45 :: 62 :: rest)
    [Key.new 60] (x :: 45 :: 62 :: rest).length 0 []
  have h1 : parseKeys lc (60 :: x :: 45 :: 62 :: rest)
      = (parseKeys lc (x :: 45 :: 62 :: rest)).map (fun ks => Key.new 60 :: ks) := by
    rw [parseKeys_eq, parseKeys_eq]
    exact hstep.trans hshift
  refine ⟨h1, fun h60 => ?_⟩
  rw [h1, parseKeys_cons_plain lc x _ h60, parseKeys_cons_plain lc 45 _ (by decide),
    parseKeys_cons_plain lc 62 _ (by decide), Outcome.map_map, Outcome.map_map,
    Outcome.map_map]
  rfl

theorem parseKeys_char_dash_witness :
    (120 : Nat) ≠ 62 ∧ (120 : Nat) ≠ 60
      ∧ parseKeys asciiToLowerCase (60 :: 120 :: 45 :: 62 :: utf16 "<esc>")
          = (parseKeys asciiToLowerCase (120 :: 45 :: 62 :: utf16 "<esc>")).map
              (fun ks => Key.new 60 :: ks)
      ∧ parseKeys asciiToLowerCase (60 :: 120 :: 45 :: 62 :: utf16 "<esc>")
          = (parseKeys asciiToLowerCase (utf16 "<esc>")).map
              (fun ks => Key.new 60 :: charKey 120 :: Key.new 45 :: Key.new 62 :: ks)
      ∧ parseKeys asciiToLowerCase (utf16 "<esc>") = .ok [Key.new 27] :=
  ⟨by decide, by decide,
    (parseKeys_char_dash asciiToLowerCase 120 (utf16 "<esc>") (by decide)).1,
    (parseKeys_char_dash asciiToLowerCase 120 (utf16 "<esc>") (by decide)).2 (by decide),
    by decide⟩

/-- C20: for every string `s`, `parseKeys(s)` returns: the model is never stuck,
neither for lack of fuel nor in the call of itself, which is made on words of one
character only and returns the key of the character without a further call; more
fuel or a greater depth gives the same result. Every iteration of the main loop
either returns `false` or pushes one key and goes on at a greater index. A result
that is an array has at most as many keys as `s` has characters, and at least one
key when `s` is not empty. -/
theorem parseKeys_terminates (lc : JSString → JSString) (s : JSString) :
    parseKeys lc s ≠ .stuck
      ∧ (∀ ks, parseKeys lc s = .ok ks → ks.length ≤ s.length ∧ (s ≠ [] → 1 ≤ ks.length))
      ∧ (∀ i, i < s.length →
          (∀ (fuel : Nat) (res : List Key),
              parseLoop (parseKeysDepth lc 1) lc s (fuel + 1) i res = .failure)
            ∨ ∃ (k : Key) (i1 : Nat), i < i1 ∧ ∀ (fuel : Nat) (res : List Key),
                parseLoop (parseKeysDepth lc 1) lc s (fuel + 1) i res
                  = parseLoop (parseKeysDepth lc 1) lc s fuel i1 (res ++ [k]))
      ∧ (∀ c, parseKeysDepth lc 1 [c] = .ok [charKey c])
      ∧ (∀ extra depth : Nat,
          parseLoop (parseKeysDepth lc (depth + 1)) lc s (s.length + extra) 0 []
            = parseKeys lc s) := by
  have hself : ∀ c, parseKeysDepth lc 1 [c] = .ok [charKey c] :=
    fun c => parseKeysDepth_single lc 0 c
  obtain ⟨h1, h2⟩ := parseLoop_total (parseKeysDepth lc 1) lc hself s s.length 0 []
    (by omega)
  refine ⟨by rw [parseKeys_eq]; exact h1, ?_, ?_, hself, ?_⟩
  · intro ks hks
    rw [parseKeys_eq] at hks
    obtain ⟨_, h4, h5⟩ := h2 ks hks
    simp only [List.length_nil, Nat.zero_add, Nat.sub_zero] at h4 h5
    refine ⟨h4, fun hne => h5 ?_⟩
    cases s with
    | nil => exact absurd rfl hne
    | cons a l => simp
  · intro i hi
    cases hit : iteration (parseKeysDepth lc 1) lc s i with
    | ok p =>
      obtain ⟨k, i1⟩ := p
      refine Or.inr ⟨k, i1, iteration_ok_lt _ _ _ _ _ _ hit, ?_⟩
      intro fuel res
      rw [parseLoop_succ _ _ _ _ _ _ hi, hit]
    | failure =>
      refine Or.inl ?_
      intro fuel res
      rw [parseLoop_succ _ _ _ _ _ _ hi, hit]
    | stuck => exact absurd hit (iteration_ne_stuck _ lc hself s i hi)
  · intro extra depth
    rw [parseLoop_fuel_ge, parseKeys_eq]
    exact parseLoop_congr _ _ lc
      (fun c => (parseKeysDepth_single lc depth c).trans (hself c).symm) s s.length 0 []

end KeysJS
